import Mathlib

/-!
# A shallow embedding of `neuro.go`

The network of `neuro.go` is a record of Go slices that every method mutates in
place.  Here a slice is a `List`, the receiver `nn` is passed in and handed
back, and a run-time panic (index out of range, `make` with a negative
length, integer division by zero) is the result `none`.

Numbers.  In the definitions `float64` is an arbitrary carrier `F` with the
operations the source uses (`+`, `-`, `*`, `/`, unary minus, the literals `0.0`,
`1.0`, `0.5`).  The definitions assume no law about them, so whatever is proved
without further assumptions on `F` holds of IEEE arithmetic as well; theorems
that need algebra say which structure they assume.  The carrier `F64` reads
the type itself: rationals rounded to the nearest value of the format, with
the infinities and NaN; what depends on rounding is proved there.  The library
calls `math.Pow`, the constant `math.E` and the conversions between `int` and
`float64` are the fields of `GoMath`.  Go `int` is `Int`: every integer the code
computes is a length or a loop counter, far from the 64-bit bounds, except the
sizes handed to `New`, whose increment wraps around as that of `int` does.

Sources of nondeterminism are explicit arguments: the values drawn by
`rand.Float64`, the entries produced by `matrix.Random`, and the order in
which a `range` statement enumerates a map.
-/

set_option linter.unusedSectionVars false

namespace Neuro

/-! ## Slices and loops -/

/-- Indexing `s[k]` of a Go slice: `none` is the index-out-of-range panic. -/
def getAt {α : Type} (s : List α) (k : Int) : Option α :=
  if 0 ≤ k then s[k.toNat]? else none

/-- Assignment `s[k] = v` to a Go slice: `none` is the index-out-of-range panic. -/
def setAt {α : Type} (s : List α) (k : Int) (v : α) : Option (List α) :=
  if 0 ≤ k ∧ k.toNat < s.length then some (s.set k.toNat v) else none

/-- Indexing `m[i][j]` of a slice of slices. -/
def getAt2 {α : Type} (m : List (List α)) (i j : Int) : Option α :=
  (getAt m i).bind (fun row => getAt row j)

/-- Assignment `m[i][j] = v` to a slice of slices. -/
def setAt2 {α : Type} (m : List (List α)) (i j : Int) (v : α) : Option (List (List α)) :=
  (getAt m i).bind (fun row => (setAt row j v).bind (fun row1 => setAt m i row1))

/-- The built-in `len` of a slice, a Go `int`. -/
def len {α : Type} (s : List α) : Int := (s.length : Int)

/-- The counter values of `for i := 0; i < n; i++`, in order. -/
def upTo (n : Int) : List Int := (List.range n.toNat).map Int.ofNat

/-- Running a loop body over the successive values of its loop variable; the
body may panic, which ends the run. -/
def forEach {κ σ : Type} : List κ → (κ → σ → Option σ) → σ → Option σ
  | [], _, s => some s
  | k :: ks, body, s => (body k s).bind (forEach ks body)

/-- The accumulation `sum := 0.0; for ... { sum += term }`: the terms are added
to the running sum from the left, in the order of the loop. -/
def sumLoop {κ F : Type} [Zero F] [Add F] (ks : List κ) (term : κ → Option F) : Option F :=
  forEach ks (fun k acc => (term k).map (fun t => acc + t)) 0

/-- The left-to-right sum of the terms `f k`, from `0`: what `sumLoop` computes
when no term panics. -/
def sumOf {κ F : Type} [Zero F] [Add F] (ks : List κ) (f : κ → F) : F :=
  ks.foldl (fun acc k => acc + f k) 0

/-- The shape of a slice of slices: the lengths of its rows. -/
def dims {α : Type} (m : List (List α)) : List Nat := m.map List.length

/-- The element `s[k]`, read as `0` where the slice has no index `k`. -/
def valAt {F : Type} [Zero F] (s : List F) (k : Int) : F := (getAt s k).getD 0

/-- The element `m[i][j]`, read as `0` where the matrix has no such cell. -/
def valAt2 {F : Type} [Zero F] (m : List (List F)) (i j : Int) : F := (getAt2 m i j).getD 0

/-- The built-in `make([]T, n)` with the zero value `z` of `T`: a negative
length panics. The limit the runtime sets to the size of an allocation is not
modelled: every length that is not negative is allocated. -/
def make {α : Type} (z : α) (n : Int) : Option (List α) :=
  if 0 ≤ n then some (List.replicate n.toNat z) else none

/-! ## The network -/

/-- The struct `Net`, field for field. -/
structure Net (F : Type) where
  HiddenLayer : List F
  InputLayer : List F
  OutputLayer : List F
  WeightHidden : List (List F)
  WeightOutput : List (List F)
  ErrOutput : List F
  ErrHidden : List F
  LastChangeHidden : List (List F)
  LastChangeOutput : List (List F)
  Regression : Bool
  Rate1 : F
  Rate2 : F
deriving DecidableEq

/-- The two errors the package creates with `errors.New`:
`input` is "amount of input variable doesn't match",
`output` is "amount of output variable doesn't match". -/
inductive ShapeError where
  | input
  | output
deriving DecidableEq

/-- A network has the shape that `New` gives it for the sizes `(I, H, O)`: layers
of `I + 1`, `H + 1` and `O` units, error buffers as long as the output and
hidden layers, `WeightHidden` and `LastChangeHidden` of `H + 1` rows of `I + 1`
entries, `WeightOutput` and `LastChangeOutput` of `O` rows of `H + 1` entries. -/
def WellShaped {F : Type} (nn : Net F) (I H O : Nat) : Prop :=
  nn.InputLayer.length = I + 1 ∧ nn.HiddenLayer.length = H + 1 ∧ nn.OutputLayer.length = O ∧
  nn.ErrOutput.length = O ∧ nn.ErrHidden.length = H + 1 ∧
  dims nn.WeightHidden = List.replicate (H + 1) (I + 1) ∧
  dims nn.WeightOutput = List.replicate O (H + 1) ∧
  dims nn.LastChangeHidden = List.replicate (H + 1) (I + 1) ∧
  dims nn.LastChangeOutput = List.replicate O (H + 1)

instance {F : Type} (nn : Net F) (I H O : Nat) : Decidable (WellShaped nn I H O) :=
  inferInstanceAs (Decidable (_ ∧ _ ∧ _ ∧ _ ∧ _ ∧ _ ∧ _ ∧ _ ∧ _))

deriving instance DecidableEq for Except

/-- What the source takes from the Go library rather than computes itself. -/
structure GoMath (F : Type) where
  /-- The function `math.Pow`. -/
  Pow : F → F → F
  /-- The constant `math.E`. -/
  E : F
  /-- The conversion `int(x)` of a `float64`. -/
  toInt : F → Int
  /-- The conversion `float64(n)` of an `int`. -/
  ofInt : Int → F

section Model

variable {F : Type} [Zero F] [One F] [Add F] [Sub F] [Mul F] [Div F] [Neg F] [OfScientific F]

/-- The function `sigmoid` of the source: `1.0 / (1.0 + math.Pow(math.E, -x))`. -/
def sigmoid (P : GoMath F) (x : F) : F :=
  1 / (1 + P.Pow P.E (-x))

/-- The function `dsigmoid` of the source: `y * (1.0 - y)`. -/
def dsigmoid (y : F) : F :=
  y * (1 - y)

/-- Modelled from the spec: `matrix.Random(rows, cols, low, high)` of the package
`matrix`, which is not among the sources. The spec says it returns a
rows×cols container of independent uniform-random values in `[low, high)`;
`src i j` is the value drawn for entry `(i, j)`. -/
def matrixRandom (src : Nat → Nat → F) (rows cols : Int) (_low _high : F) : List (List F) :=
  (List.range rows.toNat).map (fun i => (List.range cols.toNat).map (fun j => src i j))

/-- Modelled from the spec: `matrix.New(rows, cols, value)` of the package
`matrix`, which is not among the sources. The spec says it returns a
rows×cols container with every entry equal to `value`. -/
def matrixNew (rows cols : Int) (value : F) : List (List F) :=
  List.replicate rows.toNat (List.replicate cols.toNat value)

/-- The statement `n += 1` on an `int`, which has 64 bits on a 64-bit platform:
the sum is taken modulo `2^64` into the range of `int`, so that
`math.MaxInt64 + 1` is `math.MinInt64`. An `n` outside that range is no value
of the type and is only increased. -/
def incInt (n : Int) : Int :=
  if -2 ^ 63 ≤ n ∧ n < 2 ^ 63 then (n + 1 + 2 ^ 63) % 2 ^ 64 - 2 ^ 63 else n + 1

/-- The constructor `New`. `srcH` and `srcO` are the values `matrix.Random`
draws for the two weight matrices; `rand.Seed` only prepares those draws.
The literals `-1.0` and `1.0` are the bounds handed to `matrix.Random`. -/
def New (srcH srcO : Nat → Nat → F) (iInputCount iHiddenCount iOutputCount : Int)
    (iRegression : Bool) (iRate1 iRate2 : F) : Option (Net F) :=
  let iInputCount := incInt iInputCount
  let iHiddenCount := incInt iHiddenCount
  (make (0 : F) iInputCount).bind fun inputLayer =>
  (make (0 : F) iHiddenCount).bind fun hiddenLayer =>
  (make (0 : F) iOutputCount).bind fun outputLayer =>
  (make (0 : F) iOutputCount).bind fun errOutput =>
  (make (0 : F) iHiddenCount).bind fun errHidden =>
  some
    { HiddenLayer := hiddenLayer
      InputLayer := inputLayer
      OutputLayer := outputLayer
      WeightHidden := matrixRandom srcH iHiddenCount iInputCount (-1) 1
      WeightOutput := matrixRandom srcO iOutputCount iHiddenCount (-1) 1
      ErrOutput := errOutput
      ErrHidden := errHidden
      LastChangeHidden := matrixNew iHiddenCount iInputCount 0
      LastChangeOutput := matrixNew iOutputCount iHiddenCount 0
      Regression := iRegression
      Rate1 := iRate1
      Rate2 := iRate2 }

/-- The constructor `Defaultk`: `New` with the rates `0.25` and `0.1`. -/
def Defaultk (srcH srcO : Nat → Nat → F) (iInputCount iHiddenCount iOutputCount : Int)
    (iRegression : Bool) : Option (Net F) :=
  New srcH srcO iInputCount iHiddenCount iOutputCount iRegression 0.25 0.1

/-! ### The forward pass -/

/-- Lines 110-112 of `Forward`: `nn.InputLayer[i] = input[i]` for `i < len(input)`. -/
def copyInput (nn : Net F) (input : List F) : Option (Net F) :=
  (forEach (upTo (len input))
      (fun i layer => (getAt input i).bind (fun x => setAt layer i x)) nn.InputLayer).map
    fun layer => { nn with InputLayer := layer }

/-- Lines 113 and 270: `nn.InputLayer[len(nn.InputLayer)-1] = 1.0`. -/
def biasInput (nn : Net F) : Option (Net F) :=
  (setAt nn.InputLayer (len nn.InputLayer - 1) 1).map fun layer => { nn with InputLayer := layer }

/-- The hidden loop of the forward passes, lines 115-121 and 272-278: for
`i < len(nn.HiddenLayer)-1` the sum of `nn.InputLayer[j] * nn.WeightHidden[i][j]`
over the indices `cols i` goes through the sigmoid into `nn.HiddenLayer[i]`.
`Forward` lets `j` run up to `len(nn.InputLayer)`, `ForwardMap` over the keys of
its map. -/
def hiddenPass (P : GoMath F) (nn : Net F) (cols : Int → List Int) : Option (Net F) :=
  (forEach (upTo (len nn.HiddenLayer - 1))
      (fun i layer =>
        (sumLoop (cols i) (fun j =>
            (getAt nn.InputLayer j).bind fun x =>
            (getAt2 nn.WeightHidden i j).map fun w => x * w)).bind
          fun sum => setAt layer i (sigmoid P sum))
      nn.HiddenLayer).map
    fun layer => { nn with HiddenLayer := layer }

/-- Lines 123 and 280: `nn.HiddenLayer[len(nn.HiddenLayer)-1] = 1.0`. -/
def biasHidden (nn : Net F) : Option (Net F) :=
  (setAt nn.HiddenLayer (len nn.HiddenLayer - 1) 1).map fun layer => { nn with HiddenLayer := layer }

/-- The output loop of the forward passes, lines 124-134, repeated at 281-291:
`nn.OutputLayer[i]` becomes the sum of `nn.HiddenLayer[j] * nn.WeightOutput[i][j]`
over `j < len(nn.HiddenLayer)`, through the sigmoid unless `nn.Regression`. -/
def outputPass (P : GoMath F) (nn : Net F) : Option (Net F) :=
  (forEach (upTo (len nn.OutputLayer))
      (fun i layer =>
        (sumLoop (upTo (len nn.HiddenLayer)) (fun j =>
            (getAt nn.HiddenLayer j).bind fun h =>
            (getAt2 nn.WeightOutput i j).map fun w => h * w)).bind
          fun sum => setAt layer i (if nn.Regression then sum else sigmoid P sum))
      nn.OutputLayer).map
    fun layer => { nn with OutputLayer := layer }

/-- The method `Forward`. The result is the network after the call together
with what the call returns: the error, or the slice `nn.OutputLayer[:]`. -/
def Forward (P : GoMath F) (nn : Net F) (input : List F) :
    Option (Net F × Except ShapeError (List F)) :=
  if len input + 1 ≠ len nn.InputLayer then
    some (nn, Except.error ShapeError.input)
  else
    (copyInput nn input).bind fun nn =>
    (biasInput nn).bind fun nn =>
    (hiddenPass P nn (fun _ => upTo (len nn.InputLayer))).bind fun nn =>
    (biasHidden nn).bind fun nn =>
    (outputPass P nn).map fun nn => (nn, Except.ok nn.OutputLayer)

/-! ### The backward pass -/

/-- Lines 139-141 of `Feedback`, repeated at 296-298:
`nn.ErrOutput[i] = nn.OutputLayer[i] - target[i]` for `i < len(nn.OutputLayer)`. -/
def errOutputPass (nn : Net F) (target : List F) : Option (Net F) :=
  (forEach (upTo (len nn.OutputLayer))
      (fun i errs =>
        (getAt nn.OutputLayer i).bind fun o =>
        (getAt target i).bind fun t => setAt errs i (o - t))
      nn.ErrOutput).map
    fun errs => { nn with ErrOutput := errs }

/-- Lines 143-154 of `Feedback`, repeated at 300-311: for `i < len(nn.HiddenLayer)-1`
the sum over `j < len(nn.OutputLayer)` of `nn.ErrOutput[j] * nn.WeightOutput[j][i]`,
times `dsigmoid(nn.OutputLayer[j])` unless `nn.Regression`, goes into `nn.ErrHidden[i]`. -/
def errHiddenPass (nn : Net F) : Option (Net F) :=
  (forEach (upTo (len nn.HiddenLayer - 1))
      (fun i errs =>
        (sumLoop (upTo (len nn.OutputLayer)) (fun j =>
            (getAt nn.ErrOutput j).bind fun e =>
            (getAt2 nn.WeightOutput j i).bind fun w =>
            if nn.Regression then some (e * w)
            else (getAt nn.OutputLayer j).map fun o => e * w * dsigmoid o)).bind
          fun err => setAt errs i err)
      nn.ErrHidden).map
    fun errs => { nn with ErrHidden := errs }

/-- Lines 156-170 of `Feedback`, repeated at 313-327: the update of
`nn.WeightOutput[i][j]` and `nn.LastChangeOutput[i][j]` for `i < len(nn.OutputLayer)`
and `j < len(nn.HiddenLayer)`. The loop state is the pair of the two matrices. -/
def outputWeightPass (nn : Net F) : Option (Net F) :=
  (forEach (upTo (len nn.OutputLayer))
      (fun i =>
        forEach (upTo (len nn.HiddenLayer))
          (fun j (st : List (List F) × List (List F)) =>
            (if nn.Regression then getAt nn.ErrOutput i
             else (getAt nn.ErrOutput i).bind fun e =>
                  (getAt nn.OutputLayer i).map fun o => e * dsigmoid o).bind fun delta =>
            (getAt nn.HiddenLayer j).bind fun h =>
            (getAt2 st.2 i j).bind fun last =>
            let change := nn.Rate1 * delta * h + nn.Rate2 * last
            (getAt2 st.1 i j).bind fun w =>
            (setAt2 st.1 i j (w - change)).bind fun weights =>
            (setAt2 st.2 i j change).map fun lasts => (weights, lasts)))
      (nn.WeightOutput, nn.LastChangeOutput)).map
    fun st => { nn with WeightOutput := st.1, LastChangeOutput := st.2 }

/-- The last loop of the backward passes, lines 172-180 and 329-337: the update
of `nn.WeightHidden[i][j]` and `nn.LastChangeHidden[i][j]` for
`i < len(nn.HiddenLayer)-1` and `j` over the indices `cols i`. `Feedback` lets
`j` run up to `len(nn.InputLayer)`, `FeedbackMap` over the keys of its map. -/
def hiddenWeightPass (nn : Net F) (cols : Int → List Int) : Option (Net F) :=
  (forEach (upTo (len nn.HiddenLayer - 1))
      (fun i =>
        forEach (cols i)
          (fun j (st : List (List F) × List (List F)) =>
            (getAt nn.ErrHidden i).bind fun e =>
            (getAt nn.HiddenLayer i).bind fun h =>
            let delta := e * dsigmoid h
            (getAt nn.InputLayer j).bind fun x =>
            (getAt2 st.2 i j).bind fun last =>
            let change := nn.Rate1 * delta * x + nn.Rate2 * last
            (getAt2 st.1 i j).bind fun w =>
            (setAt2 st.1 i j (w - change)).bind fun weights =>
            (setAt2 st.2 i j change).map fun lasts => (weights, lasts)))
      (nn.WeightHidden, nn.LastChangeHidden)).map
    fun st => { nn with WeightHidden := st.1, LastChangeHidden := st.2 }

/-- The value `change` of lines 158-165 for the cell `(i, j)`, from the buffers
of `nn` and the previous change `last`. -/
def outputChange (nn : Net F) (i j : Int) (last : F) : F :=
  nn.Rate1 * (if nn.Regression then valAt nn.ErrOutput i
    else valAt nn.ErrOutput i * dsigmoid (valAt nn.OutputLayer i)) * valAt nn.HiddenLayer j +
    nn.Rate2 * last

/-- The value `change` of lines 174-175 for the cell `(i, j)`, from the buffers
of `nn` and the previous change `last`. -/
def hiddenChange (nn : Net F) (i j : Int) (last : F) : F :=
  nn.Rate1 * (valAt nn.ErrHidden i * dsigmoid (valAt nn.HiddenLayer i)) * valAt nn.InputLayer j +
    nn.Rate2 * last

/-- The method `Feedback`; the result is the network after the call. -/
def Feedback (nn : Net F) (target : List F) : Option (Net F) :=
  (errOutputPass nn target).bind fun nn =>
  (errHiddenPass nn).bind fun nn =>
  (outputWeightPass nn).bind fun nn =>
  hiddenWeightPass nn (fun _ => upTo (len nn.InputLayer))

/-- The method `CalcError`: `errSum += 0.5 * err * err` with
`err := nn.OutputLayer[i] - target[i]`, for `i < len(nn.OutputLayer)`. -/
def CalcError (nn : Net F) (target : List F) : Option F :=
  sumLoop (upTo (len nn.OutputLayer)) (fun i =>
    (getAt nn.OutputLayer i).bind fun o =>
    (getAt target i).map fun t =>
      let err := o - t
      0.5 * err * err)

/-! ### The sparse passes -/

/-- A Go `map[int]float64` as the code sees it: `m r` is the sequence of
key/value pairs that the `r`-th `range` statement run over the map by one
call delivers. Go fixes no order, and none between two `range` statements. -/
abbrev RangeSeq (F : Type) := Nat → List (Int × F)

/-- The `range` sequences `m` enumerate the map with the entries `es`: the
keys of `es` are distinct and every enumeration is a rearrangement of `es`. -/
def Enumerates (m : RangeSeq F) (es : List (Int × F)) : Prop :=
  (es.map Prod.fst).Nodup ∧ ∀ r, (m r).Perm es

/-- Lines 267-269 of `ForwardMap`: `nn.InputLayer[k] = v` for `k, v := range input`. -/
def copyInputMap (nn : Net F) (entries : List (Int × F)) : Option (Net F) :=
  (forEach entries (fun kv layer => setAt layer kv.1 kv.2) nn.InputLayer).map
    fun layer => { nn with InputLayer := layer }

/-- The method `ForwardMap`. The first `range` of the call copies the map, the
`range` over its keys for hidden unit `i` is the one numbered `i + 1`. -/
def ForwardMap (P : GoMath F) (nn : Net F) (input : RangeSeq F) : Option (Net F × List F) :=
  (copyInputMap nn (input 0)).bind fun nn =>
  (biasInput nn).bind fun nn =>
  (hiddenPass P nn (fun i => (input (i.toNat + 1)).map Prod.fst)).bind fun nn =>
  (biasHidden nn).bind fun nn =>
  (outputPass P nn).map fun nn => (nn, nn.OutputLayer)

/-- The method `FeedbackMap`. The `range` over the keys of the map for hidden
unit `i` is the one numbered `i`. -/
def FeedbackMap (nn : Net F) (target : List F) (input : RangeSeq F) : Option (Net F) :=
  (errOutputPass nn target).bind fun nn =>
  (errHiddenPass nn).bind fun nn =>
  (outputWeightPass nn).bind fun nn =>
  hiddenWeightPass nn (fun i => (input i.toNat).map Prod.fst)

/-! ### Training -/

/-- The function `genRandomIdx`. `draws c` is the value of the `c`-th call of
`rand.Float64`; the result carries the number of draws used so far. -/
def genRandomIdx (P : GoMath F) (draws : Nat → F) (c : Nat) (N : Int) : Option (List Int × Nat) :=
  (make (0 : Int) N).bind fun A =>
  (forEach (upTo N) (fun i A => setAt A i i) A).bind fun A =>
  forEach (upTo N)
    (fun i (st : List Int × Nat) =>
      let j := i + P.toInt (draws st.2 * P.ofInt (N - i))
      (getAt st.1 j).bind fun aj =>
      (getAt st.1 i).bind fun ai =>
      (setAt st.1 i aj).bind fun A =>
      (setAt A j ai).map fun A => (A, st.2 + 1))
    (A, c)

/-- The integer remainder `a % b` of Go: truncated, and a zero divisor panics. -/
def goMod (a b : Int) : Option Int :=
  if b = 0 then none else some (Int.tmod a b)

/-- The test `(iteration >= 10 && (i+1)%(iteration/10) == 0) || iteration < 10`
that decides whether the error of epoch `i` is printed; `&&` and `||` evaluate
their right operand only when needed. -/
def reportDue (iteration i : Int) : Option Bool :=
  if 10 ≤ iteration then
    (goMod (i + 1) (Int.tdiv iteration 10)).map fun r =>
      if r = 0 then true else decide (iteration < 10)
  else some (decide (iteration < 10))

/-- Lines 218-220 of `Train`, the work on the sample at position `j` of the
shuffled order: `Forward` (what it returns is dropped), `Feedback`, and
`CalcError` added to `cur_err`. The progress line printed every 1000 samples
computes nothing that is used or that can panic, and is left out. -/
def trainStep (P : GoMath F) (inputs targets : List (List F)) (idx_ary : List Int) (j : Int)
    (st : Net F × F) : Option (Net F × F) :=
  (getAt idx_ary j).bind fun idx =>
  (getAt inputs idx).bind fun input =>
  (Forward P st.1 input).bind fun r =>
  (getAt targets idx).bind fun target =>
  (Feedback r.1 target).bind fun nn =>
  (CalcError nn target).map fun e => (nn, st.2 + e)

/-- Lines 216-228 of `Train`: one pass over the samples in the order `idx_ary`,
from `cur_err := 0.0`. -/
def epochPass (P : GoMath F) (inputs targets : List (List F)) (idx_ary : List Int)
    (nn : Net F) : Option (Net F × F) :=
  forEach (upTo (len inputs)) (trainStep P inputs targets idx_ary) (nn, 0)

/-- The method `Train`. The result is the network after the call together with
the returned error, if any. The loop state is the network and the number of
random draws used; what the epochs print is not modelled, the test that
guards the printing is. -/
def Train (P : GoMath F) (draws : Nat → F) (nn : Net F) (inputs targets : List (List F))
    (iteration : Int) : Option (Net F × Except ShapeError Unit) :=
  (getAt inputs 0).bind fun input0 =>
  if len input0 + 1 ≠ len nn.InputLayer then
    some (nn, Except.error ShapeError.input)
  else
    (getAt targets 0).bind fun target0 =>
    if len target0 ≠ len nn.OutputLayer then
      some (nn, Except.error ShapeError.output)
    else
      (forEach (upTo iteration)
          (fun i (st : Net F × Nat) =>
            (genRandomIdx P draws st.2 (len inputs)).bind fun g =>
            (epochPass P inputs targets g.1 st.1).bind fun e =>
            (reportDue iteration i).map fun _ => (e.1, g.2))
          (nn, 0)).map
        fun st => (st.1, Except.ok ())

/-- Lines 247-249 of `TrainMap`, the work on the sample at position `j` of the
shuffled order in epoch `i`. A map of `inputs` is given with the `range`
sequences of each call made with it: this step is the step number
`i * len(inputs) + j`, its `ForwardMap` is call `2 * step` and its `FeedbackMap`
call `2 * step + 1`. -/
def trainMapStep (P : GoMath F) (inputs : List (Nat → RangeSeq F)) (targets : List (List F))
    (i : Int) (idx_ary : List Int) (j : Int) (st : Net F × F) : Option (Net F × F) :=
  let step := (i * len inputs + j).toNat
  (getAt idx_ary j).bind fun idx =>
  (getAt inputs idx).bind fun input =>
  (ForwardMap P st.1 (input (2 * step))).bind fun r =>
  (getAt targets idx).bind fun target =>
  (FeedbackMap r.1 target (input (2 * step + 1))).bind fun nn =>
  (CalcError nn target).map fun e => (nn, st.2 + e)

/-- Lines 245-257 of `TrainMap`: one pass over the samples in the order
`idx_ary`, from `cur_err := 0.0`. -/
def epochPassMap (P : GoMath F) (inputs : List (Nat → RangeSeq F)) (targets : List (List F))
    (i : Int) (idx_ary : List Int) (nn : Net F) : Option (Net F × F) :=
  forEach (upTo (len inputs)) (trainMapStep P inputs targets i idx_ary) (nn, 0)

/-- The method `TrainMap`, modelled as `Train` is. -/
def TrainMap (P : GoMath F) (draws : Nat → F) (nn : Net F) (inputs : List (Nat → RangeSeq F))
    (targets : List (List F)) (iteration : Int) : Option (Net F × Except ShapeError Unit) :=
  (getAt targets 0).bind fun target0 =>
  if len target0 ≠ len nn.OutputLayer then
    some (nn, Except.error ShapeError.output)
  else
    (forEach (upTo iteration)
        (fun i (st : Net F × Nat) =>
          (genRandomIdx P draws st.2 (len inputs)).bind fun g =>
          (epochPassMap P inputs targets i g.1 st.1).bind fun e =>
          (reportDue iteration i).map fun _ => (e.1, g.2))
        (nn, 0)).map
      fun st => (st.1, Except.ok ())

/-! ### The two paths over a sequence of samples -/

/-- The map enumerated by `m` holds the features of the dense vector `v` and
nothing else: its keys are exactly the indices `0 .. len(v)-1`, each with the
value `v` has there. -/
def IsFeatureMap (v : List F) (m : RangeSeq F) : Prop :=
  ∃ es, Enumerates m es ∧ (es.map Prod.fst).Perm (upTo (len v)) ∧
    ∀ kv ∈ es, getAt v kv.1 = some kv.2

/-- The map enumerated by `m` holds the dense vector `v` and the bias index: its
keys are exactly the indices `0 .. len(v)`, each feature index with the value
`v` has there, the index `len(v)` with any value. -/
def IsDenseMap (v : List F) (m : RangeSeq F) : Prop :=
  ∃ es, Enumerates m es ∧ (es.map Prod.fst).Perm (upTo (len v + 1)) ∧
    ∀ kv ∈ es, kv.1 < len v → getAt v kv.1 = some kv.2

/-- The dense path over a sequence of samples `(input, target)`, in order:
`Forward` then `Feedback` on each, as the inner loop of `Train` does. -/
def denseRun (P : GoMath F) (samples : List (List F × List F)) (nn : Net F) : Option (Net F) :=
  forEach samples (fun s nn => (Forward P nn s.1).bind fun r => Feedback r.1 s.2) nn

/-- The sparse path over a sequence of samples `((map, map), target)`, in order:
`ForwardMap` then `FeedbackMap` on each, as the inner loop of `TrainMap` does.
The map of a sample comes twice, with its `range` sequences in either call. -/
def sparseRun (P : GoMath F) (samples : List ((RangeSeq F × RangeSeq F) × List F))
    (nn : Net F) : Option (Net F) :=
  forEach samples
    (fun s nn => (ForwardMap P nn s.1.1).bind fun r => FeedbackMap r.1 s.2 s.1.2) nn

end Model

/-! ## Concrete data

An exact reading of the library on the rationals and small networks, on which
the definitions above can be run. -/

/-- The Go library read on `ℚ`: `math.Pow` is exact for whole exponents (the
exponent is rounded down first), `math.E` is cut after nine decimals, and
`int(x)` drops the fraction. -/
def ratMath : GoMath ℚ where
  Pow := fun b x => b ^ ⌊x⌋
  E := 2718281828 / 1000000000
  toInt := fun x => if 0 ≤ x then ⌊x⌋ else -⌊-x⌋
  ofInt := fun n => (n : ℚ)

/-- A network of sizes `(1, 1, 1)` in regression mode with all hidden weights `0`,
so that the hidden unit receives the sum `0` and holds `sigmoid(0) = 1/2`. -/
def net0 : Net ℚ where
  HiddenLayer := [0, 0]
  InputLayer := [0, 0]
  OutputLayer := [0]
  WeightHidden := [[0, 0], [0, 0]]
  WeightOutput := [[1, 0]]
  ErrOutput := [0]
  ErrHidden := [0, 0]
  LastChangeHidden := [[0, 0], [0, 0]]
  LastChangeOutput := [[0, 0]]
  Regression := true
  Rate1 := 1
  Rate2 := 0

/-- The network `net0` after `Forward` on the input `[1]`. -/
def net0Forward : Net ℚ :=
  { net0 with InputLayer := [1, 1], HiddenLayer := [1 / 2, 1], OutputLayer := [1 / 2] }

/-- What `New` returns for the sizes `(1, -1, 1)`: the hidden layer is empty. -/
def netNoHidden : Net ℚ where
  HiddenLayer := []
  InputLayer := [0, 0]
  OutputLayer := [0]
  WeightHidden := []
  WeightOutput := [[]]
  ErrOutput := [0]
  ErrHidden := []
  LastChangeHidden := []
  LastChangeOutput := [[]]
  Regression := false
  Rate1 := 1 / 4
  Rate2 := 1 / 10

/-- What `New` returns for the sizes `(0, 0, 0)` in classification mode with the
rates `1/4` and `1/10`: layers that hold their bias unit only, no output unit. -/
def netZero : Net ℚ where
  HiddenLayer := [0]
  InputLayer := [0]
  OutputLayer := []
  WeightHidden := [[0]]
  WeightOutput := []
  ErrOutput := []
  ErrHidden := [0]
  LastChangeHidden := [[0]]
  LastChangeOutput := []
  Regression := false
  Rate1 := 1 / 4
  Rate2 := 1 / 10

section Frames
variable {F : Type} [Zero F] [One F] [Add F] [Sub F] [Mul F] [Div F] [Neg F] [OfScientific F]

/-- The network `b` has the shape of the network `a`: every layer and buffer has
the same length, every matrix the same rows of the same lengths. -/
def SameShape (a b : Net F) : Prop :=
  len b.InputLayer = len a.InputLayer ∧ len b.HiddenLayer = len a.HiddenLayer ∧
  len b.OutputLayer = len a.OutputLayer ∧ len b.ErrOutput = len a.ErrOutput ∧
  len b.ErrHidden = len a.ErrHidden ∧
  dims b.WeightHidden = dims a.WeightHidden ∧ dims b.WeightOutput = dims a.WeightOutput ∧
  dims b.LastChangeHidden = dims a.LastChangeHidden ∧
  dims b.LastChangeOutput = dims a.LastChangeOutput

/-- The network `b` holds what the network `a` holds at index `k` of what belongs
to a hidden unit: the row `k` of `WeightHidden`, the row `k` of
`LastChangeHidden` and the entry `k` of `ErrHidden`. -/
def SameHiddenRow (k : Int) (a b : Net F) : Prop :=
  getAt b.WeightHidden k = getAt a.WeightHidden k ∧
  getAt b.LastChangeHidden k = getAt a.LastChangeHidden k ∧
  getAt b.ErrHidden k = getAt a.ErrHidden k

/-- What every method keeps of a network `a` in the network `b` it leaves: the
shape, and whatever belongs to an index that is not a hidden unit before the
last, the hidden bias unit first of all. -/
def Keeps (a b : Net F) : Prop :=
  SameShape a b ∧ ∀ k, ¬ (0 ≤ k ∧ k < len a.HiddenLayer - 1) → SameHiddenRow k a b

/-- The network `nn` with the row `H` of `WeightHidden` replaced by `rW` and the
row `H` of `LastChangeHidden` replaced by `rL`. -/
def setBiasRows (H : Nat) (nn : Net F) (rW rL : List F) : Net F :=
  { nn with WeightHidden := nn.WeightHidden.set H rW,
            LastChangeHidden := nn.LastChangeHidden.set H rL }

/-- A call of one of the methods that work on the layers of a network. -/
inductive Call (F : Type) where
  | forward (input : List F)
  | forwardMap (input : RangeSeq F)
  | feedback (target : List F)
  | feedbackMap (target : List F) (input : RangeSeq F)
  | calcError (target : List F)

/-- The network after a call; what the call returns to its caller is dropped. -/
def runCall (P : GoMath F) (c : Call F) (nn : Net F) : Option (Net F) :=
  match c with
  | Call.forward input => (Forward P nn input).map Prod.fst
  | Call.forwardMap input => (ForwardMap P nn input).map Prod.fst
  | Call.feedback target => Feedback nn target
  | Call.feedbackMap target input => FeedbackMap nn target input
  | Call.calcError target => (CalcError nn target).map fun _ => nn

/-- The network after a sequence of calls, made one after the other. -/
def runCalls (P : GoMath F) (calls : List (Call F)) (nn : Net F) : Option (Net F) :=
  forEach calls (runCall P) nn

/-- The arguments of a call are in range for a network of sizes `(I, H, O)`: a
target reaches as far as the output layer, and the keys of a map are distinct
indices of the input layer. `Forward` takes any input: it tests the length. -/
def CallInRange (I O : Int) : Call F → Prop
  | Call.forward _ => True
  | Call.forwardMap input => ∀ r, ∀ kv ∈ input r, 0 ≤ kv.1 ∧ kv.1 ≤ I
  | Call.feedback target => O ≤ len target
  | Call.feedbackMap target input =>
      O ≤ len target ∧ ∀ r, ((input r).map Prod.fst).Nodup ∧ ∀ kv ∈ input r, 0 ≤ kv.1 ∧ kv.1 ≤ I
  | Call.calcError target => O ≤ len target

end Frames

/-! ## The type `float64`

The Go type `float64` is the 64-bit binary format of IEEE 754, and `+`, `-`,
`*` and `/` round their exact result to the nearest value of the format, a tie
going to the value whose last bit is even. This section reads the type on the
rationals: a finite value is the rational it stands for, and an operation
rounds the exact rational result. -/

/-- A value of the type `float64`: a finite number, one of the two infinities
(`neg` tells the negative one), or NaN. A finite value of the format is a
rational `m * 2^e` with `|m| < 2^53` and `e ≥ -1074`, below `2^1024` in size.
The sign of a zero is not kept. -/
inductive F64 where
  | fin (q : ℚ)
  | inf (neg : Bool)
  | nan
  deriving DecidableEq

/-- The rational `2^k` for an integer `k`. -/
def pow2 (k : Int) : ℚ :=
  if 0 ≤ k then ((2 ^ k.toNat : Nat) : ℚ) else 1 / ((2 ^ (-k).toNat : Nat) : ℚ)

/-- The search of `binade`: the exponent is built up from `k` by trying the
steps `2^(fuel-1), ..., 2, 1` in turn, and a step is taken when the power of
two it leads to does not exceed `q`. -/
def binadeFrom : Nat → Int → ℚ → Int
  | 0, k, _ => k
  | fuel + 1, k, q =>
    if pow2 (k + 2 ^ fuel) ≤ q then binadeFrom fuel (k + 2 ^ fuel) q else binadeFrom fuel k q

/-- The exponent `b` of the binade of `q ≥ 0`, `2^b ≤ q < 2^(b+1)`, kept
within `-1022 ≤ b ≤ 1025`: the values below `2^(-1022)`, the subnormal ones,
share the exponent of the smallest binade, and a value from `2^1024` on is
beyond the format whatever its exponent. -/
def binade (q : ℚ) : Int :=
  binadeFrom 11 (-1022) q

/-- The integer nearest to `x`, the even one of the two when `x` lies half way. -/
def roundHalfEven (x : ℚ) : Int :=
  if x - ⌊x⌋ < 1 / 2 then ⌊x⌋
  else if 1 / 2 < x - ⌊x⌋ then ⌊x⌋ + 1
  else if ⌊x⌋ % 2 = 0 then ⌊x⌋ else ⌊x⌋ + 1

/-- The rational `q` rounded to 53 significant bits, to the nearest and a tie to
even, with the exponent not below that of the smallest binade (so small values
lose bits gradually) and not bounded above. -/
def roundQ (q : ℚ) : ℚ :=
  (roundHalfEven (q / pow2 (binade |q| - 52)) : ℚ) * pow2 (binade |q| - 52)

/-- The `float64` nearest to the rational `q`: `roundQ q`, and the infinity of
the sign of `q` when that reaches `2^1024`. -/
def F64.round (q : ℚ) : F64 :=
  if pow2 1024 ≤ |roundQ q| then F64.inf (decide (q < 0)) else F64.fin (roundQ q)

/-- The negation `-x`. -/
def F64.neg : F64 → F64
  | F64.fin a => F64.fin (-a)
  | F64.inf s => F64.inf (!s)
  | F64.nan => F64.nan

/-- The sum `x + y`: infinities of opposite sign give NaN. -/
def F64.add : F64 → F64 → F64
  | F64.fin a, F64.fin b => F64.round (a + b)
  | F64.fin _, F64.inf s => F64.inf s
  | F64.inf s, F64.fin _ => F64.inf s
  | F64.inf s, F64.inf t => if s = t then F64.inf s else F64.nan
  | _, _ => F64.nan

/-- The product `x * y`: zero times an infinity gives NaN. -/
def F64.mul : F64 → F64 → F64
  | F64.fin a, F64.fin b => F64.round (a * b)
  | F64.fin a, F64.inf s => if a = 0 then F64.nan else F64.inf (s != decide (a < 0))
  | F64.inf s, F64.fin b => if b = 0 then F64.nan else F64.inf (s != decide (b < 0))
  | F64.inf s, F64.inf t => F64.inf (s != t)
  | _, _ => F64.nan

/-- The quotient `x / y`: a non-zero number over zero is an infinity, a number
over an infinity is zero, zero over zero and infinity over infinity give NaN. -/
def F64.div : F64 → F64 → F64
  | F64.fin a, F64.fin b =>
    if b = 0 then (if a = 0 then F64.nan else F64.inf (decide (a < 0))) else F64.round (a / b)
  | F64.fin _, F64.inf _ => F64.fin 0
  | F64.inf s, F64.fin b => F64.inf (s != decide (b < 0))
  | _, _ => F64.nan

instance : Zero F64 := ⟨F64.fin 0⟩
instance : One F64 := ⟨F64.fin 1⟩
instance : Neg F64 := ⟨F64.neg⟩
instance : Add F64 := ⟨F64.add⟩
instance : Sub F64 := ⟨fun x y => F64.add x (F64.neg y)⟩
instance : Mul F64 := ⟨F64.mul⟩
instance : Div F64 := ⟨F64.div⟩
instance : OfScientific F64 := ⟨fun m s e => F64.round (Rat.ofScientific m s e)⟩

/-- The Go library read on `float64`. `math.E` is the `float64` nearest to the
number `e`. `math.Pow(b, x)` is given at whole exponents `x`, where it is the
rounded power (the library may differ from it in the last bit), and at infinite
exponents for a base above one; `int(x)` drops the fraction, and
`float64(n)` rounds. -/
def f64Math : GoMath F64 where
  Pow := fun b x =>
    match b, x with
    | F64.fin b, F64.fin x =>
      if x.den = 1 then
        (if b = 0 ∧ x < 0 then F64.inf false else F64.round (b ^ x.num))
      else F64.nan
    | F64.fin b, F64.inf s => if 1 < b then (if s then F64.fin 0 else F64.inf false) else F64.nan
    | _, _ => F64.nan
  E := F64.round (2718281828459045235360287471352662497757 / 1000000000000000000000000000000000000000)
  toInt := fun x =>
    match x with
    | F64.fin q => if 0 ≤ q then ⌊q⌋ else -⌊-q⌋
    | _ => -2 ^ 63
  ofInt := fun n => F64.round n

/-- A network on `float64` of which only the output layer is set: what
`CalcError` reads. -/
def netOut (out : List F64) : Net F64 where
  HiddenLayer := []
  InputLayer := []
  OutputLayer := out
  WeightHidden := []
  WeightOutput := []
  ErrOutput := []
  ErrHidden := []
  LastChangeHidden := []
  LastChangeOutput := []
  Regression := false
  Rate1 := 0
  Rate2 := 0

/-! ## Lemmas on slices and loops -/

section Lemmas
variable {α : Type}

theorem getAt_natCast (s : List α) (n : Nat) : getAt s (n : Int) = s[n]? := by
  simp [getAt]

theorem getAt_neg (s : List α) {k : Int} (h : k < 0) : getAt s k = none := by
  simp [getAt, not_le.mpr h]

theorem getAt_isSome_iff (s : List α) (k : Int) : (getAt s k).isSome ↔ 0 ≤ k ∧ k < len s := by
  unfold getAt len
  split
  · rename_i h
    simp only [h, true_and]
    rw [← Option.ne_none_iff_isSome, ne_eq, List.getElem?_eq_none_iff, not_le]
    omega
  · rename_i h
    simp [h]

theorem getAt_eq_none_iff (s : List α) (k : Int) : getAt s k = none ↔ ¬ (0 ≤ k ∧ k < len s) := by
  rw [← getAt_isSome_iff]; simp

theorem mem_upTo {n k : Int} : k ∈ upTo n ↔ 0 ≤ k ∧ k < n := by
  unfold upTo
  simp only [List.mem_map, List.mem_range]
  constructor
  · rintro ⟨a, ha, rfl⟩
    simp only [Int.ofNat_eq_coe] 
    omega
  · rintro ⟨h0, h1⟩
    exact ⟨k.toNat, by omega, by simp [Int.toNat_of_nonneg h0]⟩

theorem upTo_nodup (n : Int) : (upTo n).Nodup := by
  unfold upTo
  exact (List.nodup_range _).map (fun a b h => by simpa using h)

theorem setAt_eq_some {s : List α} {k : Int} (v : α) (h0 : 0 ≤ k) (h1 : k < len s) :
    setAt s k v = some (s.set k.toNat v) := by
  unfold setAt len at *
  rw [if_pos]
  exact ⟨h0, by omega⟩

theorem setAt_length {s t : List α} {k : Int} {v : α} (h : setAt s k v = some t) :
    t.length = s.length := by
  unfold setAt at h
  split at h
  · cases h; simp
  · cases h

theorem setAt_len {s t : List α} {k : Int} {v : α} (h : setAt s k v = some t) :
    len t = len s := by
  simp [len, setAt_length h]

theorem getAt_set_self {s : List α} {k : Int} (v : α) (h0 : 0 ≤ k) (h1 : k < len s) :
    getAt (s.set k.toNat v) k = some v := by
  unfold getAt len at *
  rw [if_pos h0, List.getElem?_set_self]
  omega

theorem getAt_set_ne (s : List α) {k j : Int} (v : α) (h0 : 0 ≤ k) (h : j ≠ k) :
    getAt (s.set k.toNat v) j = getAt s j := by
  unfold getAt
  split
  · rename_i hj
    rw [List.getElem?_set_ne]
    omega
  · rfl

end Lemmas

section LoopLemmas
variable {α κ σ : Type}

theorem forEach_append (ks ls : List κ) (body : κ → σ → Option σ) (s : σ) :
    forEach (ks ++ ls) body s = (forEach ks body s).bind (forEach ls body) := by
  induction ks generalizing s with
  | nil => simp [forEach]
  | cons k ks ih =>
    simp only [List.cons_append, forEach]
    cases body k s with
    | none => simp
    | some t => simp [ih]

theorem forEach_congr (ks : List κ) (body body1 : κ → σ → Option σ) (s : σ)
    (h : ∀ k ∈ ks, ∀ t, body k t = body1 k t) : forEach ks body s = forEach ks body1 s := by
  induction ks generalizing s with
  | nil => simp [forEach]
  | cons k ks ih =>
    simp only [forEach]
    rw [h k (List.mem_cons_self _ _) s]
    cases body1 k s with
    | none => simp
    | some t => simpa using ih t (fun k1 hk1 t1 => h k1 (List.mem_cons_of_mem _ hk1) t1)

theorem sumLoop_eq {F : Type} [Zero F] [Add F] (ks : List κ) (term : κ → Option F) (f : κ → F)
    (h : ∀ k ∈ ks, term k = some (f k)) : sumLoop ks term = some (sumOf ks f) := by
  unfold sumLoop sumOf
  generalize (0 : F) = a
  induction ks generalizing a with
  | nil => simp [forEach]
  | cons k ks ih =>
    simp only [forEach, List.foldl_cons]
    rw [h k (List.mem_cons_self _ _)]
    simpa using ih (fun k1 hk1 => h k1 (List.mem_cons_of_mem _ hk1)) (a + f k)

/-- A loop that stores `f k` at index `idx k` of one slice, for valid indices:
it runs to the end, keeps the length, and when no index is visited twice each
visited index holds its value and the others are untouched. -/
theorem forEach_assign (ks : List κ) (idx : κ → Int) (f : κ → α)
    (body : κ → List α → Option (List α)) (s : List α)
    (hidx : ∀ k ∈ ks, 0 ≤ idx k ∧ idx k < len s)
    (hbody : ∀ k ∈ ks, ∀ t : List α, len t = len s → body k t = setAt t (idx k) (f k)) :
    ∃ t, forEach ks body s = some t ∧ len t = len s ∧
      (∀ j, (∀ k ∈ ks, idx k ≠ j) → getAt t j = getAt s j) ∧
      ((ks.map idx).Nodup → ∀ k ∈ ks, getAt t (idx k) = some (f k)) := by
  induction ks generalizing s with
  | nil => exact ⟨s, rfl, rfl, fun _ _ => rfl, fun _ k hk => by cases hk⟩
  | cons k ks ih =>
    obtain ⟨h0, h1⟩ := hidx k (List.mem_cons_self _ _)
    have hlen : len (s.set (idx k).toNat (f k)) = len s := by simp [len]
    obtain ⟨t, ht, hl, hother, hval⟩ := ih (s.set (idx k).toNat (f k))
      (fun k1 hk1 => by rw [hlen]; exact hidx k1 (List.mem_cons_of_mem _ hk1))
      (fun k1 hk1 t1 ht1 => hbody k1 (List.mem_cons_of_mem _ hk1) t1 (ht1.trans hlen))
    refine ⟨t, ?_, hl.trans hlen, ?_, ?_⟩
    · simp only [forEach]
      rw [hbody k (List.mem_cons_self _ _) s rfl, setAt_eq_some _ h0 h1]
      simpa using ht
    · intro j hj
      rw [hother j (fun k1 hk1 => hj k1 (List.mem_cons_of_mem _ hk1))]
      exact getAt_set_ne s _ h0 (hj k (List.mem_cons_self _ _)).symm
    · intro hnd k1 hk1
      rw [List.map_cons, List.nodup_cons] at hnd
      rcases List.mem_cons.mp hk1 with rfl | hk1
      · rw [hother (idx k1) (fun k2 hk2 heq => hnd.1 (heq ▸ List.mem_map_of_mem idx hk2))]
        exact getAt_set_self _ h0 h1
      · exact hval hnd.2 k1 hk1

end LoopLemmas

section MatrixLemmas
variable {α κ ι σ : Type}

theorem getAt_eq_some_iff {s : List α} {k : Int} {v : α} :
    getAt s k = some v ↔ 0 ≤ k ∧ s[k.toNat]? = some v := by
  unfold getAt
  split <;> simp_all

theorem getAt_dims (m : List (List α)) (i : Int) :
    getAt (dims m) i = (getAt m i).map List.length := by
  unfold getAt dims
  split <;> simp

theorem getAt2_isSome_iff (m : List (List α)) (i j : Int) :
    (getAt2 m i j).isSome ↔ ∃ n, getAt (dims m) i = some n ∧ 0 ≤ j ∧ j < (n : Int) := by
  rw [getAt_dims]
  unfold getAt2
  cases h : getAt m i with
  | none => simp
  | some row => simp [getAt_isSome_iff, len]

theorem getAt2_isSome_congr {m m1 : List (List α)} (h : dims m1 = dims m) (i j : Int) :
    (getAt2 m1 i j).isSome ↔ (getAt2 m i j).isSome := by
  rw [getAt2_isSome_iff, getAt2_isSome_iff, h]

theorem dims_set_row (m : List (List α)) (i : Nat) (row row1 : List α)
    (h : m[i]? = some row) (hl : row1.length = row.length) : dims (m.set i row1) = dims m := by
  unfold dims
  apply List.ext_getElem?
  intro n
  simp only [List.getElem?_map, List.getElem?_set]
  by_cases hn : i = n
  · subst hn
    have hi : i < m.length := by
      rcases Nat.lt_or_ge i m.length with h1 | h1
      · exact h1
      · rw [List.getElem?_eq_none h1] at h; cases h
    simp [hi, h, hl]
  · simp [hn]

/-- Storing into a cell that exists: the store succeeds, keeps the shape,
holds the value at the cell and leaves every other cell as it was. -/
theorem setAt2_spec (m : List (List α)) (i j : Int) (v : α) (h : (getAt2 m i j).isSome) :
    ∃ m1, setAt2 m i j v = some m1 ∧ dims m1 = dims m ∧ getAt2 m1 i j = some v ∧
      ∀ i1 j1, (i1, j1) ≠ (i, j) → getAt2 m1 i1 j1 = getAt2 m i1 j1 := by
  unfold getAt2 at h
  cases hrow : getAt m i with
  | none => simp [hrow] at h
  | some row =>
    rw [hrow] at h
    simp only [Option.some_bind] at h
    obtain ⟨hj0, hj1⟩ := (getAt_isSome_iff row j).mp h
    have hi : (getAt m i).isSome := by simp [hrow]
    obtain ⟨hi0, hi1⟩ := (getAt_isSome_iff m i).mp hi
    obtain ⟨_, hrow1⟩ := getAt_eq_some_iff.mp hrow
    refine ⟨m.set i.toNat (row.set j.toNat v), ?_, ?_, ?_, ?_⟩
    · unfold setAt2
      rw [hrow]
      simp [setAt_eq_some v hj0 hj1, setAt_eq_some _ hi0 hi1]
    · exact dims_set_row m _ row _ hrow1 (by simp)
    · unfold getAt2
      rw [getAt_set_self _ hi0 hi1]
      simpa using getAt_set_self v hj0 hj1
    · intro i1 j1 hne
      unfold getAt2
      by_cases hi1 : i1 = i
      · subst hi1
        have hj : j1 ≠ j := fun hj => hne (by rw [hj])
        rw [getAt_set_self _ hi0 (by assumption), hrow]
        simpa using getAt_set_ne row v hj0 hj
      · rw [getAt_set_ne m _ hi0 hi1]

theorem forEach_map (f : ι → κ) (ks : List ι) (body : κ → σ → Option σ) (s : σ) :
    forEach (ks.map f) body s = forEach ks (fun k => body (f k)) s := by
  induction ks generalizing s with
  | nil => rfl
  | cons k ks ih =>
    simp only [List.map_cons, forEach]
    cases body (f k) s with
    | none => rfl
    | some t => simpa using ih t

/-- A loop nest is the loop over the pairs of counter values it visits. -/
theorem forEach_nested (is : List ι) (cols : ι → List κ) (body : ι → κ → σ → Option σ) (s : σ) :
    forEach is (fun i => forEach (cols i) (body i)) s =
      forEach (is.flatMap fun i => (cols i).map (Prod.mk i)) (fun p => body p.1 p.2) s := by
  induction is generalizing s with
  | nil => rfl
  | cons i is ih =>
    simp only [List.flatMap_cons, forEach, forEach_append, forEach_map]
    cases forEach (cols i) (body i) s with
    | none => rfl
    | some t => simpa using ih t

/-- A loop that rewrites, at each visit, one cell of a pair of matrices from the
two old values of that cell: when every visited cell exists in both and none
is visited twice, the loop runs to the end, keeps both shapes, leaves the cells
it does not visit, and a visited cell holds what `g` makes of its old values. -/
theorem forEach_cells (cells : List κ) (pos : κ → Int × Int) (g : κ → α → α → α × α)
    (body : κ → List (List α) × List (List α) → Option (List (List α) × List (List α)))
    (st : List (List α) × List (List α))
    (hvalid : ∀ c ∈ cells, (getAt2 st.1 (pos c).1 (pos c).2).isSome ∧
      (getAt2 st.2 (pos c).1 (pos c).2).isSome)
    (hbody : ∀ c ∈ cells, ∀ (t : List (List α) × List (List α)) (w l : α),
      getAt2 t.1 (pos c).1 (pos c).2 = some w → getAt2 t.2 (pos c).1 (pos c).2 = some l →
      body c t = (setAt2 t.1 (pos c).1 (pos c).2 (g c w l).1).bind fun m1 =>
        (setAt2 t.2 (pos c).1 (pos c).2 (g c w l).2).map fun m2 => (m1, m2))
    (hnd : (cells.map pos).Nodup) :
    ∃ t, forEach cells body st = some t ∧ dims t.1 = dims st.1 ∧ dims t.2 = dims st.2 ∧
      (∀ i j, (∀ c ∈ cells, pos c ≠ (i, j)) →
        getAt2 t.1 i j = getAt2 st.1 i j ∧ getAt2 t.2 i j = getAt2 st.2 i j) ∧
      (∀ c ∈ cells, ∀ w l, getAt2 st.1 (pos c).1 (pos c).2 = some w →
        getAt2 st.2 (pos c).1 (pos c).2 = some l →
        getAt2 t.1 (pos c).1 (pos c).2 = some (g c w l).1 ∧
        getAt2 t.2 (pos c).1 (pos c).2 = some (g c w l).2) := by
  induction cells generalizing st with
  | nil => exact ⟨st, rfl, rfl, rfl, fun _ _ _ => ⟨rfl, rfl⟩, fun c hc => by cases hc⟩
  | cons c cells ih =>
    rw [List.map_cons, List.nodup_cons] at hnd
    obtain ⟨hv1, hv2⟩ := hvalid c (List.mem_cons_self _ _)
    obtain ⟨w, hw⟩ := Option.isSome_iff_exists.mp hv1
    obtain ⟨l, hl⟩ := Option.isSome_iff_exists.mp hv2
    obtain ⟨m1, hm1, hd1, hs1, ho1⟩ := setAt2_spec st.1 (pos c).1 (pos c).2 (g c w l).1 hv1
    obtain ⟨m2, hm2, hd2, hs2, ho2⟩ := setAt2_spec st.2 (pos c).1 (pos c).2 (g c w l).2 hv2
    have hstep : body c st = some (m1, m2) := by
      rw [hbody c (List.mem_cons_self _ _) st w l hw hl, hm1, hm2]; rfl
    have hne : ∀ c1 ∈ cells, ((pos c1).1, (pos c1).2) ≠ ((pos c).1, (pos c).2) := by
      intro c1 hc1 heq
      exact hnd.1 (by
        have : pos c1 = pos c := Prod.ext (congrArg Prod.fst heq) (congrArg Prod.snd heq)
        exact this ▸ List.mem_map_of_mem pos hc1)
    obtain ⟨t, ht, htd1, htd2, hto, htv⟩ := ih (m1, m2)
      (fun c1 hc1 => by
        obtain ⟨a, b⟩ := hvalid c1 (List.mem_cons_of_mem _ hc1)
        exact ⟨(getAt2_isSome_congr hd1 _ _).mpr a, (getAt2_isSome_congr hd2 _ _).mpr b⟩)
      (fun c1 hc1 => hbody c1 (List.mem_cons_of_mem _ hc1)) hnd.2
    refine ⟨t, ?_, htd1.trans hd1, htd2.trans hd2, ?_, ?_⟩
    · simp only [forEach]
      rw [hstep]
      simpa using ht
    · intro i j hij
      obtain ⟨a, b⟩ := hto i j (fun c1 hc1 => hij c1 (List.mem_cons_of_mem _ hc1))
      have hc : (i, j) ≠ ((pos c).1, (pos c).2) := fun heq =>
        hij c (List.mem_cons_self _ _) (by rw [heq])
      exact ⟨a.trans (ho1 i j hc), b.trans (ho2 i j hc)⟩
    · intro c1 hc1 w1 l1 hw1 hl1
      rcases List.mem_cons.mp hc1 with rfl | hc1
      · rw [hw] at hw1
        rw [hl] at hl1
        cases hw1
        cases hl1
        obtain ⟨a, b⟩ := hto (pos c1).1 (pos c1).2 (fun c2 hc2 heq => hnd.1 (by
          have : pos c2 = pos c1 := heq
          exact this ▸ List.mem_map_of_mem pos hc2))
        exact ⟨a.trans hs1, b.trans hs2⟩
      · apply htv c1 hc1
        · exact (ho1 _ _ (hne c1 hc1)).trans hw1
        · exact (ho2 _ _ (hne c1 hc1)).trans hl1

end MatrixLemmas

section ShapeLemmas
variable {α : Type} {F : Type} [Zero F]

theorem ext_getAt {s t : List α} (h : ∀ k : Int, getAt s k = getAt t k) : s = t := by
  apply List.ext_getElem?
  intro n
  simpa [getAt_natCast] using h (n : Int)

theorem getAt_of_lt {s : List α} {k : Int} (h0 : 0 ≤ k) (h1 : k < len s) :
    ∃ v, getAt s k = some v :=
  Option.isSome_iff_exists.mp ((getAt_isSome_iff s k).mpr ⟨h0, h1⟩)

theorem getAt_eq_valAt {s : List F} {k : Int} (h0 : 0 ≤ k) (h1 : k < len s) :
    getAt s k = some (valAt s k) := by
  obtain ⟨v, hv⟩ := getAt_of_lt h0 h1
  simp [valAt, hv]

theorem getAt2_eq_valAt2 {m : List (List F)} {i j : Int} (h : (getAt2 m i j).isSome) :
    getAt2 m i j = some (valAt2 m i j) := by
  obtain ⟨v, hv⟩ := Option.isSome_iff_exists.mp h
  simp [valAt2, hv]

theorem valAt_of_getAt {s : List F} {k : Int} {v : F} (h : getAt s k = some v) :
    valAt s k = v := by
  simp [valAt, h]

theorem valAt2_of_getAt2 {m : List (List F)} {i j : Int} {v : F} (h : getAt2 m i j = some v) :
    valAt2 m i j = v := by
  simp [valAt2, h]

theorem getAt_replicate (n : Nat) (a : α) (k : Int) :
    getAt (List.replicate n a) k = if 0 ≤ k ∧ k < (n : Int) then some a else none := by
  unfold getAt
  by_cases h0 : 0 ≤ k
  · by_cases h1 : k < (n : Int)
    · have : k.toNat < n := by omega
      simp [h0, h1, List.getElem?_replicate, this]
    · have : ¬ k.toNat < n := by omega
      simp [h0, h1, List.getElem?_replicate, this]
  · simp [h0]

theorem getAt2_isSome_of_dims {m : List (List α)} {r c : Nat}
    (h : dims m = List.replicate r c) (i j : Int) :
    (getAt2 m i j).isSome ↔ (0 ≤ i ∧ i < (r : Int)) ∧ 0 ≤ j ∧ j < (c : Int) := by
  rw [getAt2_isSome_iff, h, getAt_replicate]
  constructor
  · rintro ⟨n, hn, hj⟩
    split at hn
    · cases hn
      exact ⟨by assumption, hj⟩
    · cases hn
  · rintro ⟨hi, hj⟩
    exact ⟨c, by rw [if_pos hi], hj⟩

theorem ext_getAt2 {m m1 : List (List α)} (hd : dims m = dims m1)
    (h : ∀ i j : Int, getAt2 m i j = getAt2 m1 i j) : m = m1 := by
  apply ext_getAt
  intro i
  have hi := congrArg (fun d => getAt d i) hd
  simp only [getAt_dims] at hi
  cases hr : getAt m i with
  | none =>
    rw [hr] at hi
    cases hr1 : getAt m1 i with
    | none => rfl
    | some row1 => rw [hr1] at hi; cases hi
  | some row =>
    rw [hr] at hi
    cases hr1 : getAt m1 i with
    | none => rw [hr1] at hi; cases hi
    | some row1 =>
      congr 1
      apply ext_getAt
      intro j
      have := h i j
      unfold getAt2 at this
      simpa [hr, hr1] using this

theorem len_nonneg (s : List α) : 0 ≤ len s := by
  unfold len; omega

theorem getAt_append_left (s t : List α) {k : Int} (h : k < len s) :
    getAt (s ++ t) k = getAt s k := by
  unfold getAt len at *
  split
  · rw [List.getElem?_append_left]; omega
  · rfl

theorem getAt_append_len (s : List α) (a : α) : getAt (s ++ [a]) (len s) = some a := by
  unfold len
  rw [getAt_natCast]
  simp

end ShapeLemmas

section ForwardLemmas
variable {F : Type} [Zero F] [One F] [Add F] [Sub F] [Mul F] [Div F] [Neg F] [OfScientific F]

/-- Lines 110-113: with an input one shorter than the input layer, the layer
becomes the input followed by the bias `1.0`. -/
theorem copyInput_biasInput (nn : Net F) (input : List F)
    (h : len input + 1 = len nn.InputLayer) :
    (copyInput nn input).bind biasInput = some { nn with InputLayer := input ++ [1] } := by
  obtain ⟨t, ht, hl, hother, hval⟩ := forEach_assign (upTo (len input)) id (fun k => valAt input k)
    (fun i layer => (getAt input i).bind (fun x => setAt layer i x)) nn.InputLayer
    (fun k hk => by
      obtain ⟨h0, h1⟩ := mem_upTo.mp hk
      exact ⟨h0, by simp only [id]; omega⟩)
    (fun k hk t _ => by
      obtain ⟨h0, h1⟩ := mem_upTo.mp hk
      simp [getAt_eq_valAt h0 h1])
  have hnn := len_nonneg input
  have hset : setAt t (len t - 1) 1 = some (t.set (len t - 1).toNat 1) :=
    setAt_eq_some _ (by omega) (by omega)
  have hfin : t.set (len t - 1).toNat 1 = input ++ [1] := by
    apply ext_getAt
    intro k
    by_cases hk : k = len t - 1
    · subst hk
      rw [getAt_set_self _ (by omega) (by omega)]
      have : len t - 1 = len input := by omega
      rw [this, getAt_append_len]
    · rw [getAt_set_ne _ _ (by omega) hk]
      by_cases hin : 0 ≤ k ∧ k < len input
      · have := hval (by simpa using upTo_nodup (len input)) k (mem_upTo.mpr hin)
        simp only [id] at this
        rw [this, getAt_append_left _ _ hin.2, getAt_eq_valAt hin.1 hin.2]
      · have h1 : getAt t k = none := by
          rw [getAt_eq_none_iff]; omega
        have h2 : getAt (input ++ [1]) k = none := by
          rw [getAt_eq_none_iff]
          have : len (input ++ [(1 : F)]) = len input + 1 := by simp [len]
          omega
        rw [h1, h2]
  unfold copyInput
  rw [ht]
  simp only [Option.map_some', Option.some_bind]
  unfold biasInput
  simp only [hset, hfin, Option.map_some']

/-- The hidden loop of the forward passes over in-range indices: it completes
and stores, for each unit before the last, the sigmoid of the sum. -/
theorem hiddenPass_spec (P : GoMath F) (nn : Net F) (cols : Int → List Int)
    (hcols : ∀ i, 0 ≤ i → i < len nn.HiddenLayer - 1 → ∀ j ∈ cols i,
      (0 ≤ j ∧ j < len nn.InputLayer) ∧ (getAt2 nn.WeightHidden i j).isSome) :
    ∃ layer, hiddenPass P nn cols = some { nn with HiddenLayer := layer } ∧
      len layer = len nn.HiddenLayer ∧
      (∀ i, 0 ≤ i → i < len nn.HiddenLayer - 1 → getAt layer i = some (sigmoid P
        (sumOf (cols i) fun j => valAt nn.InputLayer j * valAt2 nn.WeightHidden i j))) ∧
      (∀ j, ¬ (0 ≤ j ∧ j < len nn.HiddenLayer - 1) → getAt layer j = getAt nn.HiddenLayer j) := by
  obtain ⟨t, ht, hl, hother, hval⟩ := forEach_assign (upTo (len nn.HiddenLayer - 1)) id
    (fun i => sigmoid P (sumOf (cols i) fun j => valAt nn.InputLayer j * valAt2 nn.WeightHidden i j))
    (fun i layer =>
        (sumLoop (cols i) (fun j =>
            (getAt nn.InputLayer j).bind fun x =>
            (getAt2 nn.WeightHidden i j).map fun w => x * w)).bind
          fun sum => setAt layer i (sigmoid P sum)) nn.HiddenLayer
    (fun k hk => by
      obtain ⟨h0, h1⟩ := mem_upTo.mp hk
      exact ⟨h0, by simp only [id]; omega⟩)
    (fun k hk t _ => by
      obtain ⟨h0, h1⟩ := mem_upTo.mp hk
      beta_reduce
      rw [sumLoop_eq (cols k) _
        (fun j => valAt nn.InputLayer j * valAt2 nn.WeightHidden k j) (fun j hj => by
          obtain ⟨hj1, hj2⟩ := hcols k h0 h1 j hj
          simp [getAt_eq_valAt hj1.1 hj1.2, getAt2_eq_valAt2 hj2])]
      rfl)
  refine ⟨t, ?_, hl, ?_, ?_⟩
  · unfold hiddenPass
    rw [ht]
    rfl
  · intro i h0 h1
    exact hval (by simpa using upTo_nodup _) i (mem_upTo.mpr ⟨h0, h1⟩)
  · intro j hj
    exact hother j (fun k hk heq => hj (by
      simp only [id] at heq
      exact heq ▸ mem_upTo.mp hk))

/-- Lines 123 and 280 on a non-empty hidden layer. -/
theorem biasHidden_spec (nn : Net F) (h : 0 < len nn.HiddenLayer) :
    ∃ layer, biasHidden nn = some { nn with HiddenLayer := layer } ∧
      len layer = len nn.HiddenLayer ∧
      getAt layer (len nn.HiddenLayer - 1) = some 1 ∧
      (∀ j, j ≠ len nn.HiddenLayer - 1 → getAt layer j = getAt nn.HiddenLayer j) := by
  refine ⟨nn.HiddenLayer.set (len nn.HiddenLayer - 1).toNat 1, ?_, by simp [len], ?_, ?_⟩
  · unfold biasHidden
    rw [setAt_eq_some _ (by omega) (by omega)]
    rfl
  · exact getAt_set_self _ (by omega) (by omega)
  · intro j hj
    exact getAt_set_ne _ _ (by omega) hj

/-- The output loop of the forward passes when every weight it reads exists. -/
theorem outputPass_spec (P : GoMath F) (nn : Net F)
    (hw : ∀ i, 0 ≤ i → i < len nn.OutputLayer → ∀ j, 0 ≤ j → j < len nn.HiddenLayer →
      (getAt2 nn.WeightOutput i j).isSome) :
    ∃ layer, outputPass P nn = some { nn with OutputLayer := layer } ∧
      len layer = len nn.OutputLayer ∧
      (∀ i, 0 ≤ i → i < len nn.OutputLayer → getAt layer i = some
        (if nn.Regression then
          sumOf (upTo (len nn.HiddenLayer)) fun j => valAt nn.HiddenLayer j * valAt2 nn.WeightOutput i j
        else sigmoid P
          (sumOf (upTo (len nn.HiddenLayer)) fun j => valAt nn.HiddenLayer j * valAt2 nn.WeightOutput i j))) := by
  obtain ⟨t, ht, hl, _, hval⟩ := forEach_assign (upTo (len nn.OutputLayer)) id
    (fun i => if nn.Regression then
          sumOf (upTo (len nn.HiddenLayer)) fun j => valAt nn.HiddenLayer j * valAt2 nn.WeightOutput i j
        else sigmoid P
          (sumOf (upTo (len nn.HiddenLayer)) fun j => valAt nn.HiddenLayer j * valAt2 nn.WeightOutput i j))
    (fun i layer =>
        (sumLoop (upTo (len nn.HiddenLayer)) (fun j =>
            (getAt nn.HiddenLayer j).bind fun h =>
            (getAt2 nn.WeightOutput i j).map fun w => h * w)).bind
          fun sum => setAt layer i (if nn.Regression then sum else sigmoid P sum)) nn.OutputLayer
    (fun k hk => mem_upTo.mp hk)
    (fun k hk t _ => by
      obtain ⟨h0, h1⟩ := mem_upTo.mp hk
      beta_reduce
      rw [sumLoop_eq (upTo (len nn.HiddenLayer)) _
        (fun j => valAt nn.HiddenLayer j * valAt2 nn.WeightOutput k j) (fun j hj => by
          obtain ⟨hj0, hj1⟩ := mem_upTo.mp hj
          simp [getAt_eq_valAt hj0 hj1, getAt2_eq_valAt2 (hw k h0 h1 j hj0 hj1)])]
      simp only [Option.some_bind, id])
  refine ⟨t, ?_, hl, ?_⟩
  · unfold outputPass
    rw [ht]
    rfl
  · intro i h0 h1
    exact hval (by simpa using upTo_nodup _) i (mem_upTo.mpr ⟨h0, h1⟩)

end ForwardLemmas

section ForwardSpec
variable {F : Type} [Zero F] [One F] [Add F] [Sub F] [Mul F] [Div F] [Neg F] [OfScientific F]

theorem len_eq_of_length {α : Type} {s : List α} {n : Nat} (h : s.length = n) : len s = (n : Int) := by
  unfold len; omega

/-- The forward pass on a well-shaped network and an input of the right length:
it returns, and this is the state it leaves. -/
theorem Forward_spec (P : GoMath F) (nn : Net F) (I H O : Nat) (hw : WellShaped nn I H O)
    (v : List F) (hv : v.length = I) :
    ∃ hid out, Forward P nn v =
        some ({ nn with InputLayer := v ++ [1], HiddenLayer := hid, OutputLayer := out },
          Except.ok out) ∧
      len hid = (H : Int) + 1 ∧ len out = (O : Int) ∧
      (∀ i : Int, 0 ≤ i → i < (H : Int) → getAt hid i = some (sigmoid P
        (sumOf (upTo ((I : Int) + 1)) fun j => valAt (v ++ [1]) j * valAt2 nn.WeightHidden i j))) ∧
      getAt hid (H : Int) = some 1 ∧
      (∀ i : Int, 0 ≤ i → i < (O : Int) → getAt out i = some
        (if nn.Regression then
          sumOf (upTo ((H : Int) + 1)) fun j => valAt hid j * valAt2 nn.WeightOutput i j
        else sigmoid P
          (sumOf (upTo ((H : Int) + 1)) fun j => valAt hid j * valAt2 nn.WeightOutput i j))) := by
  obtain ⟨hI, hH, hO, _, _, hWH, hWO, _, _⟩ := hw
  have lI := len_eq_of_length hI
  have lH := len_eq_of_length hH
  have lO := len_eq_of_length hO
  have lv := len_eq_of_length hv
  have hcopy := copyInput_biasInput nn v (by omega)
  obtain ⟨n0, hc0, hb0⟩ := Option.bind_eq_some.mp hcopy
  have lI1 : len (v ++ [(1 : F)]) = (I : Int) + 1 := by simp [len, hv]
  obtain ⟨hid0, hh, hl0, hv0, ho0⟩ := hiddenPass_spec P { nn with InputLayer := v ++ [1] }
    (fun _ => upTo (len (v ++ [(1 : F)])))
    (fun i h0 h1 j hj => by
      obtain ⟨hj0, hj1⟩ := mem_upTo.mp hj
      refine ⟨⟨hj0, hj1⟩, ?_⟩
      show (getAt2 nn.WeightHidden i j).isSome
      rw [getAt2_isSome_of_dims hWH]
      have : i < len nn.HiddenLayer - 1 := h1
      push_cast
      omega)
  obtain ⟨hid, hbh, hl1, hlast, ho1⟩ := biasHidden_spec
    { nn with InputLayer := v ++ [1], HiddenLayer := hid0 }
    (by show 0 < len hid0; rw [hl0]; show 0 < len nn.HiddenLayer; omega)
  obtain ⟨out, hop, hl2, hv2⟩ := outputPass_spec P
    { nn with InputLayer := v ++ [1], HiddenLayer := hid }
    (fun i h0 h1 j hj0 hj1 => by
      show (getAt2 nn.WeightOutput i j).isSome
      rw [getAt2_isSome_of_dims hWO]
      have a : i < len nn.OutputLayer := h1
      have b : j < len hid := hj1
      have c : len hid = len hid0 := hl1
      have d : len hid0 = len nn.HiddenLayer := hl0
      push_cast
      omega)
  have e1 : len hid = (H : Int) + 1 := by
    have c : len hid = len hid0 := hl1
    have d : len hid0 = len nn.HiddenLayer := hl0
    omega
  refine ⟨hid, out, ?_, e1, ?_, ?_, ?_, ?_⟩
  · unfold Forward
    rw [if_neg (by omega), hc0]
    simp only [Option.some_bind]
    rw [hb0]
    simp only [Option.some_bind]
    rw [hh]
    simp only [Option.some_bind]
    rw [hbh]
    simp only [Option.some_bind]
    rw [hop]
    rfl
  · have : len out = len nn.OutputLayer := hl2
    omega
  · intro i h0 h1
    have hne : i ≠ len hid0 - 1 := by
      have d : len hid0 = len nn.HiddenLayer := hl0
      omega
    have := ho1 i hne
    simp only at this
    rw [this]
    have h2 := hv0 i h0 (by show i < len nn.HiddenLayer - 1; omega)
    simp only at h2
    rw [h2, lI1]
  · have d : len hid0 = len nn.HiddenLayer := hl0
    have : getAt hid (len hid0 - 1) = some 1 := hlast
    rwa [show len hid0 - 1 = (H : Int) by omega] at this
  · intro i h0 h1
    have := hv2 i h0 (by show i < len nn.OutputLayer; omega)
    simp only at this
    rw [this, e1]

end ForwardSpec

section ForwardMapSpec
variable {F : Type} [Zero F] [One F] [Add F] [Sub F] [Mul F] [Div F] [Neg F] [OfScientific F]

/-- Lines 267-270 over in-range keys: the copy of the map and the bias store
run to the end; the last entry is `1.0`, an entry whose index is no key is
kept, and an entry at a key other than the last index holds the value of the
map. -/
theorem copyInputMap_biasInput (nn : Net F) (entries : List (Int × F))
    (hlen : 0 < len nn.InputLayer)
    (hkeys : ∀ kv ∈ entries, 0 ≤ kv.1 ∧ kv.1 < len nn.InputLayer) :
    ∃ inp, (copyInputMap nn entries).bind biasInput = some { nn with InputLayer := inp } ∧
      len inp = len nn.InputLayer ∧
      getAt inp (len nn.InputLayer - 1) = some 1 ∧
      (∀ j, (∀ kv ∈ entries, kv.1 ≠ j) → j ≠ len nn.InputLayer - 1 →
        getAt inp j = getAt nn.InputLayer j) ∧
      ((entries.map Prod.fst).Nodup → ∀ kv ∈ entries, kv.1 ≠ len nn.InputLayer - 1 →
        getAt inp kv.1 = some kv.2) := by
  obtain ⟨t, ht, hl, hother, hval⟩ := forEach_assign entries Prod.fst Prod.snd
    (fun kv layer => setAt layer kv.1 kv.2) nn.InputLayer hkeys (fun _ _ _ _ => rfl)
  refine ⟨t.set (len t - 1).toNat 1, ?_, ?_, ?_, ?_, ?_⟩
  · unfold copyInputMap
    rw [ht]
    simp only [Option.map_some', Option.some_bind]
    unfold biasInput
    simp only
    rw [setAt_eq_some _ (by omega) (by omega)]
    rfl
  · simp [len] at hl ⊢
    exact hl
  · rw [← hl]
    exact getAt_set_self _ (by omega) (by omega)
  · intro j hj hne
    rw [getAt_set_ne _ _ (by omega) (by omega)]
    exact hother j hj
  · intro hnd kv hkv hne
    rw [getAt_set_ne _ _ (by omega) (by omega)]
    exact hval hnd kv hkv

/-- The sparse forward pass on a well-shaped network and a map whose keys are
indices of the input layer: it returns, and this is the state it leaves. -/
theorem ForwardMap_spec (P : GoMath F) (nn : Net F) (I H O : Nat) (hw : WellShaped nn I H O)
    (m : RangeSeq F) (hkeys : ∀ r, ∀ kv ∈ m r, 0 ≤ kv.1 ∧ kv.1 < (I : Int) + 1) :
    ∃ inp hid out, ForwardMap P nn m =
        some ({ nn with InputLayer := inp, HiddenLayer := hid, OutputLayer := out }, out) ∧
      len inp = (I : Int) + 1 ∧ len hid = (H : Int) + 1 ∧ len out = (O : Int) ∧
      getAt inp (I : Int) = some 1 ∧
      (∀ j, (∀ kv ∈ m 0, kv.1 ≠ j) → j ≠ (I : Int) → getAt inp j = getAt nn.InputLayer j) ∧
      (((m 0).map Prod.fst).Nodup → ∀ kv ∈ m 0, kv.1 ≠ (I : Int) → getAt inp kv.1 = some kv.2) ∧
      (∀ i : Int, 0 ≤ i → i < (H : Int) → getAt hid i = some (sigmoid P
        (sumOf ((m (i.toNat + 1)).map Prod.fst)
          fun j => valAt inp j * valAt2 nn.WeightHidden i j))) ∧
      getAt hid (H : Int) = some 1 ∧
      (∀ i : Int, 0 ≤ i → i < (O : Int) → getAt out i = some
        (if nn.Regression then
          sumOf (upTo ((H : Int) + 1)) fun j => valAt hid j * valAt2 nn.WeightOutput i j
        else sigmoid P
          (sumOf (upTo ((H : Int) + 1)) fun j => valAt hid j * valAt2 nn.WeightOutput i j))) := by
  obtain ⟨hI, hH, hO, _, _, hWH, hWO, _, _⟩ := hw
  have lI := len_eq_of_length hI
  have lH := len_eq_of_length hH
  have lO := len_eq_of_length hO
  obtain ⟨inp, hcopy, hli, hbias, hkeep, hput⟩ := copyInputMap_biasInput nn (m 0) (by omega)
    (fun kv hkv => by rw [lI]; exact hkeys 0 kv hkv)
  obtain ⟨n0, hc0, hb0⟩ := Option.bind_eq_some.mp hcopy
  obtain ⟨hid0, hh, hl0, hv0, ho0⟩ := hiddenPass_spec P { nn with InputLayer := inp }
    (fun i => (m (i.toNat + 1)).map Prod.fst)
    (fun i h0 h1 j hj => by
      obtain ⟨kv, hkv, rfl⟩ := List.mem_map.mp hj
      obtain ⟨a, b⟩ := hkeys _ kv hkv
      refine ⟨⟨a, by show kv.1 < len inp; omega⟩, ?_⟩
      show (getAt2 nn.WeightHidden i kv.1).isSome
      rw [getAt2_isSome_of_dims hWH]
      have : i < len nn.HiddenLayer - 1 := h1
      push_cast
      omega)
  obtain ⟨hid, hbh, hl1, hlast, ho1⟩ := biasHidden_spec
    { nn with InputLayer := inp, HiddenLayer := hid0 }
    (by show 0 < len hid0; rw [hl0]; show 0 < len nn.HiddenLayer; omega)
  obtain ⟨out, hop, hl2, hv2⟩ := outputPass_spec P
    { nn with InputLayer := inp, HiddenLayer := hid }
    (fun i h0 h1 j hj0 hj1 => by
      show (getAt2 nn.WeightOutput i j).isSome
      rw [getAt2_isSome_of_dims hWO]
      have a : i < len nn.OutputLayer := h1
      have b : j < len hid := hj1
      have c : len hid = len hid0 := hl1
      have d : len hid0 = len nn.HiddenLayer := hl0
      push_cast
      omega)
  have e1 : len hid = (H : Int) + 1 := by
    have c : len hid = len hid0 := hl1
    have d : len hid0 = len nn.HiddenLayer := hl0
    omega
  refine ⟨inp, hid, out, ?_, by omega, e1, ?_, ?_, ?_, ?_, ?_, ?_, ?_⟩
  · unfold ForwardMap
    rw [hc0]
    simp only [Option.some_bind]
    rw [hb0]
    simp only [Option.some_bind]
    rw [hh]
    simp only [Option.some_bind]
    rw [hbh]
    simp only [Option.some_bind]
    rw [hop]
    rfl
  · have : len out = len nn.OutputLayer := hl2
    omega
  · rwa [show len nn.InputLayer - 1 = (I : Int) by omega] at hbias
  · intro j hj hne
    exact hkeep j hj (by omega)
  · intro hnd kv hkv hne
    exact hput hnd kv hkv (by omega)
  · intro i h0 h1
    have hne : i ≠ len hid0 - 1 := by
      have d : len hid0 = len nn.HiddenLayer := hl0
      omega
    have := ho1 i hne
    simp only at this
    rw [this]
    exact hv0 i h0 (by show i < len nn.HiddenLayer - 1; omega)
  · have d : len hid0 = len nn.HiddenLayer := hl0
    have : getAt hid (len hid0 - 1) = some 1 := hlast
    rwa [show len hid0 - 1 = (H : Int) by omega] at this
  · intro i h0 h1
    have := hv2 i h0 (by show i < len nn.OutputLayer; omega)
    simp only at this
    rw [this, e1]

theorem dims_matrixRandom (src : Nat → Nat → F) (rows cols : Int) (low high : F) :
    dims (matrixRandom src rows cols low high) = List.replicate rows.toNat cols.toNat := by
  unfold dims matrixRandom
  apply List.ext_getElem?
  intro n
  simp only [List.map_map, List.getElem?_map, List.getElem?_replicate]
  by_cases h : n < rows.toNat
  · simp [h, List.getElem?_range h]
  · simp [h, List.getElem?_eq_none (l := List.range rows.toNat) (by simpa using h)]

theorem dims_matrixNew (rows cols : Int) (value : F) :
    dims (matrixNew rows cols value) = List.replicate rows.toNat cols.toNat := by
  unfold dims matrixNew
  simp

/-- An increment that is not negative did not wrap around. -/
theorem incInt_of_nonneg {n : Int} (h : 0 ≤ incInt n) : incInt n = n + 1 := by
  unfold incInt at h ⊢
  split
  · rename_i hr
    rw [if_pos hr] at h
    omega
  · rfl

/-- The increment is negative below `-1` and at `math.MaxInt64`. -/
theorem incInt_neg {n : Int} (h : n < -1 ∨ n = 2 ^ 63 - 1) : incInt n < 0 := by
  unfold incInt
  split <;> omega

/-- The increment of an `int` from `-1` on and below `math.MaxInt64`. -/
theorem incInt_of_ge {n : Int} (h0 : -1 ≤ n) (h1 : n < 2 ^ 63 - 1) : incInt n = n + 1 := by
  unfold incInt
  split <;> omega

/-- What `New` builds: it returns only when neither `make` gets a negative
length, and the layers and matrices then have the lengths asked for. -/
theorem New_spec (srcH srcO : Nat → Nat → F) (I H O : Int) (reg : Bool) (r1 r2 : F) (nn : Net F)
    (h : New srcH srcO I H O reg r1 r2 = some nn) :
    0 ≤ I + 1 ∧ 0 ≤ H + 1 ∧ 0 ≤ O ∧
    nn.InputLayer.length = (I + 1).toNat ∧ nn.HiddenLayer.length = (H + 1).toNat ∧
    nn.OutputLayer.length = O.toNat ∧ nn.ErrOutput.length = O.toNat ∧
    nn.ErrHidden.length = (H + 1).toNat ∧
    dims nn.WeightHidden = List.replicate (H + 1).toNat (I + 1).toNat ∧
    dims nn.WeightOutput = List.replicate O.toNat (H + 1).toNat ∧
    dims nn.LastChangeHidden = List.replicate (H + 1).toNat (I + 1).toNat ∧
    dims nn.LastChangeOutput = List.replicate O.toNat (H + 1).toNat := by
  unfold New make at h
  simp only at h
  by_cases hI : 0 ≤ incInt I
  · by_cases hH : 0 ≤ incInt H
    · by_cases hO : 0 ≤ O
      · simp only [hI, hH, hO, if_true, Option.some_bind] at h
        cases h
        rw [incInt_of_nonneg hI, incInt_of_nonneg hH] at *
        simp [dims_matrixRandom, dims_matrixNew, hI, hH, hO]
      · simp [hI, hH, hO] at h
    · simp [hI, hH] at h
  · simp [hI] at h

theorem New_wellShaped (srcH srcO : Nat → Nat → F) (I H O : Int) (reg : Bool) (r1 r2 : F)
    (nn : Net F) (h : New srcH srcO I H O reg r1 r2 = some nn) (hI : 0 ≤ I) (hH : 0 ≤ H) :
    WellShaped nn I.toNat H.toNat O.toNat := by
  obtain ⟨_, _, _, a, b, c, d, e, f, g, k, l⟩ := New_spec srcH srcO I H O reg r1 r2 nn h
  have eI : (I + 1).toNat = I.toNat + 1 := by omega
  have eH : (H + 1).toNat = H.toNat + 1 := by omega
  rw [eI] at a f k
  rw [eH] at b e f g k l
  exact ⟨a, b, c, d, e, f, g, k, l⟩

end ForwardMapSpec

section FeedbackLemmas
variable {F : Type} [Zero F] [One F] [Add F] [Sub F] [Mul F] [Div F] [Neg F] [OfScientific F]

/-- Lines 139-141 when the error buffer and the target reach as far as the
output layer. -/
theorem errOutputPass_spec (nn : Net F) (target : List F)
    (he : len nn.OutputLayer ≤ len nn.ErrOutput) (ht : len nn.OutputLayer ≤ len target) :
    ∃ errs, errOutputPass nn target = some { nn with ErrOutput := errs } ∧
      len errs = len nn.ErrOutput ∧
      (∀ i, 0 ≤ i → i < len nn.OutputLayer →
        getAt errs i = some (valAt nn.OutputLayer i - valAt target i)) ∧
      (∀ j, ¬ (0 ≤ j ∧ j < len nn.OutputLayer) → getAt errs j = getAt nn.ErrOutput j) := by
  obtain ⟨t, hrun, hl, hother, hval⟩ := forEach_assign (upTo (len nn.OutputLayer)) id
    (fun i => valAt nn.OutputLayer i - valAt target i)
    (fun i errs =>
        (getAt nn.OutputLayer i).bind fun o =>
        (getAt target i).bind fun t => setAt errs i (o - t)) nn.ErrOutput
    (fun k hk => by
      obtain ⟨h0, h1⟩ := mem_upTo.mp hk
      exact ⟨h0, by simp only [id]; omega⟩)
    (fun k hk t _ => by
      obtain ⟨h0, h1⟩ := mem_upTo.mp hk
      simp [getAt_eq_valAt h0 h1, getAt_eq_valAt h0 (show k < len target by omega)])
  refine ⟨t, ?_, hl, ?_, ?_⟩
  · unfold errOutputPass
    rw [hrun]
    rfl
  · intro i h0 h1
    exact hval (by simpa using upTo_nodup _) i (mem_upTo.mpr ⟨h0, h1⟩)
  · intro j hj
    exact hother j (fun k hk heq => hj (by
      simp only [id] at heq
      exact heq ▸ mem_upTo.mp hk))

/-- Lines 143-154 when every value the loop reads exists. -/
theorem errHiddenPass_spec (nn : Net F)
    (hlen : len nn.HiddenLayer ≤ len nn.ErrHidden)
    (he : len nn.OutputLayer ≤ len nn.ErrOutput)
    (hw : ∀ i, 0 ≤ i → i < len nn.HiddenLayer - 1 → ∀ j, 0 ≤ j → j < len nn.OutputLayer →
      (getAt2 nn.WeightOutput j i).isSome) :
    ∃ errs, errHiddenPass nn = some { nn with ErrHidden := errs } ∧
      len errs = len nn.ErrHidden ∧
      (∀ i, 0 ≤ i → i < len nn.HiddenLayer - 1 → getAt errs i = some
        (sumOf (upTo (len nn.OutputLayer)) fun j =>
          if nn.Regression then valAt nn.ErrOutput j * valAt2 nn.WeightOutput j i
          else valAt nn.ErrOutput j * valAt2 nn.WeightOutput j i *
            dsigmoid (valAt nn.OutputLayer j))) ∧
      (∀ j, ¬ (0 ≤ j ∧ j < len nn.HiddenLayer - 1) → getAt errs j = getAt nn.ErrHidden j) := by
  obtain ⟨t, hrun, hl, hother, hval⟩ := forEach_assign (upTo (len nn.HiddenLayer - 1)) id
    (fun i => sumOf (upTo (len nn.OutputLayer)) fun j =>
          if nn.Regression then valAt nn.ErrOutput j * valAt2 nn.WeightOutput j i
          else valAt nn.ErrOutput j * valAt2 nn.WeightOutput j i *
            dsigmoid (valAt nn.OutputLayer j))
    (fun i errs =>
        (sumLoop (upTo (len nn.OutputLayer)) (fun j =>
            (getAt nn.ErrOutput j).bind fun e =>
            (getAt2 nn.WeightOutput j i).bind fun w =>
            if nn.Regression then some (e * w)
            else (getAt nn.OutputLayer j).map fun o => e * w * dsigmoid o)).bind
          fun err => setAt errs i err) nn.ErrHidden
    (fun k hk => by
      obtain ⟨h0, h1⟩ := mem_upTo.mp hk
      exact ⟨h0, by simp only [id]; omega⟩)
    (fun k hk t _ => by
      obtain ⟨h0, h1⟩ := mem_upTo.mp hk
      beta_reduce
      rw [sumLoop_eq (upTo (len nn.OutputLayer)) _
        (fun j => if nn.Regression then valAt nn.ErrOutput j * valAt2 nn.WeightOutput j k
          else valAt nn.ErrOutput j * valAt2 nn.WeightOutput j k *
            dsigmoid (valAt nn.OutputLayer j)) (fun j hj => by
          obtain ⟨hj0, hj1⟩ := mem_upTo.mp hj
          simp only [getAt_eq_valAt hj0 (show j < len nn.ErrOutput by omega),
            getAt2_eq_valAt2 (hw k h0 h1 j hj0 hj1), getAt_eq_valAt hj0 hj1,
            Option.some_bind, Option.map_some']
          split <;> rfl)]
      rfl)
  refine ⟨t, ?_, hl, ?_, ?_⟩
  · unfold errHiddenPass
    rw [hrun]
    rfl
  · intro i h0 h1
    exact hval (by simpa using upTo_nodup _) i (mem_upTo.mpr ⟨h0, h1⟩)
  · intro j hj
    exact hother j (fun k hk heq => hj (by
      simp only [id] at heq
      exact heq ▸ mem_upTo.mp hk))

theorem mem_cells {is : List Int} {cols : Int → List Int} {c : Int × Int} :
    c ∈ is.flatMap (fun i => (cols i).map (Prod.mk i)) ↔ c.1 ∈ is ∧ c.2 ∈ cols c.1 := by
  simp only [List.mem_flatMap, List.mem_map]
  constructor
  · rintro ⟨i, hi, j, hj, rfl⟩
    exact ⟨hi, hj⟩
  · rintro ⟨hi, hj⟩
    exact ⟨c.1, hi, c.2, hj, rfl⟩

theorem cells_nodup (is : List Int) (cols : Int → List Int) (his : is.Nodup)
    (hc : ∀ i ∈ is, (cols i).Nodup) :
    (is.flatMap fun i => (cols i).map (Prod.mk i)).Nodup := by
  induction is with
  | nil => simp
  | cons i is ih =>
    rw [List.nodup_cons] at his
    rw [List.flatMap_cons, List.nodup_append]
    refine ⟨?_, ih his.2 (fun k hk => hc k (List.mem_cons_of_mem _ hk)), ?_⟩
    · exact (hc i (List.mem_cons_self _ _)).map (fun a b h => congrArg Prod.snd h)
    · intro c h1 h2
      obtain ⟨j, _, rfl⟩ := List.mem_map.mp h1
      exact his.1 (mem_cells.mp h2).1

/-- Lines 156-170 when every cell the loops visit exists in both matrices. -/
theorem outputWeightPass_spec (nn : Net F)
    (he : len nn.OutputLayer ≤ len nn.ErrOutput)
    (hw : ∀ i, 0 ≤ i → i < len nn.OutputLayer → ∀ j, 0 ≤ j → j < len nn.HiddenLayer →
      (getAt2 nn.WeightOutput i j).isSome ∧ (getAt2 nn.LastChangeOutput i j).isSome) :
    ∃ W L, outputWeightPass nn = some { nn with WeightOutput := W, LastChangeOutput := L } ∧
      dims W = dims nn.WeightOutput ∧ dims L = dims nn.LastChangeOutput ∧
      (∀ i, 0 ≤ i → i < len nn.OutputLayer → ∀ j, 0 ≤ j → j < len nn.HiddenLayer →
        getAt2 W i j = some (valAt2 nn.WeightOutput i j -
          outputChange nn i j (valAt2 nn.LastChangeOutput i j)) ∧
        getAt2 L i j = some (outputChange nn i j (valAt2 nn.LastChangeOutput i j))) ∧
      (∀ i j, ¬ ((0 ≤ i ∧ i < len nn.OutputLayer) ∧ 0 ≤ j ∧ j < len nn.HiddenLayer) →
        getAt2 W i j = getAt2 nn.WeightOutput i j ∧
        getAt2 L i j = getAt2 nn.LastChangeOutput i j) := by
  have hmem : ∀ c : Int × Int,
      c ∈ (upTo (len nn.OutputLayer)).flatMap
        (fun i => (upTo (len nn.HiddenLayer)).map (Prod.mk i)) ↔
      (0 ≤ c.1 ∧ c.1 < len nn.OutputLayer) ∧ 0 ≤ c.2 ∧ c.2 < len nn.HiddenLayer := by
    intro c
    rw [mem_cells, mem_upTo, mem_upTo]
  obtain ⟨t, hrun, hd1, hd2, hother, hval⟩ := forEach_cells
    ((upTo (len nn.OutputLayer)).flatMap fun i => (upTo (len nn.HiddenLayer)).map (Prod.mk i))
    id (fun c w l => (w - outputChange nn c.1 c.2 l, outputChange nn c.1 c.2 l))
    (fun p (st : List (List F) × List (List F)) =>
            (if nn.Regression then getAt nn.ErrOutput p.1
             else (getAt nn.ErrOutput p.1).bind fun e =>
                  (getAt nn.OutputLayer p.1).map fun o => e * dsigmoid o).bind fun delta =>
            (getAt nn.HiddenLayer p.2).bind fun h =>
            (getAt2 st.2 p.1 p.2).bind fun last =>
            let change := nn.Rate1 * delta * h + nn.Rate2 * last
            (getAt2 st.1 p.1 p.2).bind fun w =>
            (setAt2 st.1 p.1 p.2 (w - change)).bind fun weights =>
            (setAt2 st.2 p.1 p.2 change).map fun lasts => (weights, lasts))
    (nn.WeightOutput, nn.LastChangeOutput)
    (fun c hc => by
      obtain ⟨⟨a, b⟩, c0, d⟩ := (hmem c).mp hc
      exact hw c.1 a b c.2 c0 d)
    (fun c hc t w l hw1 hl1 => by
      obtain ⟨⟨a, b⟩, c0, d⟩ := (hmem c).mp hc
      simp only [id] at hw1 hl1 ⊢
      simp only [getAt_eq_valAt a (show c.1 < len nn.ErrOutput by omega), getAt_eq_valAt a b,
        getAt_eq_valAt c0 d, hw1, hl1, Option.some_bind, Option.map_some', outputChange]
      cases nn.Regression <;> rfl)
    (by
      rw [List.map_id]
      exact cells_nodup _ _ (upTo_nodup _) (fun _ _ => upTo_nodup _))
  refine ⟨t.1, t.2, ?_, hd1, hd2, ?_, ?_⟩
  · unfold outputWeightPass
    rw [forEach_nested, hrun]
    rfl
  · intro i hi0 hi1 j hj0 hj1
    obtain ⟨a, b⟩ := hw i hi0 hi1 j hj0 hj1
    have := hval (i, j) ((hmem (i, j)).mpr ⟨⟨hi0, hi1⟩, hj0, hj1⟩) _ _
      (getAt2_eq_valAt2 a) (getAt2_eq_valAt2 b)
    exact this
  · intro i j hij
    exact hother i j (fun c hc heq => hij (by
      have := (hmem c).mp hc
      simp only [id] at heq
      rw [heq] at this
      exact this))

/-- The last loop of the backward passes when the rows `i < len(nn.HiddenLayer)-1`
are visited at distinct in-range columns `cols i`. -/
theorem hiddenWeightPass_spec (nn : Net F) (cols : Int → List Int)
    (he : len nn.HiddenLayer ≤ len nn.ErrHidden)
    (hnd : ∀ i, 0 ≤ i → i < len nn.HiddenLayer - 1 → (cols i).Nodup)
    (hw : ∀ i, 0 ≤ i → i < len nn.HiddenLayer - 1 → ∀ j ∈ cols i,
      (0 ≤ j ∧ j < len nn.InputLayer) ∧
      (getAt2 nn.WeightHidden i j).isSome ∧ (getAt2 nn.LastChangeHidden i j).isSome) :
    ∃ W L, hiddenWeightPass nn cols =
        some { nn with WeightHidden := W, LastChangeHidden := L } ∧
      dims W = dims nn.WeightHidden ∧ dims L = dims nn.LastChangeHidden ∧
      (∀ i, 0 ≤ i → i < len nn.HiddenLayer - 1 → ∀ j ∈ cols i,
        getAt2 W i j = some (valAt2 nn.WeightHidden i j -
          hiddenChange nn i j (valAt2 nn.LastChangeHidden i j)) ∧
        getAt2 L i j = some (hiddenChange nn i j (valAt2 nn.LastChangeHidden i j))) ∧
      (∀ i j, ¬ ((0 ≤ i ∧ i < len nn.HiddenLayer - 1) ∧ j ∈ cols i) →
        getAt2 W i j = getAt2 nn.WeightHidden i j ∧
        getAt2 L i j = getAt2 nn.LastChangeHidden i j) := by
  have hmem : ∀ c : Int × Int,
      c ∈ (upTo (len nn.HiddenLayer - 1)).flatMap (fun i => (cols i).map (Prod.mk i)) ↔
      (0 ≤ c.1 ∧ c.1 < len nn.HiddenLayer - 1) ∧ c.2 ∈ cols c.1 := by
    intro c
    rw [mem_cells, mem_upTo]
  obtain ⟨t, hrun, hd1, hd2, hother, hval⟩ := forEach_cells
    ((upTo (len nn.HiddenLayer - 1)).flatMap fun i => (cols i).map (Prod.mk i))
    id (fun c w l => (w - hiddenChange nn c.1 c.2 l, hiddenChange nn c.1 c.2 l))
    (fun p (st : List (List F) × List (List F)) =>
            (getAt nn.ErrHidden p.1).bind fun e =>
            (getAt nn.HiddenLayer p.1).bind fun h =>
            let delta := e * dsigmoid h
            (getAt nn.InputLayer p.2).bind fun x =>
            (getAt2 st.2 p.1 p.2).bind fun last =>
            let change := nn.Rate1 * delta * x + nn.Rate2 * last
            (getAt2 st.1 p.1 p.2).bind fun w =>
            (setAt2 st.1 p.1 p.2 (w - change)).bind fun weights =>
            (setAt2 st.2 p.1 p.2 change).map fun lasts => (weights, lasts))
    (nn.WeightHidden, nn.LastChangeHidden)
    (fun c hc => by
      obtain ⟨⟨a, b⟩, c0⟩ := (hmem c).mp hc
      exact (hw c.1 a b c.2 c0).2)
    (fun c hc t w l hw1 hl1 => by
      obtain ⟨⟨a, b⟩, c0⟩ := (hmem c).mp hc
      obtain ⟨⟨d0, d1⟩, _⟩ := hw c.1 a b c.2 c0
      simp only [id] at hw1 hl1 ⊢
      simp only [getAt_eq_valAt a (show c.1 < len nn.ErrHidden by omega),
        getAt_eq_valAt a (show c.1 < len nn.HiddenLayer by omega),
        getAt_eq_valAt d0 d1, hw1, hl1, Option.some_bind, Option.map_some', hiddenChange])
    (by
      rw [List.map_id]
      exact cells_nodup _ _ (upTo_nodup _)
        (fun i hi => hnd i (mem_upTo.mp hi).1 (mem_upTo.mp hi).2))
  refine ⟨t.1, t.2, ?_, hd1, hd2, ?_, ?_⟩
  · unfold hiddenWeightPass
    rw [forEach_nested, hrun]
    rfl
  · intro i hi0 hi1 j hj
    obtain ⟨_, a, b⟩ := hw i hi0 hi1 j hj
    exact hval (i, j) ((hmem (i, j)).mpr ⟨⟨hi0, hi1⟩, hj⟩) _ _
      (getAt2_eq_valAt2 a) (getAt2_eq_valAt2 b)
  · intro i j hij
    exact hother i j (fun c hc heq => hij (by
      have := (hmem c).mp hc
      simp only [id] at heq
      rw [heq] at this
      exact this))

end FeedbackLemmas
section FeedbackSpec
variable {F : Type} [Zero F] [One F] [Add F] [Sub F] [Mul F] [Div F] [Neg F] [OfScientific F]

/-- The first three loops of the backward passes (lines 139-170) on a
well-shaped network and a target that reaches as far as the output layer:
they complete, and this is the state they leave. -/
theorem feedbackFront_spec (nn : Net F) (I H O : Nat) (hw : WellShaped nn I H O)
    (t : List F) (ht : (O : Int) ≤ len t) :
    ∃ eo eh W L,
      ((errOutputPass nn t).bind fun nn => (errHiddenPass nn).bind fun nn => outputWeightPass nn) =
        some { nn with ErrOutput := eo, ErrHidden := eh, WeightOutput := W,
                       LastChangeOutput := L } ∧
      len eo = (O : Int) ∧ len eh = (H : Int) + 1 ∧
      dims W = List.replicate O (H + 1) ∧ dims L = List.replicate O (H + 1) ∧
      (∀ i : Int, 0 ≤ i → i < (O : Int) →
        getAt eo i = some (valAt nn.OutputLayer i - valAt t i)) ∧
      (∀ i : Int, 0 ≤ i → i < (H : Int) → getAt eh i = some
        (sumOf (upTo (O : Int)) fun j =>
          if nn.Regression then valAt eo j * valAt2 nn.WeightOutput j i
          else valAt eo j * valAt2 nn.WeightOutput j i * dsigmoid (valAt nn.OutputLayer j))) ∧
      getAt eh (H : Int) = getAt nn.ErrHidden (H : Int) ∧
      (∀ i : Int, 0 ≤ i → i < (O : Int) → ∀ j : Int, 0 ≤ j → j < (H : Int) + 1 →
        getAt2 W i j = some (valAt2 nn.WeightOutput i j -
          outputChange { nn with ErrOutput := eo } i j (valAt2 nn.LastChangeOutput i j)) ∧
        getAt2 L i j = some
          (outputChange { nn with ErrOutput := eo } i j (valAt2 nn.LastChangeOutput i j))) := by
  obtain ⟨hI, hH, hO, hEO, hEH, hWH, hWO, hLH, hLO⟩ := hw
  have lI := len_eq_of_length hI
  have lH := len_eq_of_length hH
  have lO := len_eq_of_length hO
  have lEO := len_eq_of_length hEO
  have lEH := len_eq_of_length hEH
  obtain ⟨eo, h1, hl1, hv1, _⟩ := errOutputPass_spec nn t (by omega) (by omega)
  obtain ⟨eh, h2, hl2, hv2, ho2⟩ := errHiddenPass_spec { nn with ErrOutput := eo }
    (by show len nn.HiddenLayer ≤ len nn.ErrHidden; omega)
    (by show len nn.OutputLayer ≤ len eo; omega)
    (fun i h0 h1 j hj0 hj1 => by
      show (getAt2 nn.WeightOutput j i).isSome
      rw [getAt2_isSome_of_dims hWO]
      have a : i < len nn.HiddenLayer - 1 := h1
      have b : j < len nn.OutputLayer := hj1
      push_cast
      omega)
  obtain ⟨W, L, h3, hd1, hd2, hv3, _⟩ := outputWeightPass_spec
    { nn with ErrOutput := eo, ErrHidden := eh }
    (by show len nn.OutputLayer ≤ len eo; omega)
    (fun i h0 h1 j hj0 hj1 => by
      show (getAt2 nn.WeightOutput i j).isSome ∧ (getAt2 nn.LastChangeOutput i j).isSome
      rw [getAt2_isSome_of_dims hWO, getAt2_isSome_of_dims hLO]
      have a : i < len nn.OutputLayer := h1
      have b : j < len nn.HiddenLayer := hj1
      push_cast
      exact ⟨by omega, by omega⟩)
  refine ⟨eo, eh, W, L, ?_, by omega, ?_, hd1.trans hWO, hd2.trans hLO, ?_, ?_, ?_, ?_⟩
  · rw [h1]
    simp only [Option.some_bind]
    rw [h2]
    simp only [Option.some_bind]
    rw [h3]
  · have : len eh = len nn.ErrHidden := hl2
    omega
  · intro i h0 h1
    exact hv1 i h0 (by omega)
  · intro i h0 h1
    have := hv2 i h0 (by show i < len nn.HiddenLayer - 1; omega)
    simp only at this
    rw [this, lO]
  · exact ho2 (H : Int) (by
      show ¬ (0 ≤ (H : Int) ∧ (H : Int) < len nn.HiddenLayer - 1)
      omega)
  · intro i h0 h1 j hj0 hj1
    exact hv3 i h0 (by show i < len nn.OutputLayer; omega) j hj0
      (by show j < len nn.HiddenLayer; omega)

/-- The whole backward pass on a well-shaped network: the first three loops
followed by the hidden weight loop over distinct in-range columns `cols i`. -/
theorem feedbackWith_spec (nn : Net F) (I H O : Nat) (hw : WellShaped nn I H O)
    (t : List F) (ht : (O : Int) ≤ len t) (cols : Int → List Int)
    (hnd : ∀ i : Int, 0 ≤ i → i < (H : Int) → (cols i).Nodup)
    (hcols : ∀ i : Int, 0 ≤ i → i < (H : Int) → ∀ j ∈ cols i, 0 ≤ j ∧ j < (I : Int) + 1) :
    ∃ eo eh W L W2 L2,
      ((errOutputPass nn t).bind fun nn => (errHiddenPass nn).bind fun nn =>
        (outputWeightPass nn).bind fun nn => hiddenWeightPass nn cols) =
        some { nn with ErrOutput := eo, ErrHidden := eh, WeightOutput := W,
                       LastChangeOutput := L, WeightHidden := W2, LastChangeHidden := L2 } ∧
      len eo = (O : Int) ∧ len eh = (H : Int) + 1 ∧
      dims W = List.replicate O (H + 1) ∧ dims L = List.replicate O (H + 1) ∧
      dims W2 = List.replicate (H + 1) (I + 1) ∧ dims L2 = List.replicate (H + 1) (I + 1) ∧
      (∀ i : Int, 0 ≤ i → i < (O : Int) →
        getAt eo i = some (valAt nn.OutputLayer i - valAt t i)) ∧
      (∀ i : Int, 0 ≤ i → i < (H : Int) → getAt eh i = some
        (sumOf (upTo (O : Int)) fun j =>
          if nn.Regression then valAt eo j * valAt2 nn.WeightOutput j i
          else valAt eo j * valAt2 nn.WeightOutput j i * dsigmoid (valAt nn.OutputLayer j))) ∧
      getAt eh (H : Int) = getAt nn.ErrHidden (H : Int) ∧
      (∀ i : Int, 0 ≤ i → i < (O : Int) → ∀ j : Int, 0 ≤ j → j < (H : Int) + 1 →
        getAt2 W i j = some (valAt2 nn.WeightOutput i j -
          outputChange { nn with ErrOutput := eo } i j (valAt2 nn.LastChangeOutput i j)) ∧
        getAt2 L i j = some
          (outputChange { nn with ErrOutput := eo } i j (valAt2 nn.LastChangeOutput i j))) ∧
      (∀ i : Int, 0 ≤ i → i < (H : Int) → ∀ j ∈ cols i,
        getAt2 W2 i j = some (valAt2 nn.WeightHidden i j -
          hiddenChange { nn with ErrHidden := eh } i j (valAt2 nn.LastChangeHidden i j)) ∧
        getAt2 L2 i j = some
          (hiddenChange { nn with ErrHidden := eh } i j (valAt2 nn.LastChangeHidden i j))) ∧
      (∀ i j : Int, ¬ ((0 ≤ i ∧ i < (H : Int)) ∧ j ∈ cols i) →
        getAt2 W2 i j = getAt2 nn.WeightHidden i j ∧
        getAt2 L2 i j = getAt2 nn.LastChangeHidden i j) := by
  obtain ⟨eo, eh, W, L, hfront, hleo, hleh, hdW, hdL, hveo, hveh, hehH, hvW⟩ :=
    feedbackFront_spec nn I H O hw t ht
  obtain ⟨hI, hH, hO, hEO, hEH, hWH, hWO, hLH, hLO⟩ := hw
  have lI := len_eq_of_length hI
  have lH := len_eq_of_length hH
  obtain ⟨n1, hn1, hrest⟩ := Option.bind_eq_some.mp hfront
  obtain ⟨n2, hn2, hn3⟩ := Option.bind_eq_some.mp hrest
  obtain ⟨W2, L2, h4, hd1, hd2, hv4, ho4⟩ := hiddenWeightPass_spec
    { nn with ErrOutput := eo, ErrHidden := eh, WeightOutput := W, LastChangeOutput := L } cols
    (by show len nn.HiddenLayer ≤ len eh; omega)
    (fun i h0 h1 => hnd i h0 (by
      have : i < len nn.HiddenLayer - 1 := h1
      omega))
    (fun i h0 h1 j hj => by
      have a : i < len nn.HiddenLayer - 1 := h1
      obtain ⟨b, c⟩ := hcols i h0 (by omega) j hj
      refine ⟨⟨b, by show j < len nn.InputLayer; omega⟩, ?_⟩
      show (getAt2 nn.WeightHidden i j).isSome ∧ (getAt2 nn.LastChangeHidden i j).isSome
      rw [getAt2_isSome_of_dims hWH, getAt2_isSome_of_dims hLH]
      push_cast
      exact ⟨by omega, by omega⟩)
  refine ⟨eo, eh, W, L, W2, L2, ?_, hleo, hleh, hdW, hdL, hd1.trans hWH, hd2.trans hLH,
    hveo, hveh, hehH, hvW, ?_, ?_⟩
  · rw [hn1]
    simp only [Option.some_bind]
    rw [hn2]
    simp only [Option.some_bind]
    rw [hn3]
    simp only [Option.some_bind]
    rw [h4]
  · intro i h0 h1 j hj
    exact hv4 i h0 (by show i < len nn.HiddenLayer - 1; omega) j hj
  · intro i j hij
    exact ho4 i j (fun h => hij ⟨⟨h.1.1, by
      have : i < len nn.HiddenLayer - 1 := h.1.2
      omega⟩, h.2⟩)

end FeedbackSpec

section FeedbackSpec2
variable {F : Type} [Zero F] [One F] [Add F] [Sub F] [Mul F] [Div F] [Neg F] [OfScientific F]

theorem errOutputPass_frame {nn n1 : Net F} {t : List F} (h : errOutputPass nn t = some n1) :
    n1.InputLayer = nn.InputLayer := by
  unfold errOutputPass at h
  obtain ⟨x, _, rfl⟩ := Option.map_eq_some'.mp h
  rfl

theorem errHiddenPass_frame {nn n1 : Net F} (h : errHiddenPass nn = some n1) :
    n1.InputLayer = nn.InputLayer := by
  unfold errHiddenPass at h
  obtain ⟨x, _, rfl⟩ := Option.map_eq_some'.mp h
  rfl

theorem outputWeightPass_frame {nn n1 : Net F} (h : outputWeightPass nn = some n1) :
    n1.InputLayer = nn.InputLayer := by
  unfold outputWeightPass at h
  obtain ⟨x, _, rfl⟩ := Option.map_eq_some'.mp h
  rfl

/-- In `Feedback` the bound `len(nn.InputLayer)` of the last loop is the length
the input layer had at the call: no loop before it touches the input layer. -/
theorem Feedback_eq (nn : Net F) (t : List F) :
    Feedback nn t = ((errOutputPass nn t).bind fun n1 => (errHiddenPass n1).bind fun n2 =>
      (outputWeightPass n2).bind fun n3 =>
        hiddenWeightPass n3 (fun _ => upTo (len nn.InputLayer))) := by
  unfold Feedback
  cases h1 : errOutputPass nn t with
  | none => rfl
  | some n1 =>
    simp only [Option.some_bind]
    cases h2 : errHiddenPass n1 with
    | none => rfl
    | some n2 =>
      simp only [Option.some_bind]
      cases h3 : outputWeightPass n2 with
      | none => rfl
      | some n3 =>
        simp only [Option.some_bind]
        rw [outputWeightPass_frame h3, errHiddenPass_frame h2, errOutputPass_frame h1]

/-- The dense backward pass on a well-shaped network and a target that reaches
as far as the output layer: it returns, and this is the state it leaves. -/
theorem Feedback_spec (nn : Net F) (I H O : Nat) (hw : WellShaped nn I H O)
    (t : List F) (ht : (O : Int) ≤ len t) :
    ∃ eo eh W L W2 L2,
      Feedback nn t =
        some { nn with ErrOutput := eo, ErrHidden := eh, WeightOutput := W,
                       LastChangeOutput := L, WeightHidden := W2, LastChangeHidden := L2 } ∧
      len eo = (O : Int) ∧ len eh = (H : Int) + 1 ∧
      dims W = List.replicate O (H + 1) ∧ dims L = List.replicate O (H + 1) ∧
      dims W2 = List.replicate (H + 1) (I + 1) ∧ dims L2 = List.replicate (H + 1) (I + 1) ∧
      (∀ i : Int, 0 ≤ i → i < (O : Int) →
        getAt eo i = some (valAt nn.OutputLayer i - valAt t i)) ∧
      (∀ i : Int, 0 ≤ i → i < (H : Int) → getAt eh i = some
        (sumOf (upTo (O : Int)) fun j =>
          if nn.Regression then valAt eo j * valAt2 nn.WeightOutput j i
          else valAt eo j * valAt2 nn.WeightOutput j i * dsigmoid (valAt nn.OutputLayer j))) ∧
      getAt eh (H : Int) = getAt nn.ErrHidden (H : Int) ∧
      (∀ i : Int, 0 ≤ i → i < (O : Int) → ∀ j : Int, 0 ≤ j → j < (H : Int) + 1 →
        getAt2 W i j = some (valAt2 nn.WeightOutput i j -
          outputChange { nn with ErrOutput := eo } i j (valAt2 nn.LastChangeOutput i j)) ∧
        getAt2 L i j = some
          (outputChange { nn with ErrOutput := eo } i j (valAt2 nn.LastChangeOutput i j))) ∧
      (∀ i : Int, 0 ≤ i → i < (H : Int) → ∀ j : Int, 0 ≤ j → j < (I : Int) + 1 →
        getAt2 W2 i j = some (valAt2 nn.WeightHidden i j -
          hiddenChange { nn with ErrHidden := eh } i j (valAt2 nn.LastChangeHidden i j)) ∧
        getAt2 L2 i j = some
          (hiddenChange { nn with ErrHidden := eh } i j (valAt2 nn.LastChangeHidden i j))) ∧
      (∀ j : Int, getAt2 W2 (H : Int) j = getAt2 nn.WeightHidden (H : Int) j ∧
        getAt2 L2 (H : Int) j = getAt2 nn.LastChangeHidden (H : Int) j) := by
  have lI := len_eq_of_length hw.1
  obtain ⟨eo, eh, W, L, W2, L2, hrun, a1, a2, a3, a4, a5, a6, a7, a8, a9, a10, a11, a12⟩ :=
    feedbackWith_spec nn I H O hw t ht (fun _ => upTo (len nn.InputLayer))
      (fun _ _ _ => upTo_nodup _)
      (fun i _ _ j hj => by
        obtain ⟨h0, h1⟩ := mem_upTo.mp hj
        exact ⟨h0, by omega⟩)
  refine ⟨eo, eh, W, L, W2, L2, ?_, a1, a2, a3, a4, a5, a6, a7, a8, a9, a10, ?_, ?_⟩
  · rw [Feedback_eq]
    exact hrun
  · intro i h0 h1 j hj0 hj1
    exact a11 i h0 h1 j (mem_upTo.mpr ⟨hj0, by omega⟩)
  · intro j
    exact a12 (H : Int) j (fun h => by omega)

end FeedbackSpec2

section SumLemmas

theorem foldl_add_congr {κ F : Type} [Add F] (ks : List κ) (f g : κ → F)
    (h : ∀ k ∈ ks, f k = g k) (a : F) :
    ks.foldl (fun acc k => acc + f k) a = ks.foldl (fun acc k => acc + g k) a := by
  induction ks generalizing a with
  | nil => rfl
  | cons k ks ih =>
    simp only [List.foldl_cons]
    rw [h k (List.mem_cons_self _ _)]
    exact ih (fun j hj => h j (List.mem_cons_of_mem _ hj)) _

theorem sumOf_congr {κ F : Type} [Zero F] [Add F] (ks : List κ) (f g : κ → F)
    (h : ∀ k ∈ ks, f k = g k) : sumOf ks f = sumOf ks g :=
  foldl_add_congr ks f g h 0

end SumLemmas

section CalcErrorLemmas
variable {F : Type} [LinearOrderedField F]

theorem forEach_add_nonneg {κ : Type} (ks : List κ) (term : κ → Option F)
    (hterm : ∀ k v, term k = some v → 0 ≤ v) (a e : F) (ha : 0 ≤ a)
    (h : forEach ks (fun k acc => (term k).map (fun t => acc + t)) a = some e) : 0 ≤ e := by
  induction ks generalizing a with
  | nil =>
    simp only [forEach] at h
    cases h
    exact ha
  | cons k ks ih =>
    simp only [forEach] at h
    cases hk : term k with
    | none => simp [hk] at h
    | some v =>
      simp only [hk, Option.map_some', Option.some_bind] at h
      exact ih (a + v) (add_nonneg ha (hterm k v hk)) h

theorem foldl_add_eq_zero_iff {κ : Type} (ks : List κ) (f : κ → F) (hf : ∀ k ∈ ks, 0 ≤ f k)
    (a : F) (ha : 0 ≤ a) :
    ks.foldl (fun acc k => acc + f k) a = 0 ↔ a = 0 ∧ ∀ k ∈ ks, f k = 0 := by
  induction ks generalizing a with
  | nil => simp
  | cons k ks ih =>
    have hk := hf k (List.mem_cons_self _ _)
    simp only [List.foldl_cons, List.mem_cons, forall_eq_or_imp]
    rw [ih (fun j hj => hf j (List.mem_cons_of_mem _ hj)) (a + f k) (add_nonneg ha hk)]
    constructor
    · rintro ⟨h1, h2⟩
      exact ⟨by linarith, by linarith, h2⟩
    · rintro ⟨h1, h2, h3⟩
      exact ⟨by rw [h1, h2, add_zero], h3⟩

theorem half_sq_nonneg (x : F) : 0 ≤ (0.5 : F) * x * x := by
  have : (0.5 : F) * x * x = (1 / 2) * (x * x) := by norm_num; ring
  rw [this]
  exact mul_nonneg (by norm_num) (mul_self_nonneg x)

theorem half_sq_eq_zero_iff (x : F) : (0.5 : F) * x * x = 0 ↔ x = 0 := by
  have : (0.5 : F) * x * x = (1 / 2) * (x * x) := by norm_num; ring
  rw [this]
  constructor
  · intro h
    have h2 : x * x = 0 := by
      rcases mul_eq_zero.mp h with h1 | h1
      · norm_num at h1
      · exact h1
    exact mul_self_eq_zero.mp h2
  · rintro rfl
    simp

end CalcErrorLemmas

section PermLemmas

theorem foldl_add_eq_sum {κ F : Type} [AddCommMonoid F] (ks : List κ) (f : κ → F) (a : F) :
    ks.foldl (fun acc k => acc + f k) a = a + (ks.map f).sum := by
  induction ks generalizing a with
  | nil => simp
  | cons k ks ih => simp [ih, add_assoc]

theorem sumOf_perm {κ F : Type} [AddCommMonoid F] {ks ls : List κ} (h : ks.Perm ls)
    (f : κ → F) : sumOf ks f = sumOf ls f := by
  unfold sumOf
  rw [foldl_add_eq_sum, foldl_add_eq_sum, (h.map f).sum_eq]

variable {F : Type} [AddCommMonoid F] [One F] [Sub F] [Mul F] [Div F] [Neg F] [OfScientific F]

/-- When addition is associative and commutative, the hidden loop of the
forward passes does not depend on the order in which the columns come. -/
theorem hiddenPass_perm (P : GoMath F) (nn : Net F) (cols cols1 : Int → List Int)
    (hcols : ∀ i, 0 ≤ i → i < len nn.HiddenLayer - 1 → ∀ j ∈ cols i,
      (0 ≤ j ∧ j < len nn.InputLayer) ∧ (getAt2 nn.WeightHidden i j).isSome)
    (hperm : ∀ i, 0 ≤ i → i < len nn.HiddenLayer - 1 → (cols1 i).Perm (cols i)) :
    hiddenPass P nn cols1 = hiddenPass P nn cols := by
  obtain ⟨l, hl, _, hv, ho⟩ := hiddenPass_spec P nn cols hcols
  obtain ⟨l1, hl1, _, hv1, ho1⟩ := hiddenPass_spec P nn cols1
    (fun i h0 h1 j hj => hcols i h0 h1 j ((hperm i h0 h1).mem_iff.mp hj))
  rw [hl, hl1]
  have : l1 = l := by
    apply ext_getAt
    intro k
    by_cases hk : 0 ≤ k ∧ k < len nn.HiddenLayer - 1
    · rw [hv k hk.1 hk.2, hv1 k hk.1 hk.2, sumOf_perm (hperm k hk.1 hk.2)]
    · rw [ho k hk, ho1 k hk]
  rw [this]

end PermLemmas

section PermLemmas2
variable {F : Type} [Zero F] [One F] [Add F] [Sub F] [Mul F] [Div F] [Neg F] [OfScientific F]

/-- The hidden weight loop of the backward passes does not depend on the order
in which the columns of a row come. -/
theorem hiddenWeightPass_perm (nn : Net F) (cols cols1 : Int → List Int)
    (he : len nn.HiddenLayer ≤ len nn.ErrHidden)
    (hnd : ∀ i, 0 ≤ i → i < len nn.HiddenLayer - 1 → (cols i).Nodup)
    (hw : ∀ i, 0 ≤ i → i < len nn.HiddenLayer - 1 → ∀ j ∈ cols i,
      (0 ≤ j ∧ j < len nn.InputLayer) ∧
      (getAt2 nn.WeightHidden i j).isSome ∧ (getAt2 nn.LastChangeHidden i j).isSome)
    (hperm : ∀ i, 0 ≤ i → i < len nn.HiddenLayer - 1 → (cols1 i).Perm (cols i)) :
    hiddenWeightPass nn cols1 = hiddenWeightPass nn cols := by
  obtain ⟨W, L, h, hd1, hd2, hv, ho⟩ := hiddenWeightPass_spec nn cols he hnd hw
  obtain ⟨W1, L1, h1, hd3, hd4, hv1, ho1⟩ := hiddenWeightPass_spec nn cols1 he
    (fun i a b => (hperm i a b).nodup_iff.mpr (hnd i a b))
    (fun i a b j hj => hw i a b j ((hperm i a b).mem_iff.mp hj))
  rw [h, h1]
  have hmem : ∀ i j, ((0 ≤ i ∧ i < len nn.HiddenLayer - 1) ∧ j ∈ cols1 i) ↔
      ((0 ≤ i ∧ i < len nn.HiddenLayer - 1) ∧ j ∈ cols i) := by
    intro i j
    constructor
    · rintro ⟨a, b⟩
      exact ⟨a, (hperm i a.1 a.2).mem_iff.mp b⟩
    · rintro ⟨a, b⟩
      exact ⟨a, (hperm i a.1 a.2).mem_iff.mpr b⟩
  have eW : W1 = W := by
    apply ext_getAt2 (hd3.trans hd1.symm)
    intro i j
    by_cases hc : (0 ≤ i ∧ i < len nn.HiddenLayer - 1) ∧ j ∈ cols i
    · rw [(hv i hc.1.1 hc.1.2 j hc.2).1,
        (hv1 i hc.1.1 hc.1.2 j ((hmem i j).mpr hc).2).1]
    · rw [(ho i j hc).1, (ho1 i j (fun h => hc ((hmem i j).mp h))).1]
  have eL : L1 = L := by
    apply ext_getAt2 (hd4.trans hd2.symm)
    intro i j
    by_cases hc : (0 ≤ i ∧ i < len nn.HiddenLayer - 1) ∧ j ∈ cols i
    · rw [(hv i hc.1.1 hc.1.2 j hc.2).2,
        (hv1 i hc.1.1 hc.1.2 j ((hmem i j).mpr hc).2).2]
    · rw [(ho i j hc).2, (ho1 i j (fun h => hc ((hmem i j).mp h))).2]
  rw [eW, eL]

/-- Lines 267-270 for a map that holds the dense vector `v` and the bias index:
the input layer becomes `v` followed by `1.0`, as lines 110-113 leave it. -/
theorem copyInputMap_dense (nn : Net F) (v : List F) (entries : List (Int × F))
    (hlen : len v + 1 = len nn.InputLayer)
    (hkeys : (entries.map Prod.fst).Perm (upTo (len v + 1)))
    (hvals : ∀ kv ∈ entries, kv.1 < len v → getAt v kv.1 = some kv.2) :
    (copyInputMap nn entries).bind biasInput = some { nn with InputLayer := v ++ [1] } := by
  have hnn := len_nonneg v
  have hin : ∀ kv ∈ entries, 0 ≤ kv.1 ∧ kv.1 < len nn.InputLayer := by
    intro kv hkv
    have := mem_upTo.mp (hkeys.mem_iff.mp (List.mem_map_of_mem Prod.fst hkv))
    omega
  obtain ⟨inp, hrun, hl, hb, _, hput⟩ := copyInputMap_biasInput nn entries (by omega) hin
  rw [hrun]
  have : inp = v ++ [1] := by
    apply ext_getAt
    intro k
    by_cases hk : k = len v
    · subst hk
      rw [getAt_append_len, ← hb]
      congr 1
      omega
    · by_cases hin2 : 0 ≤ k ∧ k < len v
      · have hmem : k ∈ entries.map Prod.fst :=
          hkeys.mem_iff.mpr (mem_upTo.mpr ⟨hin2.1, by omega⟩)
        obtain ⟨kv, hkv, rfl⟩ := List.mem_map.mp hmem
        rw [hput (hkeys.nodup_iff.mpr (upTo_nodup _)) kv hkv (by omega),
          getAt_append_left _ _ hin2.2, hvals kv hkv hin2.2]
      · have h1 : getAt inp k = none := by
          rw [getAt_eq_none_iff]; omega
        have h2 : getAt (v ++ [1]) k = none := by
          rw [getAt_eq_none_iff]
          have : len (v ++ [(1 : F)]) = len v + 1 := by simp [len]
          omega
        rw [h1, h2]
  rw [this]

end PermLemmas2

section Equivalence
variable {F : Type} [Zero F] [One F] [Add F] [Sub F] [Mul F] [Div F] [Neg F] [OfScientific F]

theorem length_eq_of_len {α : Type} {s : List α} {n : Nat} (h : len s = (n : Int)) :
    s.length = n := by
  unfold len at h; omega

/-- The forward pass keeps a well-shaped network well-shaped. -/
theorem Forward_wellShaped (P : GoMath F) (nn : Net F) (I H O : Nat) (hw : WellShaped nn I H O)
    (v : List F) (hv : v.length = I) :
    ∃ nn1 out, Forward P nn v = some (nn1, Except.ok out) ∧ out = nn1.OutputLayer ∧
      WellShaped nn1 I H O := by
  obtain ⟨hid, out, hf, hlh, hlo, _⟩ := Forward_spec P nn I H O hw v hv
  obtain ⟨_, _, _, a, b, c, d, e, f⟩ := hw
  refine ⟨_, out, hf, rfl, ?_, ?_, ?_, a, b, c, d, e, f⟩
  · show (v ++ [1]).length = I + 1
    simp [hv]
  · show hid.length = H + 1
    unfold len at hlh; omega
  · exact length_eq_of_len hlo

/-- The backward pass keeps a well-shaped network well-shaped. -/
theorem Feedback_wellShaped (nn : Net F) (I H O : Nat) (hw : WellShaped nn I H O)
    (t : List F) (ht : (O : Int) ≤ len t) :
    ∃ nn1, Feedback nn t = some nn1 ∧ WellShaped nn1 I H O := by
  obtain ⟨eo, eh, W, L, W2, L2, hrun, a1, a2, a3, a4, a5, a6, _⟩ := Feedback_spec nn I H O hw t ht
  obtain ⟨a, b, c, _, _, _, _, _, _⟩ := hw
  refine ⟨_, hrun, a, b, c, length_eq_of_len a1, ?_, a5, a3, a6, a4⟩
  show eh.length = H + 1
  unfold len at a2; omega

/-- For a map whose keys are exactly the indices of the input layer, in any
order at each `range`, `FeedbackMap` does what `Feedback` does. -/
theorem FeedbackMap_dense (nn : Net F) (I H O : Nat) (hw : WellShaped nn I H O)
    (t : List F) (ht : (O : Int) ≤ len t) (m : RangeSeq F)
    (hkeys : ∀ r, ((m r).map Prod.fst).Perm (upTo ((I : Int) + 1))) :
    FeedbackMap nn t m = Feedback nn t := by
  obtain ⟨eo, eh, W, L, hfront, hleo, hleh, hdW, hdL, _⟩ := feedbackFront_spec nn I H O hw t ht
  obtain ⟨hI, hH, hO, hEO, hEH, hWH, hWO, hLH, hLO⟩ := hw
  have lI := len_eq_of_length hI
  have lH := len_eq_of_length hH
  obtain ⟨n1, hn1, hrest⟩ := Option.bind_eq_some.mp hfront
  obtain ⟨n2, hn2, hn3⟩ := Option.bind_eq_some.mp hrest
  rw [Feedback_eq]
  unfold FeedbackMap
  rw [hn1]
  simp only [Option.some_bind]
  rw [hn2]
  simp only [Option.some_bind]
  rw [hn3]
  simp only [Option.some_bind]
  refine hiddenWeightPass_perm
    { nn with ErrOutput := eo, ErrHidden := eh, WeightOutput := W, LastChangeOutput := L }
    (fun _ => upTo (len nn.InputLayer)) (fun i => (m i.toNat).map Prod.fst)
    (by show len nn.HiddenLayer ≤ len eh; omega)
    (fun _ _ _ => upTo_nodup _)
    (fun i h0 h1 j hj => ?_)
    (fun i _ _ => ?_)
  · obtain ⟨hj0, hj1⟩ := mem_upTo.mp hj
    have a : i < len nn.HiddenLayer - 1 := h1
    refine ⟨⟨hj0, hj1⟩, ?_⟩
    show (getAt2 nn.WeightHidden i j).isSome ∧ (getAt2 nn.LastChangeHidden i j).isSome
    rw [getAt2_isSome_of_dims hWH, getAt2_isSome_of_dims hLH]
    push_cast
    exact ⟨by omega, by omega⟩
  · have := hkeys i.toNat
    rw [lI]
    push_cast
    exact this

end Equivalence

section Equivalence2
variable {F : Type} [AddCommMonoid F] [One F] [Sub F] [Mul F] [Div F] [Neg F] [OfScientific F]

/-- When addition is associative and commutative: for a map that holds the
dense vector `v` and the bias index, `ForwardMap` leaves the network that
`Forward` on `v` leaves, and returns the same output. -/
theorem ForwardMap_dense (P : GoMath F) (nn : Net F) (I H O : Nat) (hw : WellShaped nn I H O)
    (v : List F) (hv : v.length = I) (m : RangeSeq F) (hm : IsDenseMap v m) :
    ∃ nn1 out, Forward P nn v = some (nn1, Except.ok out) ∧
      ForwardMap P nn m = some (nn1, out) ∧ WellShaped nn1 I H O := by
  obtain ⟨nn1, out, hf, hout, hw1⟩ := Forward_wellShaped P nn I H O hw v hv
  refine ⟨nn1, out, hf, ?_, hw1⟩
  obtain ⟨es, ⟨_, henum⟩, hkeys, hvals⟩ := hm
  have lv := len_eq_of_length hv
  obtain ⟨hI, hH, _, _, _, hWH, _⟩ := hw
  have lI := len_eq_of_length hI
  have lH := len_eq_of_length hH
  have hlen : len v + 1 = len nn.InputLayer := by omega
  have hkr : ∀ r, ((m r).map Prod.fst).Perm (upTo (len v + 1)) :=
    fun r => ((henum r).map Prod.fst).trans hkeys
  have hcopyS := copyInputMap_dense nn v (m 0) hlen (hkr 0)
    (fun kv hkv => hvals kv ((henum 0).mem_iff.mp hkv))
  have hcopyD := copyInput_biasInput nn v hlen
  have lI1 : len (v ++ [(1 : F)]) = len v + 1 := by simp [len]
  have hperm : hiddenPass P { nn with InputLayer := v ++ [1] }
      (fun i => (m (i.toNat + 1)).map Prod.fst) =
      hiddenPass P { nn with InputLayer := v ++ [1] } (fun _ => upTo (len (v ++ [(1 : F)]))) :=
    hiddenPass_perm P { nn with InputLayer := v ++ [1] } _ _
      (fun i h0 h1 j hj => by
        obtain ⟨hj0, hj1⟩ := mem_upTo.mp hj
        refine ⟨⟨hj0, hj1⟩, ?_⟩
        show (getAt2 nn.WeightHidden i j).isSome
        rw [getAt2_isSome_of_dims hWH]
        have : i < len nn.HiddenLayer - 1 := h1
        push_cast
        omega)
      (fun i _ _ => by rw [lI1]; exact hkr _)
  obtain ⟨c0, hc0, hb0⟩ := Option.bind_eq_some.mp hcopyD
  obtain ⟨s0, hs0, hsb0⟩ := Option.bind_eq_some.mp hcopyS
  unfold Forward at hf
  rw [if_neg (by omega), hc0] at hf
  simp only [Option.some_bind] at hf
  rw [hb0] at hf
  simp only [Option.some_bind] at hf
  obtain ⟨n2, hn2, hf⟩ := Option.bind_eq_some.mp hf
  obtain ⟨n3, hn3, hf⟩ := Option.bind_eq_some.mp hf
  obtain ⟨n4, hn4, hf⟩ := Option.map_eq_some'.mp hf
  have e1 : n4 = nn1 := congrArg Prod.fst hf
  unfold ForwardMap
  rw [hs0]
  simp only [Option.some_bind]
  rw [hsb0]
  simp only [Option.some_bind]
  rw [hperm]
  have hn2b : hiddenPass P { nn with InputLayer := v ++ [1] }
      (fun _ => upTo (len (v ++ [(1 : F)]))) = some n2 := hn2
  rw [hn2b]
  simp only [Option.some_bind]
  rw [hn3]
  simp only [Option.some_bind]
  rw [hn4]
  simp only [Option.map_some']
  rw [e1, hout]

end Equivalence2

section FrameLemmas
variable {α κ σ : Type}

theorem forEach_preserves (Q : σ → Prop) (ks : List κ) (body : κ → σ → Option σ)
    (h : ∀ k ∈ ks, ∀ s s1, Q s → body k s = some s1 → Q s1) {s s1 : σ} (hs : Q s)
    (hrun : forEach ks body s = some s1) : Q s1 := by
  induction ks generalizing s with
  | nil =>
    simp only [forEach] at hrun
    cases hrun
    exact hs
  | cons k ks ih =>
    simp only [forEach] at hrun
    obtain ⟨t, ht, hrun⟩ := Option.bind_eq_some.mp hrun
    exact ih (fun k1 hk1 => h k1 (List.mem_cons_of_mem _ hk1))
      (h k (List.mem_cons_self _ _) s t hs ht) hrun

theorem setAt_frame {s t : List α} {k : Int} {v : α} (h : setAt s k v = some t) :
    len t = len s ∧ ∀ j, j ≠ k → getAt t j = getAt s j := by
  unfold setAt at h
  split at h
  · rename_i hk
    cases h
    exact ⟨by simp [len], fun j hj => getAt_set_ne s v hk.1 hj⟩
  · cases h

theorem setAt2_isSome {m m1 : List (List α)} {i j : Int} {v : α}
    (h : setAt2 m i j v = some m1) : (getAt2 m i j).isSome := by
  unfold setAt2 at h
  obtain ⟨row, hrow, h⟩ := Option.bind_eq_some.mp h
  obtain ⟨row1, hrow1, _⟩ := Option.bind_eq_some.mp h
  unfold getAt2
  rw [hrow]
  simp only [Option.some_bind]
  unfold setAt at hrow1
  split at hrow1
  · rename_i hj
    rw [getAt_isSome_iff]
    unfold len
    omega
  · cases hrow1

theorem setAt2_frame {m m1 : List (List α)} {i j : Int} {v : α}
    (h : setAt2 m i j v = some m1) :
    dims m1 = dims m ∧ ∀ k, k ≠ i → getAt m1 k = getAt m k := by
  obtain ⟨m2, h2, hd, _, _⟩ := setAt2_spec m i j v (setAt2_isSome h)
  rw [h] at h2
  cases h2
  refine ⟨hd, ?_⟩
  unfold setAt2 at h
  obtain ⟨row, _, h⟩ := Option.bind_eq_some.mp h
  obtain ⟨row1, _, h⟩ := Option.bind_eq_some.mp h
  exact (setAt_frame h).2

/-- A loop whose body, when it returns, has stored something at index `idx k` of
one slice: if the loop returns, the length is kept and so is every entry at an
index the loop does not visit. -/
theorem forEach_assign_frame (ks : List κ) (idx : κ → Int)
    (body : κ → List α → Option (List α))
    (hb : ∀ k ∈ ks, ∀ t t1, body k t = some t1 → ∃ v, setAt t (idx k) v = some t1)
    {s t : List α} (hrun : forEach ks body s = some t) :
    len t = len s ∧ ∀ j, (∀ k ∈ ks, idx k ≠ j) → getAt t j = getAt s j := by
  refine forEach_preserves
    (fun t => len t = len s ∧ ∀ j, (∀ k ∈ ks, idx k ≠ j) → getAt t j = getAt s j) ks body
    ?_ ⟨rfl, fun _ _ => rfl⟩ hrun
  intro k hk t t1 ⟨hl, hf⟩ hbody
  obtain ⟨v, hv⟩ := hb k hk t t1 hbody
  obtain ⟨a, b⟩ := setAt_frame hv
  exact ⟨a.trans hl, fun j hj => (b j (hj k hk).symm).trans (hf j hj)⟩

/-- A loop whose body, when it returns, has stored something in the cell
`pos k` of each of two matrices: if the loop returns, both shapes are kept and
so is every row the loop does not visit. -/
theorem forEach_cells_frame (ks : List κ) (pos : κ → Int × Int)
    (body : κ → List (List α) × List (List α) → Option (List (List α) × List (List α)))
    (hb : ∀ k ∈ ks, ∀ t t1, body k t = some t1 →
      ∃ a b, setAt2 t.1 (pos k).1 (pos k).2 a = some t1.1 ∧
        setAt2 t.2 (pos k).1 (pos k).2 b = some t1.2)
    {s t : List (List α) × List (List α)} (hrun : forEach ks body s = some t) :
    dims t.1 = dims s.1 ∧ dims t.2 = dims s.2 ∧
      ∀ r, (∀ k ∈ ks, (pos k).1 ≠ r) → getAt t.1 r = getAt s.1 r ∧ getAt t.2 r = getAt s.2 r := by
  refine forEach_preserves
    (fun t => dims t.1 = dims s.1 ∧ dims t.2 = dims s.2 ∧
      ∀ r, (∀ k ∈ ks, (pos k).1 ≠ r) → getAt t.1 r = getAt s.1 r ∧ getAt t.2 r = getAt s.2 r)
    ks body ?_ ⟨rfl, rfl, fun _ _ => ⟨rfl, rfl⟩⟩ hrun
  intro k hk t t1 ⟨hd1, hd2, hf⟩ hbody
  obtain ⟨a, b, ha, hb2⟩ := hb k hk t t1 hbody
  obtain ⟨a1, a2⟩ := setAt2_frame ha
  obtain ⟨b1, b2⟩ := setAt2_frame hb2
  refine ⟨a1.trans hd1, b1.trans hd2, fun r hr => ?_⟩
  obtain ⟨c1, c2⟩ := hf r hr
  exact ⟨(a2 r (hr k hk).symm).trans c1, (b2 r (hr k hk).symm).trans c2⟩

end FrameLemmas

section KeepsLemmas
variable {F : Type} [Zero F] [One F] [Add F] [Sub F] [Mul F] [Div F] [Neg F] [OfScientific F]

theorem Keeps.refl (a : Net F) : Keeps a a :=
  ⟨⟨rfl, rfl, rfl, rfl, rfl, rfl, rfl, rfl, rfl⟩, fun _ _ => ⟨rfl, rfl, rfl⟩⟩

theorem Keeps.trans {a b c : Net F} (h1 : Keeps a b) (h2 : Keeps b c) : Keeps a c := by
  obtain ⟨⟨a1, a2, a3, a4, a5, a6, a7, a8, a9⟩, af⟩ := h1
  obtain ⟨⟨b1, b2, b3, b4, b5, b6, b7, b8, b9⟩, bf⟩ := h2
  refine ⟨⟨b1.trans a1, b2.trans a2, b3.trans a3, b4.trans a4, b5.trans a5, b6.trans a6,
    b7.trans a7, b8.trans a8, b9.trans a9⟩, fun k hk => ?_⟩
  obtain ⟨c1, c2, c3⟩ := af k hk
  obtain ⟨d1, d2, d3⟩ := bf k (by rw [a2]; exact hk)
  exact ⟨d1.trans c1, d2.trans c2, d3.trans c3⟩

theorem copyInput_keeps {nn n1 : Net F} {input : List F} (h : copyInput nn input = some n1) :
    Keeps nn n1 := by
  unfold copyInput at h
  obtain ⟨layer, hrun, rfl⟩ := Option.map_eq_some'.mp h
  obtain ⟨hl, _⟩ := forEach_assign_frame _ id _ (fun k _ t t1 hb => by
    obtain ⟨x, _, hs⟩ := Option.bind_eq_some.mp hb
    exact ⟨_, hs⟩) hrun
  exact ⟨⟨hl, rfl, rfl, rfl, rfl, rfl, rfl, rfl, rfl⟩, fun _ _ => ⟨rfl, rfl, rfl⟩⟩

theorem copyInputMap_keeps {nn n1 : Net F} {entries : List (Int × F)}
    (h : copyInputMap nn entries = some n1) : Keeps nn n1 := by
  unfold copyInputMap at h
  obtain ⟨layer, hrun, rfl⟩ := Option.map_eq_some'.mp h
  obtain ⟨hl, _⟩ := forEach_assign_frame _ Prod.fst _ (fun k _ t t1 hb => ⟨_, hb⟩) hrun
  exact ⟨⟨hl, rfl, rfl, rfl, rfl, rfl, rfl, rfl, rfl⟩, fun _ _ => ⟨rfl, rfl, rfl⟩⟩

theorem biasInput_keeps {nn n1 : Net F} (h : biasInput nn = some n1) : Keeps nn n1 := by
  unfold biasInput at h
  obtain ⟨layer, hrun, rfl⟩ := Option.map_eq_some'.mp h
  exact ⟨⟨(setAt_frame hrun).1, rfl, rfl, rfl, rfl, rfl, rfl, rfl, rfl⟩,
    fun _ _ => ⟨rfl, rfl, rfl⟩⟩

theorem biasHidden_keeps {nn n1 : Net F} (h : biasHidden nn = some n1) : Keeps nn n1 := by
  unfold biasHidden at h
  obtain ⟨layer, hrun, rfl⟩ := Option.map_eq_some'.mp h
  exact ⟨⟨rfl, (setAt_frame hrun).1, rfl, rfl, rfl, rfl, rfl, rfl, rfl⟩,
    fun _ _ => ⟨rfl, rfl, rfl⟩⟩

theorem hiddenPass_keeps {P : GoMath F} {nn n1 : Net F} {cols : Int → List Int}
    (h : hiddenPass P nn cols = some n1) : Keeps nn n1 := by
  unfold hiddenPass at h
  obtain ⟨layer, hrun, rfl⟩ := Option.map_eq_some'.mp h
  obtain ⟨hl, _⟩ := forEach_assign_frame _ id _ (fun k _ t t1 hb => by
    obtain ⟨x, _, hs⟩ := Option.bind_eq_some.mp hb
    exact ⟨_, hs⟩) hrun
  exact ⟨⟨rfl, hl, rfl, rfl, rfl, rfl, rfl, rfl, rfl⟩, fun _ _ => ⟨rfl, rfl, rfl⟩⟩

theorem outputPass_keeps {P : GoMath F} {nn n1 : Net F} (h : outputPass P nn = some n1) :
    Keeps nn n1 := by
  unfold outputPass at h
  obtain ⟨layer, hrun, rfl⟩ := Option.map_eq_some'.mp h
  obtain ⟨hl, _⟩ := forEach_assign_frame _ id _ (fun k _ t t1 hb => by
    obtain ⟨x, _, hs⟩ := Option.bind_eq_some.mp hb
    exact ⟨_, hs⟩) hrun
  exact ⟨⟨rfl, rfl, hl, rfl, rfl, rfl, rfl, rfl, rfl⟩, fun _ _ => ⟨rfl, rfl, rfl⟩⟩

theorem errOutputPass_keeps {nn n1 : Net F} {t : List F} (h : errOutputPass nn t = some n1) :
    Keeps nn n1 := by
  unfold errOutputPass at h
  obtain ⟨layer, hrun, rfl⟩ := Option.map_eq_some'.mp h
  obtain ⟨hl, _⟩ := forEach_assign_frame _ id _ (fun k _ t t1 hb => by
    obtain ⟨x, _, hs⟩ := Option.bind_eq_some.mp hb
    obtain ⟨y, _, hs⟩ := Option.bind_eq_some.mp hs
    exact ⟨_, hs⟩) hrun
  exact ⟨⟨rfl, rfl, rfl, hl, rfl, rfl, rfl, rfl, rfl⟩, fun _ _ => ⟨rfl, rfl, rfl⟩⟩

theorem errHiddenPass_keeps {nn n1 : Net F} (h : errHiddenPass nn = some n1) :
    Keeps nn n1 := by
  unfold errHiddenPass at h
  obtain ⟨layer, hrun, rfl⟩ := Option.map_eq_some'.mp h
  obtain ⟨hl, hf⟩ := forEach_assign_frame _ id _ (fun k _ t t1 hb => by
    obtain ⟨x, _, hs⟩ := Option.bind_eq_some.mp hb
    exact ⟨_, hs⟩) hrun
  exact ⟨⟨rfl, rfl, rfl, rfl, hl, rfl, rfl, rfl, rfl⟩, fun k hk => ⟨rfl, rfl,
    hf k (fun i hi heq => hk (by
      simp only [id] at heq
      exact heq ▸ mem_upTo.mp hi))⟩⟩

theorem outputWeightPass_keeps {nn n1 : Net F} (h : outputWeightPass nn = some n1) :
    Keeps nn n1 := by
  unfold outputWeightPass at h
  obtain ⟨st, hrun, rfl⟩ := Option.map_eq_some'.mp h
  rw [forEach_nested] at hrun
  obtain ⟨hd1, hd2, _⟩ := forEach_cells_frame _ id _ (fun k _ t t1 hb => by
    obtain ⟨x1, _, hs⟩ := Option.bind_eq_some.mp hb
    obtain ⟨x2, _, hs⟩ := Option.bind_eq_some.mp hs
    obtain ⟨x3, _, hs⟩ := Option.bind_eq_some.mp hs
    obtain ⟨x4, _, hs⟩ := Option.bind_eq_some.mp hs
    obtain ⟨x5, h5, hs⟩ := Option.bind_eq_some.mp hs
    obtain ⟨x6, h6, hs⟩ := Option.map_eq_some'.mp hs
    cases hs
    exact ⟨_, _, h5, h6⟩) hrun
  exact ⟨⟨rfl, rfl, rfl, rfl, rfl, rfl, hd1, rfl, hd2⟩, fun _ _ => ⟨rfl, rfl, rfl⟩⟩

theorem hiddenWeightPass_keeps {nn n1 : Net F} {cols : Int → List Int}
    (h : hiddenWeightPass nn cols = some n1) : Keeps nn n1 := by
  unfold hiddenWeightPass at h
  obtain ⟨st, hrun, rfl⟩ := Option.map_eq_some'.mp h
  rw [forEach_nested] at hrun
  obtain ⟨hd1, hd2, hf⟩ := forEach_cells_frame _ id _ (fun k _ t t1 hb => by
    obtain ⟨x1, _, hs⟩ := Option.bind_eq_some.mp hb
    obtain ⟨x2, _, hs⟩ := Option.bind_eq_some.mp hs
    obtain ⟨x3, _, hs⟩ := Option.bind_eq_some.mp hs
    obtain ⟨x4, _, hs⟩ := Option.bind_eq_some.mp hs
    obtain ⟨x5, _, hs⟩ := Option.bind_eq_some.mp hs
    obtain ⟨x6, h6, hs⟩ := Option.bind_eq_some.mp hs
    obtain ⟨x7, h7, hs⟩ := Option.map_eq_some'.mp hs
    cases hs
    exact ⟨_, _, h6, h7⟩) hrun
  refine ⟨⟨rfl, rfl, rfl, rfl, rfl, hd1, rfl, hd2, rfl⟩, fun k hk => ?_⟩
  obtain ⟨a, b⟩ := hf k (fun c hc heq => hk (by
    simp only [id] at heq
    exact heq ▸ mem_upTo.mp (mem_cells.mp hc).1))
  exact ⟨a, b, rfl⟩

/-- Whatever `Forward` returns, the network it leaves keeps the shape and the
hidden bias rows of the network it was given. -/
theorem Forward_keeps {P : GoMath F} {nn n1 : Net F} {v : List F}
    {r : Except ShapeError (List F)} (h : Forward P nn v = some (n1, r)) : Keeps nn n1 := by
  unfold Forward at h
  split at h
  · cases h
    exact Keeps.refl nn
  · obtain ⟨a, ha, h⟩ := Option.bind_eq_some.mp h
    obtain ⟨b, hb, h⟩ := Option.bind_eq_some.mp h
    obtain ⟨c, hc, h⟩ := Option.bind_eq_some.mp h
    obtain ⟨d, hd, h⟩ := Option.bind_eq_some.mp h
    obtain ⟨e, he, h⟩ := Option.map_eq_some'.mp h
    cases h
    exact (copyInput_keeps ha).trans ((biasInput_keeps hb).trans ((hiddenPass_keeps hc).trans
      ((biasHidden_keeps hd).trans (outputPass_keeps he))))

theorem ForwardMap_keeps {P : GoMath F} {nn n1 : Net F} {m : RangeSeq F} {out : List F}
    (h : ForwardMap P nn m = some (n1, out)) : Keeps nn n1 := by
  unfold ForwardMap at h
  obtain ⟨a, ha, h⟩ := Option.bind_eq_some.mp h
  obtain ⟨b, hb, h⟩ := Option.bind_eq_some.mp h
  obtain ⟨c, hc, h⟩ := Option.bind_eq_some.mp h
  obtain ⟨d, hd, h⟩ := Option.bind_eq_some.mp h
  obtain ⟨e, he, h⟩ := Option.map_eq_some'.mp h
  cases h
  exact (copyInputMap_keeps ha).trans ((biasInput_keeps hb).trans ((hiddenPass_keeps hc).trans
    ((biasHidden_keeps hd).trans (outputPass_keeps he))))

theorem Feedback_keeps {nn n1 : Net F} {t : List F} (h : Feedback nn t = some n1) :
    Keeps nn n1 := by
  unfold Feedback at h
  obtain ⟨a, ha, h⟩ := Option.bind_eq_some.mp h
  obtain ⟨b, hb, h⟩ := Option.bind_eq_some.mp h
  obtain ⟨c, hc, h⟩ := Option.bind_eq_some.mp h
  exact (errOutputPass_keeps ha).trans ((errHiddenPass_keeps hb).trans
    ((outputWeightPass_keeps hc).trans (hiddenWeightPass_keeps h)))

theorem FeedbackMap_keeps {nn n1 : Net F} {t : List F} {m : RangeSeq F}
    (h : FeedbackMap nn t m = some n1) : Keeps nn n1 := by
  unfold FeedbackMap at h
  obtain ⟨a, ha, h⟩ := Option.bind_eq_some.mp h
  obtain ⟨b, hb, h⟩ := Option.bind_eq_some.mp h
  obtain ⟨c, hc, h⟩ := Option.bind_eq_some.mp h
  exact (errOutputPass_keeps ha).trans ((errHiddenPass_keeps hb).trans
    ((outputWeightPass_keeps hc).trans (hiddenWeightPass_keeps h)))

theorem runCall_keeps {P : GoMath F} {c : Call F} {nn n1 : Net F}
    (h : runCall P c nn = some n1) : Keeps nn n1 := by
  cases c with
  | forward v =>
    obtain ⟨r, hr, rfl⟩ := Option.map_eq_some'.mp h
    exact Forward_keeps (r := r.2) hr
  | forwardMap m =>
    obtain ⟨r, hr, rfl⟩ := Option.map_eq_some'.mp h
    have hr2 : ForwardMap P nn m = some (r.1, r.2) := hr
    exact ForwardMap_keeps hr2
  | feedback t => exact Feedback_keeps h
  | feedbackMap t m => exact FeedbackMap_keeps h
  | calcError t =>
    obtain ⟨r, _, rfl⟩ := Option.map_eq_some'.mp h
    exact Keeps.refl _

/-- Whatever sequence of calls is made, if it returns, the network it leaves
keeps the shape and the hidden bias rows of the network it started from. -/
theorem runCalls_keeps {P : GoMath F} {calls : List (Call F)} {nn n1 : Net F}
    (h : runCalls P calls nn = some n1) : Keeps nn n1 :=
  forEach_preserves (fun n => Keeps nn n) calls (runCall P)
    (fun _ _ _ _ hs hb => hs.trans (runCall_keeps hb)) (Keeps.refl nn) h

end KeepsLemmas

section CommLemmas
variable {α κ σ : Type}

theorem forEach_comm (f : σ → σ) (ks : List κ) (body : κ → σ → Option σ)
    (h : ∀ k ∈ ks, ∀ s, body k (f s) = (body k s).map f) (s : σ) :
    forEach ks body (f s) = (forEach ks body s).map f := by
  induction ks generalizing s with
  | nil => rfl
  | cons k ks ih =>
    simp only [forEach]
    rw [h k (List.mem_cons_self _ _) s]
    cases body k s with
    | none => rfl
    | some t =>
      simp only [Option.map_some', Option.some_bind]
      exact ih (fun k1 hk1 => h k1 (List.mem_cons_of_mem _ hk1)) t

theorem getAt_setRow_ne (m : List α) (H : Nat) (r : α) {k : Int} (h : k ≠ (H : Int)) :
    getAt (m.set H r) k = getAt m k := by
  have := getAt_set_ne m r (show (0 : Int) ≤ (H : Int) by omega) h
  simpa using this

theorem getAt2_setRow_ne (m : List (List α)) (H : Nat) (r : List α) {i : Int}
    (h : i ≠ (H : Int)) (j : Int) : getAt2 (m.set H r) i j = getAt2 m i j := by
  unfold getAt2
  rw [getAt_setRow_ne m H r h]

theorem setAt2_setRow_ne (m : List (List α)) (H : Nat) (r : List α) {i : Int}
    (h : i ≠ (H : Int)) (j : Int) (v : α) :
    setAt2 (m.set H r) i j v = (setAt2 m i j v).map (fun m1 => m1.set H r) := by
  unfold setAt2
  rw [getAt_setRow_ne m H r h]
  cases getAt m i with
  | none => rfl
  | some row =>
    simp only [Option.some_bind]
    cases setAt row j v with
    | none => rfl
    | some row1 =>
      simp only [Option.some_bind]
      unfold setAt
      by_cases hv : 0 ≤ i ∧ i.toNat < m.length
      · rw [if_pos hv, if_pos (by simpa using hv)]
        simp only [Option.map_some', Option.some.injEq]
        have hne : H ≠ i.toNat := by omega
        exact List.set_comm _ _ _ hne
      · rw [if_neg hv, if_neg (by simpa using hv)]
        rfl

end CommLemmas

section CommPhases
variable {F : Type} [Zero F] [One F] [Add F] [Sub F] [Mul F] [Div F] [Neg F] [OfScientific F]

theorem copyInput_setBiasRows (H : Nat) (n : Net F) (rW rL : List F) (v : List F) :
    copyInput (setBiasRows H n rW rL) v =
      (copyInput n v).map fun x => setBiasRows H x rW rL := by
  unfold copyInput setBiasRows
  rw [Option.map_map]
  rfl

theorem copyInputMap_setBiasRows (H : Nat) (n : Net F) (rW rL : List F)
    (es : List (Int × F)) :
    copyInputMap (setBiasRows H n rW rL) es =
      (copyInputMap n es).map fun x => setBiasRows H x rW rL := by
  unfold copyInputMap setBiasRows
  rw [Option.map_map]
  rfl

theorem biasInput_setBiasRows (H : Nat) (n : Net F) (rW rL : List F) :
    biasInput (setBiasRows H n rW rL) = (biasInput n).map fun x => setBiasRows H x rW rL := by
  unfold biasInput setBiasRows
  rw [Option.map_map]
  rfl

theorem biasHidden_setBiasRows (H : Nat) (n : Net F) (rW rL : List F) :
    biasHidden (setBiasRows H n rW rL) = (biasHidden n).map fun x => setBiasRows H x rW rL := by
  unfold biasHidden setBiasRows
  rw [Option.map_map]
  rfl

theorem outputPass_setBiasRows (P : GoMath F) (H : Nat) (n : Net F) (rW rL : List F) :
    outputPass P (setBiasRows H n rW rL) =
      (outputPass P n).map fun x => setBiasRows H x rW rL := by
  unfold outputPass setBiasRows
  rw [Option.map_map]
  rfl

theorem errOutputPass_setBiasRows (H : Nat) (n : Net F) (rW rL : List F) (t : List F) :
    errOutputPass (setBiasRows H n rW rL) t =
      (errOutputPass n t).map fun x => setBiasRows H x rW rL := by
  unfold errOutputPass setBiasRows
  rw [Option.map_map]
  rfl

theorem errHiddenPass_setBiasRows (H : Nat) (n : Net F) (rW rL : List F) :
    errHiddenPass (setBiasRows H n rW rL) =
      (errHiddenPass n).map fun x => setBiasRows H x rW rL := by
  unfold errHiddenPass setBiasRows
  rw [Option.map_map]
  rfl

theorem outputWeightPass_setBiasRows (H : Nat) (n : Net F) (rW rL : List F) :
    outputWeightPass (setBiasRows H n rW rL) =
      (outputWeightPass n).map fun x => setBiasRows H x rW rL := by
  unfold outputWeightPass setBiasRows
  rw [Option.map_map]
  rfl

/-- The hidden loop of the forward passes reads no row of `WeightHidden` from
index `len(nn.HiddenLayer) - 1` on. -/
theorem hiddenPass_setBiasRows (P : GoMath F) (H : Nat) (n : Net F) (rW rL : List F)
    (cols : Int → List Int) (hH : len n.HiddenLayer - 1 ≤ (H : Int)) :
    hiddenPass P (setBiasRows H n rW rL) cols =
      (hiddenPass P n cols).map fun x => setBiasRows H x rW rL := by
  unfold hiddenPass
  rw [Option.map_map]
  have hbody : forEach (upTo (len (setBiasRows H n rW rL).HiddenLayer - 1))
      (fun i layer =>
        (sumLoop (cols i) (fun j =>
            (getAt (setBiasRows H n rW rL).InputLayer j).bind fun x =>
            (getAt2 (setBiasRows H n rW rL).WeightHidden i j).map fun w => x * w)).bind
          fun sum => setAt layer i (sigmoid P sum))
      (setBiasRows H n rW rL).HiddenLayer =
    forEach (upTo (len n.HiddenLayer - 1))
      (fun i layer =>
        (sumLoop (cols i) (fun j =>
            (getAt n.InputLayer j).bind fun x =>
            (getAt2 n.WeightHidden i j).map fun w => x * w)).bind
          fun sum => setAt layer i (sigmoid P sum))
      n.HiddenLayer := by
    apply forEach_congr
    intro i hi t
    have hne : i ≠ (H : Int) := by
      have := (mem_upTo.mp hi).2
      have e : len (setBiasRows H n rW rL).HiddenLayer = len n.HiddenLayer := rfl
      omega
    have : (fun j => (getAt (setBiasRows H n rW rL).InputLayer j).bind fun x =>
        (getAt2 (setBiasRows H n rW rL).WeightHidden i j).map fun w => x * w) =
        (fun j => (getAt n.InputLayer j).bind fun x =>
        (getAt2 n.WeightHidden i j).map fun w => x * w) := by
      funext j
      show ((getAt n.InputLayer j).bind fun x =>
        (getAt2 (n.WeightHidden.set H rW) i j).map fun w => x * w) = _
      rw [getAt2_setRow_ne _ H rW hne]
    rw [this]
  rw [hbody]
  rfl

/-- The last loop of the backward passes reads and writes no row of
`WeightHidden` or `LastChangeHidden` from index `len(nn.HiddenLayer) - 1` on. -/
theorem hiddenWeightPass_setBiasRows (H : Nat) (n : Net F) (rW rL : List F)
    (cols : Int → List Int) (hH : len n.HiddenLayer - 1 ≤ (H : Int)) :
    hiddenWeightPass (setBiasRows H n rW rL) cols =
      (hiddenWeightPass n cols).map fun x => setBiasRows H x rW rL := by
  unfold hiddenWeightPass
  rw [Option.map_map, forEach_nested, forEach_nested]
  have hcomm := forEach_comm
    (fun st : List (List F) × List (List F) => (st.1.set H rW, st.2.set H rL))
    ((upTo (len n.HiddenLayer - 1)).flatMap fun i => (cols i).map (Prod.mk i))
    (fun p (st : List (List F) × List (List F)) =>
            (getAt n.ErrHidden p.1).bind fun e =>
            (getAt n.HiddenLayer p.1).bind fun h =>
            let delta := e * dsigmoid h
            (getAt n.InputLayer p.2).bind fun x =>
            (getAt2 st.2 p.1 p.2).bind fun last =>
            let change := n.Rate1 * delta * x + n.Rate2 * last
            (getAt2 st.1 p.1 p.2).bind fun w =>
            (setAt2 st.1 p.1 p.2 (w - change)).bind fun weights =>
            (setAt2 st.2 p.1 p.2 change).map fun lasts => (weights, lasts))
    (fun c hc st => by
      have hne : c.1 ≠ (H : Int) := by
        have := (mem_upTo.mp (mem_cells.mp hc).1).2
        omega
      simp only [getAt2_setRow_ne _ H _ hne, setAt2_setRow_ne _ H _ hne]
      cases getAt n.ErrHidden c.1 with
      | none => rfl
      | some e =>
        cases getAt n.HiddenLayer c.1 with
        | none => rfl
        | some h =>
          cases getAt n.InputLayer c.2 with
          | none => rfl
          | some x =>
            cases getAt2 st.2 c.1 c.2 with
            | none => rfl
            | some last =>
              cases getAt2 st.1 c.1 c.2 with
              | none => rfl
              | some w =>
                simp only [Option.some_bind]
                cases setAt2 st.1 c.1 c.2 (w - (n.Rate1 * (e * dsigmoid h) * x + n.Rate2 * last)) with
                | none => rfl
                | some m1 =>
                  simp only [Option.map_some', Option.some_bind]
                  cases setAt2 st.2 c.1 c.2 (n.Rate1 * (e * dsigmoid h) * x + n.Rate2 * last) with
                  | none => rfl
                  | some m2 => rfl)
    (n.WeightHidden, n.LastChangeHidden)
  have e1 : forEach
      ((upTo (len (setBiasRows H n rW rL).HiddenLayer - 1)).flatMap fun i =>
        (cols i).map (Prod.mk i))
      (fun p (st : List (List F) × List (List F)) =>
            (getAt (setBiasRows H n rW rL).ErrHidden p.1).bind fun e =>
            (getAt (setBiasRows H n rW rL).HiddenLayer p.1).bind fun h =>
            let delta := e * dsigmoid h
            (getAt (setBiasRows H n rW rL).InputLayer p.2).bind fun x =>
            (getAt2 st.2 p.1 p.2).bind fun last =>
            let change := (setBiasRows H n rW rL).Rate1 * delta * x +
              (setBiasRows H n rW rL).Rate2 * last
            (getAt2 st.1 p.1 p.2).bind fun w =>
            (setAt2 st.1 p.1 p.2 (w - change)).bind fun weights =>
            (setAt2 st.2 p.1 p.2 change).map fun lasts => (weights, lasts))
      ((setBiasRows H n rW rL).WeightHidden, (setBiasRows H n rW rL).LastChangeHidden) =
      (forEach ((upTo (len n.HiddenLayer - 1)).flatMap fun i => (cols i).map (Prod.mk i))
        (fun p (st : List (List F) × List (List F)) =>
            (getAt n.ErrHidden p.1).bind fun e =>
            (getAt n.HiddenLayer p.1).bind fun h =>
            let delta := e * dsigmoid h
            (getAt n.InputLayer p.2).bind fun x =>
            (getAt2 st.2 p.1 p.2).bind fun last =>
            let change := n.Rate1 * delta * x + n.Rate2 * last
            (getAt2 st.1 p.1 p.2).bind fun w =>
            (setAt2 st.1 p.1 p.2 (w - change)).bind fun weights =>
            (setAt2 st.2 p.1 p.2 change).map fun lasts => (weights, lasts))
        (n.WeightHidden, n.LastChangeHidden)).map
        (fun st => (st.1.set H rW, st.2.set H rL)) := hcomm
  rw [e1, Option.map_map]
  rfl

end CommPhases

section CommMethods
variable {F : Type} [Zero F] [One F] [Add F] [Sub F] [Mul F] [Div F] [Neg F] [OfScientific F]

theorem Keeps.lenHidden {a b : Net F} (h : Keeps a b) : len b.HiddenLayer = len a.HiddenLayer :=
  h.1.2.1

/-- The result of `Forward` does not depend on the rows of `WeightHidden` and
`LastChangeHidden` from index `len(nn.HiddenLayer) - 1` on: replacing them
before the call or after it comes to the same. -/
theorem Forward_setBiasRows (P : GoMath F) (H : Nat) (nn : Net F) (rW rL : List F) (v : List F)
    (hH : len nn.HiddenLayer - 1 ≤ (H : Int)) :
    Forward P (setBiasRows H nn rW rL) v =
      (Forward P nn v).map fun r => (setBiasRows H r.1 rW rL, r.2) := by
  unfold Forward
  have e0 : len (setBiasRows H nn rW rL).InputLayer = len nn.InputLayer := rfl
  rw [e0]
  by_cases hc : len v + 1 ≠ len nn.InputLayer
  · rw [if_pos hc, if_pos hc]
    rfl
  · rw [if_neg hc, if_neg hc, copyInput_setBiasRows]
    cases h1 : copyInput nn v with
    | none => rfl
    | some a =>
      simp only [Option.map_some', Option.some_bind]
      rw [biasInput_setBiasRows]
      cases h2 : biasInput a with
      | none => rfl
      | some b =>
        simp only [Option.map_some', Option.some_bind]
        have hb : len b.HiddenLayer - 1 ≤ (H : Int) := by
          rw [((copyInput_keeps h1).trans (biasInput_keeps h2)).lenHidden]
          exact hH
        rw [hiddenPass_setBiasRows P H b rW rL _ hb]
        have e1 : len (setBiasRows H b rW rL).InputLayer = len b.InputLayer := rfl
        rw [e1]
        cases h3 : hiddenPass P b (fun _ => upTo (len b.InputLayer)) with
        | none => rfl
        | some c =>
          simp only [Option.map_some', Option.some_bind]
          rw [biasHidden_setBiasRows]
          cases h4 : biasHidden c with
          | none => rfl
          | some d =>
            simp only [Option.map_some', Option.some_bind]
            rw [outputPass_setBiasRows]
            cases h5 : outputPass P d with
            | none => rfl
            | some e => rfl

theorem ForwardMap_setBiasRows (P : GoMath F) (H : Nat) (nn : Net F) (rW rL : List F)
    (m : RangeSeq F) (hH : len nn.HiddenLayer - 1 ≤ (H : Int)) :
    ForwardMap P (setBiasRows H nn rW rL) m =
      (ForwardMap P nn m).map fun r => (setBiasRows H r.1 rW rL, r.2) := by
  unfold ForwardMap
  rw [copyInputMap_setBiasRows]
  cases h1 : copyInputMap nn (m 0) with
  | none => rfl
  | some a =>
    simp only [Option.map_some', Option.some_bind]
    rw [biasInput_setBiasRows]
    cases h2 : biasInput a with
    | none => rfl
    | some b =>
      simp only [Option.map_some', Option.some_bind]
      have hb : len b.HiddenLayer - 1 ≤ (H : Int) := by
        rw [((copyInputMap_keeps h1).trans (biasInput_keeps h2)).lenHidden]
        exact hH
      rw [hiddenPass_setBiasRows P H b rW rL _ hb]
      cases h3 : hiddenPass P b (fun i => (m (i.toNat + 1)).map Prod.fst) with
      | none => rfl
      | some c =>
        simp only [Option.map_some', Option.some_bind]
        rw [biasHidden_setBiasRows]
        cases h4 : biasHidden c with
        | none => rfl
        | some d =>
          simp only [Option.map_some', Option.some_bind]
          rw [outputPass_setBiasRows]
          cases h5 : outputPass P d with
          | none => rfl
          | some e => rfl

/-- The backward passes with the columns `cols` do not depend on the rows of
`WeightHidden` and `LastChangeHidden` from index `len(nn.HiddenLayer) - 1` on. -/
theorem feedbackWith_setBiasRows (H : Nat) (nn : Net F) (rW rL : List F) (t : List F)
    (cols : Net F → Int → List Int)
    (hcols : ∀ n, cols (setBiasRows H n rW rL) = cols n)
    (hH : len nn.HiddenLayer - 1 ≤ (H : Int)) :
    ((errOutputPass (setBiasRows H nn rW rL) t).bind fun n1 => (errHiddenPass n1).bind fun n2 =>
      (outputWeightPass n2).bind fun n3 => hiddenWeightPass n3 (cols n3)) =
    ((errOutputPass nn t).bind fun n1 => (errHiddenPass n1).bind fun n2 =>
      (outputWeightPass n2).bind fun n3 => hiddenWeightPass n3 (cols n3)).map
      fun x => setBiasRows H x rW rL := by
  rw [errOutputPass_setBiasRows]
  cases h1 : errOutputPass nn t with
  | none => rfl
  | some a =>
    simp only [Option.map_some', Option.some_bind]
    rw [errHiddenPass_setBiasRows]
    cases h2 : errHiddenPass a with
    | none => rfl
    | some b =>
      simp only [Option.map_some', Option.some_bind]
      rw [outputWeightPass_setBiasRows]
      cases h3 : outputWeightPass b with
      | none => rfl
      | some c =>
        simp only [Option.map_some', Option.some_bind]
        have hc : len c.HiddenLayer - 1 ≤ (H : Int) := by
          rw [((errOutputPass_keeps h1).trans ((errHiddenPass_keeps h2).trans
            (outputWeightPass_keeps h3))).lenHidden]
          exact hH
        rw [hcols, hiddenWeightPass_setBiasRows H c rW rL _ hc]

theorem Feedback_setBiasRows (H : Nat) (nn : Net F) (rW rL : List F) (t : List F)
    (hH : len nn.HiddenLayer - 1 ≤ (H : Int)) :
    Feedback (setBiasRows H nn rW rL) t = (Feedback nn t).map fun x => setBiasRows H x rW rL :=
  feedbackWith_setBiasRows H nn rW rL t (fun n _ => upTo (len n.InputLayer)) (fun _ => rfl) hH

theorem FeedbackMap_setBiasRows (H : Nat) (nn : Net F) (rW rL : List F) (t : List F)
    (m : RangeSeq F) (hH : len nn.HiddenLayer - 1 ≤ (H : Int)) :
    FeedbackMap (setBiasRows H nn rW rL) t m =
      (FeedbackMap nn t m).map fun x => setBiasRows H x rW rL :=
  feedbackWith_setBiasRows H nn rW rL t (fun _ i => (m i.toNat).map Prod.fst) (fun _ => rfl) hH

theorem trainStep_keeps {P : GoMath F} {inputs targets : List (List F)} {idx_ary : List Int}
    {j : Int} {st st1 : Net F × F} (h : trainStep P inputs targets idx_ary j st = some st1) :
    Keeps st.1 st1.1 := by
  unfold trainStep at h
  obtain ⟨idx, _, h⟩ := Option.bind_eq_some.mp h
  obtain ⟨input, _, h⟩ := Option.bind_eq_some.mp h
  obtain ⟨r, hr, h⟩ := Option.bind_eq_some.mp h
  obtain ⟨target, _, h⟩ := Option.bind_eq_some.mp h
  obtain ⟨n, hn, h⟩ := Option.bind_eq_some.mp h
  obtain ⟨e, _, rfl⟩ := Option.map_eq_some'.mp h
  exact (Forward_keeps (r := r.2) hr).trans (Feedback_keeps hn)

theorem trainMapStep_keeps {P : GoMath F} {inputs : List (Nat → RangeSeq F)}
    {targets : List (List F)} {i : Int} {idx_ary : List Int}
    {j : Int} {st st1 : Net F × F}
    (h : trainMapStep P inputs targets i idx_ary j st = some st1) : Keeps st.1 st1.1 := by
  unfold trainMapStep at h
  obtain ⟨idx, _, h⟩ := Option.bind_eq_some.mp h
  obtain ⟨input, _, h⟩ := Option.bind_eq_some.mp h
  obtain ⟨r, hr, h⟩ := Option.bind_eq_some.mp h
  obtain ⟨target, _, h⟩ := Option.bind_eq_some.mp h
  obtain ⟨n, hn, h⟩ := Option.bind_eq_some.mp h
  obtain ⟨e, _, rfl⟩ := Option.map_eq_some'.mp h
  have hr2 : ForwardMap P st.1 (input (2 * (i * len inputs + j).toNat)) = some (r.1, r.2) := hr
  exact (ForwardMap_keeps hr2).trans (FeedbackMap_keeps hn)

/-- Whatever `Train` returns, the network it leaves keeps the shape and the
hidden bias rows of the network it was given. -/
theorem Train_keeps {P : GoMath F} {draws : Nat → F} {nn n1 : Net F}
    {inputs targets : List (List F)} {iteration : Int} {r : Except ShapeError Unit}
    (h : Train P draws nn inputs targets iteration = some (n1, r)) : Keeps nn n1 := by
  unfold Train at h
  obtain ⟨input0, _, h⟩ := Option.bind_eq_some.mp h
  split at h
  · cases h
    exact Keeps.refl nn
  · obtain ⟨target0, _, h⟩ := Option.bind_eq_some.mp h
    split at h
    · cases h
      exact Keeps.refl nn
    · obtain ⟨st, hrun, h⟩ := Option.map_eq_some'.mp h
      cases h
      refine forEach_preserves (fun st : Net F × Nat => Keeps nn st.1) _ _ ?_ (Keeps.refl nn) hrun
      intro i _ s s1 hs hb
      obtain ⟨g, _, hb⟩ := Option.bind_eq_some.mp hb
      obtain ⟨e, he, hb⟩ := Option.bind_eq_some.mp hb
      obtain ⟨b, _, rfl⟩ := Option.map_eq_some'.mp hb
      unfold epochPass at he
      have : Keeps s.1 e.1 := forEach_preserves (fun st : Net F × F => Keeps s.1 st.1) _ _
        (fun _ _ _ _ hq hstep => hq.trans (trainStep_keeps hstep)) (Keeps.refl s.1) he
      exact hs.trans this

theorem TrainMap_keeps {P : GoMath F} {draws : Nat → F} {nn n1 : Net F}
    {inputs : List (Nat → RangeSeq F)} {targets : List (List F)} {iteration : Int}
    {r : Except ShapeError Unit}
    (h : TrainMap P draws nn inputs targets iteration = some (n1, r)) : Keeps nn n1 := by
  unfold TrainMap at h
  obtain ⟨target0, _, h⟩ := Option.bind_eq_some.mp h
  split at h
  · cases h
    exact Keeps.refl nn
  · obtain ⟨st, hrun, h⟩ := Option.map_eq_some'.mp h
    cases h
    refine forEach_preserves (fun st : Net F × Nat => Keeps nn st.1) _ _ ?_ (Keeps.refl nn) hrun
    intro i _ s s1 hs hb
    obtain ⟨g, _, hb⟩ := Option.bind_eq_some.mp hb
    obtain ⟨e, he, hb⟩ := Option.bind_eq_some.mp hb
    obtain ⟨b, _, rfl⟩ := Option.map_eq_some'.mp hb
    unfold epochPassMap at he
    have : Keeps s.1 e.1 := forEach_preserves (fun st : Net F × F => Keeps s.1 st.1) _ _
      (fun _ _ _ _ hq hstep => hq.trans (trainMapStep_keeps hstep)) (Keeps.refl s.1) he
    exact hs.trans this

theorem WellShaped_of_keeps {nn n1 : Net F} {I H O : Nat} (hw : WellShaped nn I H O)
    (hk : Keeps nn n1) : WellShaped n1 I H O := by
  obtain ⟨a1, a2, a3, a4, a5, a6, a7, a8, a9⟩ := hw
  obtain ⟨⟨b1, b2, b3, b4, b5, b6, b7, b8, b9⟩, _⟩ := hk
  unfold len at b1 b2 b3 b4 b5
  exact ⟨by omega, by omega, by omega, by omega, by omega, b6.trans a6, b7.trans a7,
    b8.trans a8, b9.trans a9⟩

/-- The method `CalcError` returns as soon as the target reaches as far as the
output layer, and then returns the half sum of the squared residuals. -/
theorem CalcError_eq (nn : Net F) (t : List F) (ht : len nn.OutputLayer ≤ len t) :
    CalcError nn t = some (sumOf (upTo (len nn.OutputLayer)) fun i =>
      (0.5 : F) * (valAt nn.OutputLayer i - valAt t i) * (valAt nn.OutputLayer i - valAt t i)) := by
  unfold CalcError
  apply sumLoop_eq
  intro k hk
  obtain ⟨h0, h1⟩ := mem_upTo.mp hk
  simp [getAt_eq_valAt h0 h1, getAt_eq_valAt h0 (show k < len t by omega)]

/-- On a well-shaped network a call with arguments in range returns. -/
theorem runCall_total (P : GoMath F) (nn : Net F) (I H O : Nat) (hw : WellShaped nn I H O)
    (c : Call F) (hc : CallInRange (I : Int) (O : Int) c) : ∃ n1, runCall P c nn = some n1 := by
  have lO := len_eq_of_length hw.2.2.1
  cases c with
  | forward v =>
    by_cases hv : v.length = I
    · obtain ⟨n1, out, hf, _⟩ := Forward_wellShaped P nn I H O hw v hv
      exact ⟨n1, by simp [runCall, hf]⟩
    · have lI := len_eq_of_length hw.1
      refine ⟨nn, ?_⟩
      have : Forward P nn v = some (nn, Except.error ShapeError.input) := by
        unfold Forward
        rw [if_pos (by unfold len at lI ⊢; omega)]
      simp [runCall, this]
  | forwardMap m =>
    obtain ⟨inp, hid, out, hf, _⟩ := ForwardMap_spec P nn I H O hw m
      (fun r kv hkv => by
        have := hc r kv hkv
        omega)
    exact ⟨{ nn with InputLayer := inp, HiddenLayer := hid, OutputLayer := out },
      by simp [runCall, hf]⟩
  | feedback t =>
    obtain ⟨n1, hf, _⟩ := Feedback_wellShaped nn I H O hw t hc
    exact ⟨n1, hf⟩
  | feedbackMap t m =>
    obtain ⟨ht, hm⟩ := hc
    obtain ⟨eo, eh, W, L, W2, L2, hrun, _⟩ := feedbackWith_spec nn I H O hw t ht
      (fun i => (m i.toNat).map Prod.fst) (fun i _ _ => (hm i.toNat).1)
      (fun i _ _ j hj => by
        obtain ⟨kv, hkv, rfl⟩ := List.mem_map.mp hj
        have := (hm i.toNat).2 kv hkv
        omega)
    exact ⟨_, hrun⟩
  | calcError t =>
    refine ⟨nn, ?_⟩
    have hct : CallInRange (I : Int) (O : Int) (Call.calcError t) = ((O : Int) ≤ len t) := rfl
    rw [hct] at hc
    simp [runCall, CalcError_eq nn t (by omega)]

end CommMethods

section ZeroLemmas
variable {α : Type}

theorem sumOf_zero {κ F : Type} [AddMonoid F] (ks : List κ) (f : κ → F)
    (h : ∀ k ∈ ks, f k = 0) : sumOf ks f = 0 := by
  unfold sumOf
  induction ks with
  | nil => rfl
  | cons k ks ih =>
    simp only [List.foldl_cons]
    rw [h k (List.mem_cons_self _ _), add_zero]
    exact ih (fun j hj => h j (List.mem_cons_of_mem _ hj))

theorem mem_of_getAt {s : List α} {k : Int} {v : α} (h : getAt s k = some v) : v ∈ s := by
  obtain ⟨_, h1⟩ := getAt_eq_some_iff.mp h
  exact List.getElem?_mem h1

theorem mem_of_getAt2 {m : List (List α)} {i j : Int} {v : α} (h : getAt2 m i j = some v) :
    ∃ row ∈ m, v ∈ row := by
  unfold getAt2 at h
  obtain ⟨row, hrow, hv⟩ := Option.bind_eq_some.mp h
  exact ⟨row, mem_of_getAt hrow, mem_of_getAt hv⟩

theorem valAt2_eq_zero {F : Type} [Zero F] {m : List (List F)}
    (h : ∀ row ∈ m, ∀ x ∈ row, x = 0) (i j : Int) : valAt2 m i j = 0 := by
  unfold valAt2
  cases hg : getAt2 m i j with
  | none => rfl
  | some v =>
    obtain ⟨row, hr, hv⟩ := mem_of_getAt2 hg
    exact h row hr v hv

/-- Two matrices of the same rectangular shape are equal when their cells are. -/
theorem ext_getAt2_of_dims {m m1 : List (List α)} {r c : Nat}
    (hd : dims m = List.replicate r c) (hd1 : dims m1 = List.replicate r c)
    (h : ∀ i j : Int, 0 ≤ i → i < (r : Int) → 0 ≤ j → j < (c : Int) →
      getAt2 m i j = getAt2 m1 i j) : m = m1 := by
  apply ext_getAt2 (hd.trans hd1.symm)
  intro i j
  by_cases hv : (0 ≤ i ∧ i < (r : Int)) ∧ 0 ≤ j ∧ j < (c : Int)
  · exact h i j hv.1.1 hv.1.2 hv.2.1 hv.2.2
  · have a : getAt2 m i j = none := by
      rw [← Option.not_isSome_iff_eq_none, getAt2_isSome_of_dims hd]
      exact hv
    have b : getAt2 m1 i j = none := by
      rw [← Option.not_isSome_iff_eq_none, getAt2_isSome_of_dims hd1]
      exact hv
    rw [a, b]

end ZeroLemmas

section ShuffleLemmas
variable {α κ σ : Type}

theorem forEach_total (Inv : σ → Prop) (ks : List κ) (body : κ → σ → Option σ)
    (h : ∀ k ∈ ks, ∀ s, Inv s → ∃ s1, body k s = some s1 ∧ Inv s1) (s : σ) (hs : Inv s) :
    ∃ s1, forEach ks body s = some s1 ∧ Inv s1 := by
  induction ks generalizing s with
  | nil => exact ⟨s, rfl, hs⟩
  | cons k ks ih =>
    obtain ⟨t, ht, hit⟩ := h k (List.mem_cons_self _ _) s hs
    obtain ⟨s1, h1, hi1⟩ := ih (fun k1 hk1 => h k1 (List.mem_cons_of_mem _ hk1)) t hit
    exact ⟨s1, by simp only [forEach, ht, Option.some_bind]; exact h1, hi1⟩

theorem upTo_succ (n : Nat) : upTo ((n : Int) + 1) = upTo (n : Int) ++ [(n : Int)] := by
  unfold upTo
  have : ((n : Int) + 1).toNat = n + 1 := by omega
  rw [this, List.range_succ, List.map_append]
  simp

theorem len_upTo {N : Int} (hN : 0 ≤ N) : len (upTo N) = N := by
  unfold len upTo
  simp only [List.length_map, List.length_range]
  omega

theorem getAt_upTo {N k : Int} (h0 : 0 ≤ k) (h1 : k < N) : getAt (upTo N) k = some k := by
  unfold getAt upTo
  rw [if_pos h0, List.getElem?_map, List.getElem?_range (by omega)]
  simp [Int.toNat_of_nonneg h0]

/-- Exchanging two entries of a slice rearranges it. -/
theorem swap_perm [DecidableEq α] (l : List α) (i j : Nat) (hi : i < l.length)
    (hj : j < l.length) : ((l.set i l[j]).set j l[i]).Perm l := by
  rw [List.perm_iff_count]
  intro b
  rw [List.count_set _ _ _ _ (by simpa using hj), List.count_set _ _ _ _ hi]
  have hj2 : j < (l.set i l[j]).length := by simpa using hj
  have e : (l.set i l[j])[j] = l[j] := by
    rw [List.getElem_set]
    split <;> rfl
  rw [e]
  have hci : (if (l[i] == b) = true then 1 else 0) ≤ l.count b := by
    split
    · rename_i h
      have : l[i] = b := by simpa using h
      exact List.count_pos_iff.mpr (this ▸ List.getElem_mem hi)
    · omega
  generalize (if (l[i] == b) = true then 1 else 0) = di at hci ⊢
  generalize (if (l[j] == b) = true then 1 else 0) = dj
  omega

end ShuffleLemmas

section ShuffleSpec
variable {F : Type} [LinearOrderedField F] [FloorRing F]

/-- In exact arithmetic, where `int(x)` is the whole part of `x ≥ 0` and
`float64(n)` is `n`: for a draw `r` in `[0, 1)` and `i < N`, the offset
`int(r * float64(N - i))` is at least `0` and keeps `i + offset` below `N`. -/
theorem swapIndex_bound (P : GoMath F) (hto : ∀ x : F, 0 ≤ x → P.toInt x = ⌊x⌋)
    (hof : ∀ n : Int, P.ofInt n = (n : F)) (r : F) (hr : 0 ≤ r ∧ r < 1) (N i : Int)
    (h1 : i < N) :
    0 ≤ P.toInt (r * P.ofInt (N - i)) ∧ i + P.toInt (r * P.ofInt (N - i)) < N := by
  have hpos : (0 : F) < ((N - i : Int) : F) := by
    exact_mod_cast (show (0 : Int) < N - i by omega)
  have hx0 : 0 ≤ r * ((N - i : Int) : F) := mul_nonneg hr.1 hpos.le
  have hx1 : r * ((N - i : Int) : F) < ((N - i : Int) : F) := by
    calc r * ((N - i : Int) : F) < 1 * ((N - i : Int) : F) :=
          mul_lt_mul_of_pos_right hr.2 hpos
      _ = ((N - i : Int) : F) := one_mul _
  rw [hof, hto _ hx0]
  have a : 0 ≤ ⌊r * ((N - i : Int) : F)⌋ := Int.floor_nonneg.mpr hx0
  have b : ⌊r * ((N - i : Int) : F)⌋ < N - i := Int.floor_lt.mpr hx1
  exact ⟨a, by omega⟩

/-- The function `genRandomIdx` in exact arithmetic with draws in `[0, 1)`: it
returns, uses one draw per position, and what it returns is a rearrangement of
`0, 1, ..., N-1`. -/
theorem genRandomIdx_spec (P : GoMath F) (hto : ∀ x : F, 0 ≤ x → P.toInt x = ⌊x⌋)
    (hof : ∀ n : Int, P.ofInt n = (n : F)) (draws : Nat → F)
    (hd : ∀ c, 0 ≤ draws c ∧ draws c < 1) (c : Nat) (N : Int) (hN : 0 ≤ N) :
    ∃ A, genRandomIdx P draws c N = some (A, c + N.toNat) ∧ len A = N ∧ A.Perm (upTo N) := by
  have hinit : forEach (upTo N) (fun i A => setAt A i i) (List.replicate N.toNat (0 : Int)) =
      some (upTo N) := by
    obtain ⟨t, ht, hl, _, hval⟩ := forEach_assign (upTo N) id (fun k : Int => k)
      (fun i A => setAt A i i) (List.replicate N.toNat (0 : Int))
      (fun k hk => by
        obtain ⟨h0, h1⟩ := mem_upTo.mp hk
        refine ⟨h0, ?_⟩
        simp only [id, len, List.length_replicate]
        omega)
      (fun _ _ _ _ => rfl)
    rw [ht]
    congr 1
    apply ext_getAt
    intro k
    have hlt : len t = N := by
      rw [hl]
      simp only [len, List.length_replicate]
      omega
    by_cases hk : 0 ≤ k ∧ k < N
    · rw [getAt_upTo hk.1 hk.2]
      exact hval (by simpa using upTo_nodup N) k (mem_upTo.mpr hk)
    · rw [(getAt_eq_none_iff _ _).mpr (by rw [hlt]; exact hk),
        (getAt_eq_none_iff _ _).mpr (by rw [len_upTo hN]; exact hk)]
  have hloop : ∀ n : Nat, (n : Int) ≤ N → ∃ A,
      forEach (upTo (n : Int))
        (fun i (st : List Int × Nat) =>
          let j := i + P.toInt (draws st.2 * P.ofInt (N - i))
          (getAt st.1 j).bind fun aj =>
          (getAt st.1 i).bind fun ai =>
          (setAt st.1 i aj).bind fun A =>
          (setAt A j ai).map fun A => (A, st.2 + 1))
        (upTo N, c) = some (A, c + n) ∧ len A = N ∧ A.Perm (upTo N) := by
    intro n
    induction n with
    | zero => exact fun _ => ⟨upTo N, rfl, len_upTo hN, List.Perm.refl _⟩
    | succ n ih =>
      intro hn
      obtain ⟨A, hA, hlA, hpA⟩ := ih (by omega)
      obtain ⟨b0, b1⟩ := swapIndex_bound P hto hof (draws (c + n)) (hd _) N (n : Int) (by omega)
      generalize hj : P.toInt (draws (c + n) * P.ofInt (N - (n : Int))) = off at b0 b1
      have hlen : (A.length : Int) = N := hlA
      have hi : n < A.length := by omega
      have hjl : ((n : Int) + off).toNat < A.length := by omega
      have g1 : getAt A ((n : Int) + off) = some (A[((n : Int) + off).toNat]) := by
        unfold getAt
        rw [if_pos (by omega), List.getElem?_eq_getElem hjl]
      have g2 : getAt A (n : Int) = some (A[n]) := by
        rw [getAt_natCast, List.getElem?_eq_getElem hi]
      have s1 : setAt A (n : Int) (A[((n : Int) + off).toNat]) =
          some (A.set n (A[((n : Int) + off).toNat])) := by
        rw [setAt_eq_some _ (by omega) (by unfold len; omega)]
        simp
      have s2 : setAt (A.set n (A[((n : Int) + off).toNat])) ((n : Int) + off) (A[n]) =
          some ((A.set n (A[((n : Int) + off).toNat])).set ((n : Int) + off).toNat (A[n])) :=
        setAt_eq_some _ (by omega) (by simp only [len, List.length_set]; omega)
      refine ⟨(A.set n (A[((n : Int) + off).toNat])).set ((n : Int) + off).toNat (A[n]),
        ?_, ?_, ?_⟩
      · have hcast : ((n + 1 : Nat) : Int) = (n : Int) + 1 := by push_cast; rfl
        rw [hcast, upTo_succ, forEach_append, hA]
        simp only [Option.some_bind, forEach, hj, g1, g2, s1, s2, Option.map_some']
        rfl
      · simp only [len, List.length_set]
        exact hlen
      · exact (swap_perm A n ((n : Int) + off).toNat hi hjl).trans hpA
  obtain ⟨A, hA, hlA, hpA⟩ := hloop N.toNat (by omega)
  refine ⟨A, ?_, hlA, hpA⟩
  unfold genRandomIdx make
  rw [if_pos hN]
  simp only [Option.some_bind]
  rw [hinit]
  simp only [Option.some_bind]
  rw [Int.toNat_of_nonneg hN] at hA
  exact hA

end ShuffleSpec

section TrainTotal
variable {F : Type} [LinearOrderedField F] [FloorRing F]

theorem reportDue_total (iteration i : Int) : ∃ b, reportDue iteration i = some b := by
  unfold reportDue goMod
  by_cases h : 10 ≤ iteration
  · rw [if_pos h]
    have : Int.tdiv iteration 10 ≠ 0 := by
      rw [Int.tdiv_eq_ediv (by omega) (by omega)]
      omega
    rw [if_neg this]
    exact ⟨_, rfl⟩
  · rw [if_neg h]
    exact ⟨_, rfl⟩

/-- One pass of `Train` over well-shaped data, in an order `idx_ary` that
rearranges the sample indices: it returns and leaves a well-shaped network. -/
theorem epochPass_total (P : GoMath F) (I H O : Nat) (inputs targets : List (List F))
    (hin : ∀ v ∈ inputs, v.length = I) (htl : inputs.length ≤ targets.length)
    (htg : ∀ t ∈ targets, t.length = O) (idx_ary : List Int)
    (hlen : len idx_ary = len inputs) (hperm : idx_ary.Perm (upTo (len inputs)))
    (nn : Net F) (hw : WellShaped nn I H O) :
    ∃ r, epochPass P inputs targets idx_ary nn = some r ∧ WellShaped r.1 I H O := by
  unfold epochPass
  refine forEach_total (fun st : Net F × F => WellShaped st.1 I H O) _ _ ?_ (nn, 0) hw
  intro j hj st hst
  obtain ⟨hj0, hj1⟩ := mem_upTo.mp hj
  obtain ⟨idx, hidx⟩ := getAt_of_lt hj0 (show j < len idx_ary by omega)
  obtain ⟨hi0, hi1⟩ := mem_upTo.mp (hperm.mem_iff.mp (mem_of_getAt hidx))
  obtain ⟨v, hv⟩ := getAt_of_lt hi0 hi1
  obtain ⟨t, ht⟩ := getAt_of_lt hi0 (show idx < len targets by unfold len at hi1 ⊢; omega)
  obtain ⟨n1, out, hf, _, hw1⟩ := Forward_wellShaped P st.1 I H O hst v (hin v (mem_of_getAt hv))
  have htlen : (O : Int) ≤ len t := by
    have := htg t (mem_of_getAt ht)
    unfold len
    omega
  obtain ⟨n2, hb, hw2⟩ := Feedback_wellShaped n1 I H O hw1 t htlen
  obtain ⟨e, hce⟩ : ∃ e, CalcError n2 t = some e :=
    ⟨_, CalcError_eq n2 t (by rw [len_eq_of_length hw2.2.2.1]; exact htlen)⟩
  refine ⟨(n2, st.2 + e), ?_, hw2⟩
  unfold trainStep
  simp only [hidx, hv, hf, ht, hb, hce, Option.some_bind, Option.map_some']

/-- The method `Train` on well-shaped data, in exact arithmetic with draws in
`[0, 1)`: it returns success, whatever the number of epochs, and leaves a
well-shaped network. -/
theorem Train_spec (P : GoMath F) (hto : ∀ x : F, 0 ≤ x → P.toInt x = ⌊x⌋)
    (hof : ∀ n : Int, P.ofInt n = (n : F)) (draws : Nat → F)
    (hd : ∀ c, 0 ≤ draws c ∧ draws c < 1) (nn : Net F) (I H O : Nat)
    (hw : WellShaped nn I H O) (inputs targets : List (List F)) (hne : inputs ≠ [])
    (hin : ∀ v ∈ inputs, v.length = I) (htl : inputs.length ≤ targets.length)
    (htg : ∀ t ∈ targets, t.length = O) (iteration : Int) :
    ∃ nn1, Train P draws nn inputs targets iteration = some (nn1, Except.ok ()) ∧
      WellShaped nn1 I H O := by
  have lI := len_eq_of_length hw.1
  have lO := len_eq_of_length hw.2.2.1
  have hpos : 0 < inputs.length := List.length_pos.mpr hne
  obtain ⟨v0, hv0⟩ := getAt_of_lt (s := inputs) (k := 0) le_rfl (by unfold len; omega)
  obtain ⟨t0, ht0⟩ := getAt_of_lt (s := targets) (k := 0) le_rfl (by unfold len; omega)
  have hv0l := len_eq_of_length (hin v0 (mem_of_getAt hv0))
  have ht0l := len_eq_of_length (htg t0 (mem_of_getAt ht0))
  obtain ⟨st, hrun, hst⟩ := forEach_total (fun st : Net F × Nat => WellShaped st.1 I H O)
    (upTo iteration)
    (fun i (st : Net F × Nat) =>
      (genRandomIdx P draws st.2 (len inputs)).bind fun g =>
      (epochPass P inputs targets g.1 st.1).bind fun e =>
      (reportDue iteration i).map fun _ => (e.1, g.2))
    (fun i _ st hst => by
      obtain ⟨A, hg, hlA, hpA⟩ := genRandomIdx_spec P hto hof draws hd st.2 (len inputs)
        (len_nonneg inputs)
      obtain ⟨r, hr, hwr⟩ := epochPass_total P I H O inputs targets hin htl htg A hlA hpA st.1 hst
      obtain ⟨b, hb⟩ := reportDue_total iteration i
      exact ⟨(r.1, st.2 + (len inputs).toNat), by
        simp only [hg, hr, hb, Option.some_bind, Option.map_some'], hwr⟩)
    (nn, 0) hw
  refine ⟨st.1, ?_, hst⟩
  unfold Train
  rw [hv0]
  simp only [Option.some_bind]
  rw [if_neg (by omega), ht0]
  simp only [Option.some_bind]
  rw [if_neg (by omega), hrun]
  rfl

end TrainTotal

section Rounding

theorem pow2_eq (k : Int) : pow2 k = (2 : ℚ) ^ k := by
  unfold pow2
  split
  · rename_i h
    obtain ⟨n, rfl⟩ := Int.eq_ofNat_of_zero_le h
    simp
  · rename_i h
    obtain ⟨n, hn⟩ := Int.eq_ofNat_of_zero_le (show 0 ≤ -k by omega)
    have hk : k = -(n : Int) := by omega
    subst hk
    simp

theorem pow2_pos (k : Int) : 0 < pow2 k := by
  rw [pow2_eq]
  positivity

theorem pow2_le {a b : Int} (h : a ≤ b) : pow2 a ≤ pow2 b := by
  rw [pow2_eq, pow2_eq]
  exact zpow_le_zpow_right₀ (by norm_num) h

theorem pow2_add (a b : Int) : pow2 (a + b) = pow2 a * pow2 b := by
  rw [pow2_eq, pow2_eq, pow2_eq, zpow_add₀ (by norm_num)]

/-- What the search returns: an exponent within the `2^fuel` tried, whose power
of two does not exceed `q` unless no step was taken, and whose successor does
unless every step was. -/
theorem binadeFrom_spec (fuel : Nat) (k : Int) (q : ℚ) :
    k ≤ binadeFrom fuel k q ∧ binadeFrom fuel k q ≤ k + 2 ^ fuel - 1 ∧
    (pow2 (binadeFrom fuel k q) ≤ q ∨ binadeFrom fuel k q = k) ∧
    (q < pow2 (binadeFrom fuel k q + 1) ∨ binadeFrom fuel k q = k + 2 ^ fuel - 1) := by
  induction fuel generalizing k with
  | zero => simp [binadeFrom]
  | succ f ih =>
    have hp : (0 : Int) < 2 ^ f := by positivity
    have e : (2 : Int) ^ (f + 1) = 2 ^ f + 2 ^ f := by rw [pow_succ]; ring
    unfold binadeFrom
    split
    · rename_i h
      obtain ⟨a, b, c, d⟩ := ih (k + 2 ^ f)
      refine ⟨by omega, by omega, ?_, ?_⟩
      · rcases c with c | c
        · exact Or.inl c
        · rw [c]
          exact Or.inl h
      · rcases d with d | d
        · exact Or.inl d
        · exact Or.inr (by omega)
    · rename_i h
      obtain ⟨a, b, c, d⟩ := ih k
      refine ⟨a, by omega, c, ?_⟩
      rcases d with d | d
      · exact Or.inl d
      · left
        rw [d]
        have : k + 2 ^ f - 1 + 1 = k + 2 ^ f := by omega
        rw [this]
        exact not_le.mp h

/-- The exponent `binade q` lies in the range of the format and brackets `q`
wherever the range allows. -/
theorem binade_spec (q : ℚ) :
    -1022 ≤ binade q ∧ binade q ≤ 1025 ∧ (pow2 (binade q) ≤ q ∨ binade q = -1022) ∧
    (q < pow2 (binade q + 1) ∨ binade q = 1025) := by
  obtain ⟨a, b, c, d⟩ := binadeFrom_spec 11 (-1022) q
  unfold binade
  refine ⟨a, by norm_num at b; omega, c, ?_⟩
  rcases d with d | d
  · exact Or.inl d
  · exact Or.inr (by norm_num at d; omega)

theorem binade_mono {a b : ℚ} (h : a ≤ b) : binade a ≤ binade b := by
  by_contra hlt
  obtain ⟨a1, a2, a3, a4⟩ := binade_spec a
  obtain ⟨b1, b2, b3, b4⟩ := binade_spec b
  have ha : pow2 (binade a) ≤ a := by
    rcases a3 with a3 | a3
    · exact a3
    · omega
  have hb : b < pow2 (binade b + 1) := by
    rcases b4 with b4 | b4
    · exact b4
    · omega
  have := pow2_le (show binade b + 1 ≤ binade a by omega)
  linarith

/-- A value in `[2^b, 2^(b+1))` with `b` in the range of the format has the
exponent `b`. -/
theorem binade_eq {q : ℚ} {b : Int} (h1 : -1022 ≤ b) (h2 : b ≤ 1025) (h3 : pow2 b ≤ q)
    (h4 : q < pow2 (b + 1)) : binade q = b := by
  obtain ⟨a1, a2, a3, a4⟩ := binade_spec q
  by_contra hne
  rcases lt_or_gt_of_ne hne with hlt | hgt
  · have hq : q < pow2 (binade q + 1) := by
      rcases a4 with a4 | a4
      · exact a4
      · omega
    have := pow2_le (show binade q + 1 ≤ b by omega)
    linarith
  · have hq : pow2 (binade q) ≤ q := by
      rcases a3 with a3 | a3
      · exact a3
      · omega
    have := pow2_le (show b + 1 ≤ binade q by omega)
    linarith

theorem roundHalfEven_ge (x : ℚ) : x - 1 / 2 ≤ (roundHalfEven x : ℚ) := by
  have h1 := Int.floor_le x
  have h2 := Int.lt_floor_add_one x
  unfold roundHalfEven
  split_ifs <;> push_cast <;> linarith

theorem roundHalfEven_le (x : ℚ) : (roundHalfEven x : ℚ) ≤ x + 1 / 2 := by
  have h1 := Int.floor_le x
  have h2 := Int.lt_floor_add_one x
  unfold roundHalfEven
  split_ifs <;> push_cast <;> linarith

theorem roundHalfEven_intCast (n : Int) : roundHalfEven (n : ℚ) = n := by
  unfold roundHalfEven
  simp

theorem roundHalfEven_mono {x y : ℚ} (h : x ≤ y) : roundHalfEven x ≤ roundHalfEven y := by
  have hf : ⌊x⌋ ≤ ⌊y⌋ := Int.floor_mono h
  have hx1 := Int.floor_le x
  have hx2 := Int.lt_floor_add_one x
  have hy1 := Int.floor_le y
  have hy2 := Int.lt_floor_add_one y
  rcases hf.lt_or_eq with hlt | heq
  · have a : roundHalfEven x ≤ ⌊x⌋ + 1 := by
      unfold roundHalfEven
      split_ifs <;> omega
    have b : ⌊y⌋ ≤ roundHalfEven y := by
      unfold roundHalfEven
      split_ifs <;> omega
    omega
  · unfold roundHalfEven
    rw [heq]
    rw [heq] at hx1 hx2
    split_ifs <;> first | omega | (exfalso; linarith)

/-- An integer below `x` stays below the rounded `x`, and one above stays above. -/
theorem le_roundHalfEven {n : Int} {x : ℚ} (h : (n : ℚ) ≤ x) : n ≤ roundHalfEven x := by
  have := roundHalfEven_mono h
  rwa [roundHalfEven_intCast] at this

theorem roundHalfEven_le_of_le {n : Int} {x : ℚ} (h : x ≤ (n : ℚ)) : roundHalfEven x ≤ n := by
  have := roundHalfEven_mono h
  rwa [roundHalfEven_intCast] at this

end Rounding

section RoundQ

theorem pow2_split (b : Int) : pow2 b = 2 ^ 52 * pow2 (b - 52) := by
  have h := pow2_add 52 (b - 52)
  rw [show (52 : Int) + (b - 52) = b by omega] at h
  rw [h, pow2_eq 52]
  norm_num

theorem pow2_succ (b : Int) : pow2 (b + 1) = 2 * pow2 b := by
  rw [pow2_add, pow2_eq 1]
  norm_num [mul_comm]

theorem roundQ_nonneg {q : ℚ} (h : 0 ≤ q) : 0 ≤ roundQ q := by
  unfold roundQ
  have hp := pow2_pos (binade |q| - 52)
  have : (0 : Int) ≤ roundHalfEven (q / pow2 (binade |q| - 52)) :=
    le_roundHalfEven (by push_cast; positivity)
  have : (0 : ℚ) ≤ (roundHalfEven (q / pow2 (binade |q| - 52)) : ℚ) := by exact_mod_cast this
  positivity

theorem roundQ_nonpos {q : ℚ} (h : q ≤ 0) : roundQ q ≤ 0 := by
  unfold roundQ
  have hp := pow2_pos (binade |q| - 52)
  have : roundHalfEven (q / pow2 (binade |q| - 52)) ≤ 0 :=
    roundHalfEven_le_of_le (by push_cast; exact div_nonpos_of_nonpos_of_nonneg h hp.le)
  have : (roundHalfEven (q / pow2 (binade |q| - 52)) : ℚ) ≤ 0 := by exact_mod_cast this
  exact mul_nonpos_of_nonpos_of_nonneg this hp.le

theorem roundQ_zero : roundQ 0 = 0 :=
  le_antisymm (roundQ_nonpos le_rfl) (roundQ_nonneg le_rfl)

/-- Rounding keeps the order of non-negative rationals. -/
theorem roundQ_mono {a b : ℚ} (h0 : 0 ≤ a) (h : a ≤ b) : roundQ a ≤ roundQ b := by
  have hb0 : 0 ≤ b := h0.trans h
  have hbin := binade_mono h
  unfold roundQ
  rw [abs_of_nonneg h0, abs_of_nonneg hb0]
  have hpa := pow2_pos (binade a - 52)
  have hpb := pow2_pos (binade b - 52)
  rcases hbin.lt_or_eq with hlt | heq
  · obtain ⟨a1, a2, a3, a4⟩ := binade_spec a
    obtain ⟨b1, b2, b3, b4⟩ := binade_spec b
    have hb : pow2 (binade b) ≤ b := by
      rcases b3 with b3 | b3
      · exact b3
      · omega
    have ha : a < pow2 (binade a + 1) := by
      rcases a4 with a4 | a4
      · exact a4
      · omega
    have h1 : ((2 ^ 52 : Int) : ℚ) ≤ b / pow2 (binade b - 52) := by
      rw [le_div_iff₀ hpb]
      push_cast
      have := pow2_split (binade b)
      linarith
    have h2 : a / pow2 (binade a - 52) ≤ ((2 ^ 53 : Int) : ℚ) := by
      rw [div_le_iff₀ hpa]
      push_cast
      have := pow2_split (binade a)
      have := pow2_succ (binade a)
      linarith
    have h3 : ((2 ^ 52 : Int) : ℚ) ≤ (roundHalfEven (b / pow2 (binade b - 52)) : ℚ) := by
      exact_mod_cast le_roundHalfEven h1
    have h4 : (roundHalfEven (a / pow2 (binade a - 52)) : ℚ) ≤ ((2 ^ 53 : Int) : ℚ) := by
      exact_mod_cast roundHalfEven_le_of_le h2
    have h5 : pow2 (binade a + 1) ≤ pow2 (binade b) := pow2_le (by omega)
    have e1 := pow2_split (binade a)
    have e2 := pow2_succ (binade a)
    have e3 := pow2_split (binade b)
    push_cast at h3 h4
    calc (roundHalfEven (a / pow2 (binade a - 52)) : ℚ) * pow2 (binade a - 52)
        ≤ 2 ^ 53 * pow2 (binade a - 52) := mul_le_mul_of_nonneg_right h4 hpa.le
      _ = pow2 (binade a + 1) := by rw [e2, e1]; ring
      _ ≤ pow2 (binade b) := h5
      _ = 2 ^ 52 * pow2 (binade b - 52) := e3
      _ ≤ (roundHalfEven (b / pow2 (binade b - 52)) : ℚ) * pow2 (binade b - 52) :=
          mul_le_mul_of_nonneg_right h3 hpb.le
  · rw [heq]
    have : roundHalfEven (a / pow2 (binade b - 52)) ≤ roundHalfEven (b / pow2 (binade b - 52)) :=
      roundHalfEven_mono (div_le_div_of_nonneg_right h hpb.le)
    have : (roundHalfEven (a / pow2 (binade b - 52)) : ℚ) ≤
        (roundHalfEven (b / pow2 (binade b - 52)) : ℚ) := by exact_mod_cast this
    exact mul_le_mul_of_nonneg_right this hpb.le

/-- Rounding moves a non-negative rational by at most half a unit of its
binade. -/
theorem roundQ_le_add {q : ℚ} (h0 : 0 ≤ q) {b : Int} (hb : binade q ≤ b) :
    roundQ q ≤ q + pow2 (b - 53) := by
  unfold roundQ
  rw [abs_of_nonneg h0]
  have hp := pow2_pos (binade q - 52)
  have h1 := roundHalfEven_le (q / pow2 (binade q - 52))
  have h2 : (roundHalfEven (q / pow2 (binade q - 52)) : ℚ) * pow2 (binade q - 52) ≤
      (q / pow2 (binade q - 52) + 1 / 2) * pow2 (binade q - 52) :=
    mul_le_mul_of_nonneg_right h1 hp.le
  have h3 : (q / pow2 (binade q - 52) + 1 / 2) * pow2 (binade q - 52) =
      q + pow2 (binade q - 52) / 2 := by
    field_simp
    ring
  have h4 : pow2 (binade q - 52) = 2 * pow2 (binade q - 53) := by
    rw [← pow2_succ]
    congr 1
    omega
  have h5 : pow2 (binade q - 53) ≤ pow2 (b - 53) := pow2_le (by omega)
  linarith

theorem roundQ_ge_sub {q : ℚ} (h0 : 0 ≤ q) {b : Int} (hb : binade q ≤ b) :
    q - pow2 (b - 53) ≤ roundQ q := by
  unfold roundQ
  rw [abs_of_nonneg h0]
  have hp := pow2_pos (binade q - 52)
  have h1 := roundHalfEven_ge (q / pow2 (binade q - 52))
  have h2 : (q / pow2 (binade q - 52) - 1 / 2) * pow2 (binade q - 52) ≤
      (roundHalfEven (q / pow2 (binade q - 52)) : ℚ) * pow2 (binade q - 52) :=
    mul_le_mul_of_nonneg_right h1 hp.le
  have h3 : (q / pow2 (binade q - 52) - 1 / 2) * pow2 (binade q - 52) =
      q - pow2 (binade q - 52) / 2 := by
    field_simp
    ring
  have h4 : pow2 (binade q - 52) = 2 * pow2 (binade q - 53) := by
    rw [← pow2_succ]
    congr 1
    omega
  have h5 : pow2 (binade q - 53) ≤ pow2 (b - 53) := pow2_le (by omega)
  linarith

/-- The rounding of a non-negative rational is a `float64` that is not negative,
or the positive infinity. -/
theorem round_nonneg {q : ℚ} (h : 0 ≤ q) :
    F64.round q = F64.inf false ∨ ∃ v, F64.round q = F64.fin v ∧ 0 ≤ v ∧ v = roundQ q := by
  unfold F64.round
  split
  · left
    rw [decide_eq_false (not_lt.mpr h)]
  · exact Or.inr ⟨_, rfl, roundQ_nonneg h, rfl⟩

theorem round_zero : F64.round 0 = F64.fin 0 := by
  unfold F64.round
  rw [roundQ_zero, if_neg]
  rw [abs_zero]
  exact not_le.mpr (pow2_pos _)

/-- A non-negative rational whose rounding stays below `2^1024` rounds to a
finite value. -/
theorem round_of_le {q c : ℚ} (h0 : 0 ≤ q) (hc : q ≤ c) (hlt : roundQ c < pow2 1024) :
    F64.round q = F64.fin (roundQ q) := by
  unfold F64.round
  rw [if_neg]
  rw [abs_of_nonneg (roundQ_nonneg h0)]
  exact not_le.mpr ((roundQ_mono h0 hc).trans_lt hlt)

end RoundQ

section FloatSigmoid

theorem binade_le_of_lt {q : ℚ} {b : Int} (hb : -1022 ≤ b) (h : q < pow2 (b + 1)) :
    binade q ≤ b := by
  obtain ⟨a1, a2, a3, a4⟩ := binade_spec q
  by_contra hlt
  have hq : pow2 (binade q) ≤ q := by
    rcases a3 with a3 | a3
    · exact a3
    · omega
  have := pow2_le (show b + 1 ≤ binade q by omega)
  linarith

theorem roundQ_one : roundQ 1 = 1 := by decide!

theorem pow2_1024_gt_one : (1 : ℚ) < pow2 1024 := by decide!

/-- The sum `1.0 + p` for a `p` that is not negative: a `float64` from `1` on, or
the positive infinity. -/
theorem one_add_fin {p : ℚ} (h0 : 0 ≤ p) :
    (1 : F64) + F64.fin p =
      if pow2 1024 ≤ roundQ (1 + p) then F64.inf false else F64.fin (roundQ (1 + p)) := by
  show F64.round (1 + p) = _
  unfold F64.round
  rw [abs_of_nonneg (roundQ_nonneg (by linarith)), decide_eq_false (by linarith)]

theorem one_le_roundQ {p : ℚ} (h0 : 0 ≤ p) : 1 ≤ roundQ (1 + p) := by
  have := roundQ_mono (show (0 : ℚ) ≤ 1 by norm_num) (show (1 : ℚ) ≤ 1 + p by linarith)
  rwa [roundQ_one] at this

/-- The quotient `1.0 / v` for a `v` from `1` on: a `float64` in `[0, 1]`. -/
theorem one_div_fin {v : ℚ} (h1 : 1 ≤ v) :
    (1 : F64) / F64.fin v = F64.fin (roundQ (1 / v)) ∧ 0 ≤ roundQ (1 / v) ∧
      roundQ (1 / v) ≤ 1 := by
  have hv : 0 < v := by linarith
  have hq0 : 0 ≤ 1 / v := by positivity
  have hq1 : 1 / v ≤ 1 := by
    rw [div_le_one hv]
    exact h1
  have hle : roundQ (1 / v) ≤ 1 := by
    have := roundQ_mono hq0 hq1
    rwa [roundQ_one] at this
  refine ⟨?_, roundQ_nonneg hq0, hle⟩
  show F64.div (F64.fin 1) (F64.fin v) = _
  simp only [F64.div, if_neg hv.ne']
  exact round_of_le hq0 hq1 (by rw [roundQ_one]; exact pow2_1024_gt_one)

/-- The value of `sigmoid` on `float64` when `math.Pow(math.E, -x)` is a
number `p` that is not negative. -/
theorem sigmoid_fin (P : GoMath F64) (x : F64) (p : ℚ) (hp : P.Pow P.E (-x) = F64.fin p)
    (h0 : 0 ≤ p) :
    sigmoid P x = if pow2 1024 ≤ roundQ (1 + p) then F64.fin 0
      else F64.fin (roundQ (1 / roundQ (1 + p))) := by
  unfold sigmoid
  rw [hp, one_add_fin h0]
  split
  · rfl
  · exact (one_div_fin (one_le_roundQ h0)).1

end FloatSigmoid

section FloatDsigmoid

/-- A finite `float64` is its own rounding. -/
theorem roundQ_of_round {y : ℚ} (hy : F64.round y = F64.fin y) : roundQ y = y := by
  unfold F64.round at hy
  split at hy
  · cases hy
  · exact F64.fin.inj hy

/-- The largest `float64` below `1` is `1 - 2^(-53)`. -/
theorem le_pred_one {y : ℚ} (hy : roundQ y = y) (h1 : y < 1) : y ≤ 1 - 1 / 2 ^ 53 := by
  by_contra hgt
  have hgt : 1 - 1 / 2 ^ 53 < y := not_le.mp hgt
  have hb : binade y = -1 :=
    binade_eq (by norm_num) (by norm_num)
      (by rw [pow2_eq]; norm_num at hgt ⊢; linarith) (by rw [pow2_eq]; norm_num; exact h1)
  have hy0 : 0 ≤ y := by norm_num at hgt; linarith
  unfold roundQ at hy
  rw [abs_of_nonneg hy0, hb] at hy
  have hp : pow2 (-1 - 52) = 1 / 2 ^ 53 := by rw [pow2_eq]; norm_num
  rw [hp] at hy
  have hm : ((roundHalfEven (y / (1 / 2 ^ 53)) : Int) : ℚ) = y * 2 ^ 53 := by
    field_simp at hy ⊢
    linarith
  have h2 : ((2 ^ 53 - 1 : Int) : ℚ) < ((roundHalfEven (y / (1 / 2 ^ 53)) : Int) : ℚ) := by
    rw [hm]
    push_cast
    norm_num at hgt ⊢
    linarith
  have h3 : ((roundHalfEven (y / (1 / 2 ^ 53)) : Int) : ℚ) < ((2 ^ 53 : Int) : ℚ) := by
    rw [hm]
    push_cast
    norm_num
    linarith
  have h4 := Int.cast_lt.mp h2
  have h5 := Int.cast_lt.mp h3
  omega

/-- The value of `dsigmoid` at a `float64` strictly between `0` and `1`. -/
theorem dsigmoid_fin {y : ℚ} (h0 : 0 < y) (h1 : y < 1) :
    dsigmoid (F64.fin y) = F64.fin (roundQ (y * roundQ (1 - y))) ∧
      0 ≤ roundQ (1 - y) ∧ roundQ (1 - y) ≤ 1 := by
  have hz0 : (0 : ℚ) ≤ 1 - y := by linarith
  have hz1 : 1 - y ≤ 1 := by linarith
  have hr1 : roundQ (1 - y) ≤ 1 := by
    have := roundQ_mono hz0 hz1
    rwa [roundQ_one] at this
  have hr0 := roundQ_nonneg hz0
  refine ⟨?_, hr0, hr1⟩
  have hsub : (1 : F64) - F64.fin y = F64.fin (roundQ (1 - y)) := by
    show F64.add (F64.fin 1) (F64.neg (F64.fin y)) = _
    simp only [F64.neg, F64.add]
    rw [← sub_eq_add_neg]
    exact round_of_le hz0 hz1 (by rw [roundQ_one]; exact pow2_1024_gt_one)
  unfold dsigmoid
  rw [hsub]
  show F64.mul (F64.fin y) (F64.fin (roundQ (1 - y))) = _
  simp only [F64.mul]
  refine round_of_le (mul_nonneg h0.le hr0) (c := 1) ?_
    (by rw [roundQ_one]; exact pow2_1024_gt_one)
  calc y * roundQ (1 - y) ≤ 1 * 1 := mul_le_mul h1.le hr1 hr0 (by norm_num)
    _ = 1 := by norm_num

theorem dsigmoid_le_quarter {y : ℚ} (h0 : 0 < y) (h1 : y < 1) :
    roundQ (y * roundQ (1 - y)) ≤ 1 / 4 := by
  have hz0 : (0 : ℚ) ≤ 1 - y := by linarith
  have hr0 := roundQ_nonneg hz0
  have hsq : y * (1 - y) ≤ 1 / 4 := by nlinarith [sq_nonneg (y - 1 / 2)]
  have key : y * roundQ (1 - y) ≤ 1 / 4 + 1 / 2 ^ 55 := by
    by_cases hy : y ≤ 1 / 2
    · have hb : binade (1 - y) ≤ -1 :=
        binade_le_of_lt (by norm_num) (by rw [pow2_eq]; norm_num; exact h0)
      have h := roundQ_le_add hz0 hb
      have hp : pow2 (-1 - 53) = 1 / 2 ^ 54 := by rw [pow2_eq]; norm_num
      rw [hp] at h
      have : y * roundQ (1 - y) ≤ y * (1 - y + 1 / 2 ^ 54) := mul_le_mul_of_nonneg_left h h0.le
      have h2 : y * (1 / 2 ^ 54 : ℚ) ≤ 1 / 2 * (1 / 2 ^ 54) :=
        mul_le_mul_of_nonneg_right hy (by positivity)
      norm_num at this h2 ⊢
      linarith
    · have hy : 1 / 2 < y := not_le.mp hy
      have hb : binade (1 - y) ≤ -2 :=
        binade_le_of_lt (by norm_num) (by rw [pow2_eq]; norm_num; linarith)
      have h := roundQ_le_add hz0 hb
      have hp : pow2 (-2 - 53) = 1 / 2 ^ 55 := by rw [pow2_eq]; norm_num
      rw [hp] at h
      have : y * roundQ (1 - y) ≤ y * (1 - y + 1 / 2 ^ 55) := mul_le_mul_of_nonneg_left h h0.le
      have h2 : y * (1 / 2 ^ 55 : ℚ) ≤ 1 * (1 / 2 ^ 55) :=
        mul_le_mul_of_nonneg_right h1.le (by positivity)
      norm_num at this h2 ⊢
      linarith
  have e : roundQ (1 / 4 + 1 / 2 ^ 55) = 1 / 4 := by decide!
  have := roundQ_mono (mul_nonneg h0.le hr0) key
  rwa [e] at this

theorem dsigmoid_pos {y : ℚ} (hy : roundQ y = y) (h0 : 0 < y) (h1 : y < 1) :
    0 < roundQ (y * roundQ (1 - y)) := by
  have hz0 : (0 : ℚ) ≤ 1 - y := by linarith
  by_cases hs : y < 1 / 2 ^ 54
  · have e1 : roundQ (1 - 1 / 2 ^ 54) = 1 := by decide!
    have a := roundQ_mono (show (0 : ℚ) ≤ 1 - 1 / 2 ^ 54 by norm_num)
      (show (1 : ℚ) - 1 / 2 ^ 54 ≤ 1 - y by linarith)
    have b := roundQ_mono hz0 (show 1 - y ≤ 1 by linarith)
    rw [e1] at a
    rw [roundQ_one] at b
    rw [le_antisymm b a, mul_one, hy]
    exact h0
  · have hs : 1 / 2 ^ 54 ≤ y := not_lt.mp hs
    have hz := le_pred_one hy h1
    have e1 : roundQ (1 / 2 ^ 53) = 1 / 2 ^ 53 := by decide!
    have e2 : roundQ (1 / 2 ^ 107) = 1 / 2 ^ 107 := by decide!
    have a := roundQ_mono (show (0 : ℚ) ≤ 1 / 2 ^ 53 by norm_num)
      (show (1 : ℚ) / 2 ^ 53 ≤ 1 - y by linarith)
    rw [e1] at a
    have c : (1 : ℚ) / 2 ^ 107 ≤ y * roundQ (1 - y) := by
      calc (1 : ℚ) / 2 ^ 107 = 1 / 2 ^ 54 * (1 / 2 ^ 53) := by norm_num
        _ ≤ y * roundQ (1 - y) := mul_le_mul hs a (by norm_num) h0.le
    have d := roundQ_mono (show (0 : ℚ) ≤ 1 / 2 ^ 107 by norm_num) c
    rw [e2] at d
    exact lt_of_lt_of_le (by norm_num) d

end FloatDsigmoid

section FloatCalcError

theorem half_eq : (0.5 : F64) = F64.fin (1 / 2) := by decide!

/-- The sum of two `float64` that are not negative is not negative. -/
theorem add_nonnegF {a b : F64} (ha : a = F64.inf false ∨ ∃ q, a = F64.fin q ∧ 0 ≤ q)
    (hb : b = F64.inf false ∨ ∃ q, b = F64.fin q ∧ 0 ≤ q) :
    a + b = F64.inf false ∨ ∃ q, a + b = F64.fin q ∧ 0 ≤ q := by
  rcases ha with rfl | ⟨x, rfl, hx⟩ <;> rcases hb with rfl | ⟨y, rfl, hy⟩
  · exact Or.inl rfl
  · exact Or.inl rfl
  · exact Or.inl rfl
  · show F64.round (x + y) = _ ∨ ∃ q, F64.round (x + y) = _ ∧ _
    rcases round_nonneg (add_nonneg hx hy) with h | ⟨v, h, hv, _⟩
    · exact Or.inl h
    · exact Or.inr ⟨v, h, hv⟩

/-- The term `0.5 * err * err` is not negative, whatever the residual `err`
that is not NaN. -/
theorem half_sq_nonnegF (err : F64) (h : err ≠ F64.nan) :
    0.5 * err * err = F64.inf false ∨ ∃ q, 0.5 * err * err = F64.fin q ∧ 0 ≤ q := by
  rw [half_eq]
  cases err with
  | nan => exact absurd rfl h
  | inf s =>
    left
    show F64.mul (F64.mul (F64.fin (1 / 2)) (F64.inf s)) (F64.inf s) = _
    simp only [F64.mul]
    rw [if_neg (by norm_num), decide_eq_false (by norm_num)]
    cases s <;> rfl
  | fin e =>
    show F64.mul (F64.round (1 / 2 * e)) (F64.fin e) = _ ∨
      ∃ q, F64.mul (F64.round (1 / 2 * e)) (F64.fin e) = _ ∧ _
    unfold F64.round
    split
    · rename_i hov
      have he : e ≠ 0 := by
        rintro rfl
        rw [mul_zero, roundQ_zero, abs_zero] at hov
        exact absurd hov (not_le.mpr (pow2_pos _))
      left
      simp only [F64.mul, if_neg he]
      have : decide (1 / 2 * e < 0) = decide (e < 0) := by
        congr 1
        apply propext
        constructor <;> intro h <;> linarith
      rw [this]
      cases decide (e < 0) <;> rfl
    · simp only [F64.mul]
      have hnn : 0 ≤ roundQ (1 / 2 * e) * e := by
        rcases le_total 0 e with he | he
        · exact mul_nonneg (roundQ_nonneg (by linarith)) he
        · exact mul_nonneg_of_nonpos_of_nonpos (roundQ_nonpos (by linarith)) he
      rcases round_nonneg hnn with h | ⟨v, h, hv, _⟩
      · exact Or.inl h
      · exact Or.inr ⟨v, h, hv⟩

/-- The difference of two finite `float64` is not NaN. -/
theorem sub_fin_ne_nan (a b : ℚ) : F64.fin a - F64.fin b ≠ F64.nan := by
  show F64.add (F64.fin a) (F64.neg (F64.fin b)) ≠ _
  simp only [F64.neg, F64.add]
  unfold F64.round
  split <;> simp

theorem foldl_nonnegF {κ : Type} (ks : List κ) (f : κ → F64)
    (hf : ∀ k ∈ ks, f k = F64.inf false ∨ ∃ q, f k = F64.fin q ∧ 0 ≤ q) (a : F64)
    (ha : a = F64.inf false ∨ ∃ q, a = F64.fin q ∧ 0 ≤ q) :
    ks.foldl (fun acc k => acc + f k) a = F64.inf false ∨
      ∃ q, ks.foldl (fun acc k => acc + f k) a = F64.fin q ∧ 0 ≤ q := by
  induction ks generalizing a with
  | nil => exact ha
  | cons k ks ih =>
    simp only [List.foldl_cons]
    exact ih (fun j hj => hf j (List.mem_cons_of_mem _ hj)) _
      (add_nonnegF ha (hf k (List.mem_cons_self _ _)))

theorem zero_add_zeroF : (0 : F64) + 0 = 0 := by
  show F64.round (0 + 0) = F64.fin 0
  rw [add_zero, round_zero]

theorem half_sq_selfF (a : ℚ) : (0.5 : F64) * (F64.fin a - F64.fin a) * (F64.fin a - F64.fin a) = 0 := by
  have e : F64.fin a - F64.fin a = F64.fin 0 := by
    show F64.add (F64.fin a) (F64.neg (F64.fin a)) = _
    simp only [F64.neg, F64.add]
    rw [add_neg_cancel, round_zero]
  rw [e, half_eq]
  show F64.mul (F64.mul (F64.fin (1 / 2)) (F64.fin 0)) (F64.fin 0) = F64.fin 0
  simp only [F64.mul, mul_zero, round_zero]

theorem foldl_zeroF {κ : Type} (ks : List κ) (f : κ → F64) (hf : ∀ k ∈ ks, f k = 0) :
    ks.foldl (fun acc k => acc + f k) 0 = 0 := by
  induction ks with
  | nil => rfl
  | cons k ks ih =>
    simp only [List.foldl_cons]
    rw [hf k (List.mem_cons_self _ _), zero_add_zeroF]
    exact ih (fun j hj => hf j (List.mem_cons_of_mem _ hj))

end FloatCalcError

section Claims
variable {F : Type} [Zero F] [One F] [Add F] [Sub F] [Mul F] [Div F] [Neg F] [OfScientific F]

/-! ## The claims -/

/-- C1, as stated, fails: `New` accepts the sizes `(1, -1, 1)` and returns a network
whose hidden layer is empty; `Forward` on an input of length `1` then passes the
length check and panics at `nn.HiddenLayer[len(nn.HiddenLayer)-1] = 1.0`, so it
returns neither an error nor a vector. -/
theorem Forward_panics_without_hidden_layer :
    New (fun _ _ => (0 : ℚ)) (fun _ _ => (0 : ℚ)) 1 (-1) 1 false (1 / 4) (1 / 10) = some netNoHidden ∧
      len [(5 : ℚ)] = 1 ∧ Forward ratMath netNoHidden [5] = none := by
  decide!

/-- C1, amended: for a network that `New` returns for sizes `(I, H, O)` with
`0 ≤ H`, `Forward` on an input whose length is not `I` returns the input-shape
error and leaves the network as it was, and on an input of length `I` it returns
a vector of length exactly `O`. -/
theorem Forward_checks_input_length (P : GoMath F) (srcH srcO : Nat → Nat → F) (I H O : Int)
    (reg : Bool) (r1 r2 : F) (nn : Net F) (hnew : New srcH srcO I H O reg r1 r2 = some nn)
    (hH : 0 ≤ H) (v : List F) :
    (len v ≠ I → Forward P nn v = some (nn, Except.error ShapeError.input)) ∧
    (len v = I → ∃ nn1 out, Forward P nn v = some (nn1, Except.ok out) ∧ len out = O) := by
  obtain ⟨hI0, _, hO0, hIl, _⟩ := New_spec srcH srcO I H O reg r1 r2 nn hnew
  have hlen : len nn.InputLayer = I + 1 := by unfold len; omega
  constructor
  · intro hne
    unfold Forward
    rw [if_pos (by omega)]
  · intro heq
    have hI : 0 ≤ I := heq ▸ len_nonneg v
    have hw := New_wellShaped srcH srcO I H O reg r1 r2 nn hnew hI hH
    obtain ⟨hid, out, hf, _, hlo, _⟩ := Forward_spec P nn I.toNat H.toNat O.toNat hw v
      (by unfold len at heq; omega)
    exact ⟨_, out, hf, by omega⟩

/-- C1, amended, at the network `New` returns for the sizes `(1, 1, 1)` and the input `[5]`. -/
theorem Forward_checks_input_length_witness :
    New (fun _ _ => (0 : ℚ)) (fun _ _ => (0 : ℚ)) 1 1 1 true 1 0 =
        some { net0 with WeightOutput := [[0, 0]] } ∧ (0 : Int) ≤ 1 ∧
      (len [(5 : ℚ)] ≠ 1 → Forward ratMath { net0 with WeightOutput := [[0, 0]] } [5] =
        some ({ net0 with WeightOutput := [[0, 0]] }, Except.error ShapeError.input)) ∧
      (len [(5 : ℚ)] = 1 → ∃ nn1 out,
        Forward ratMath { net0 with WeightOutput := [[0, 0]] } [5] = some (nn1, Except.ok out) ∧
        len out = 1) :=
  ⟨by decide!, by decide,
    Forward_checks_input_length ratMath (fun _ _ => (0 : ℚ)) (fun _ _ => (0 : ℚ)) 1 1 1 true 1 0
      { net0 with WeightOutput := [[0, 0]] } (by decide!) (by decide) [5]⟩

/-- C2: whatever the state of the network, `Forward` on an input whose length is
not `len(nn.InputLayer) - 1` returns the error, and the network it leaves is the
network it was given, field for field. -/
theorem Forward_error_leaves_network (P : GoMath F) (nn : Net F) (v : List F)
    (h : len v ≠ len nn.InputLayer - 1) :
    Forward P nn v = some (nn, Except.error ShapeError.input) := by
  unfold Forward
  rw [if_pos (by omega)]

/-- C2 at the network `net0`, whose input layer has two entries, and an input of length three. -/
theorem Forward_error_leaves_network_witness :
    len [(1 : ℚ), 2, 3] ≠ len net0.InputLayer - 1 ∧
      Forward ratMath net0 [1, 2, 3] = some (net0, Except.error ShapeError.input) :=
  ⟨by decide, Forward_error_leaves_network ratMath net0 [1, 2, 3] (by decide)⟩

/-- C3: on a well-shaped network, every `Forward` call that returns a vector
leaves `1.0` in the last element of `InputLayer` and of `HiddenLayer`; and every
`ForwardMap` call with a map whose keys are indices of `InputLayer` (the bias
index among them or not, with any value) returns and leaves `1.0` in both. -/
theorem bias_invariant (P : GoMath F) (nn : Net F) (I H O : Nat) (hw : WellShaped nn I H O) :
    (∀ v nn1 out, Forward P nn v = some (nn1, Except.ok out) →
      getAt nn1.InputLayer (len nn1.InputLayer - 1) = some 1 ∧
      getAt nn1.HiddenLayer (len nn1.HiddenLayer - 1) = some 1) ∧
    (∀ m : RangeSeq F, (∀ r, ∀ kv ∈ m r, 0 ≤ kv.1 ∧ kv.1 < len nn.InputLayer) →
      ∃ nn1 out, ForwardMap P nn m = some (nn1, out) ∧
        getAt nn1.InputLayer (len nn1.InputLayer - 1) = some 1 ∧
        getAt nn1.HiddenLayer (len nn1.HiddenLayer - 1) = some 1) := by
  have lI := len_eq_of_length hw.1
  constructor
  · intro v nn1 out hf
    by_cases hv : len v + 1 = len nn.InputLayer
    · obtain ⟨hid, out1, hf1, hlh, _, _, hb, _⟩ := Forward_spec P nn I H O hw v
        (by unfold len at hv lI; omega)
      rw [hf1] at hf
      cases hf
      refine ⟨?_, ?_⟩
      · show getAt (v ++ [1]) (len (v ++ [(1 : F)]) - 1) = some 1
        have : len (v ++ [(1 : F)]) - 1 = len v := by simp [len]
        rw [this, getAt_append_len]
      · show getAt hid (len hid - 1) = some 1
        rwa [show len hid - 1 = (H : Int) by omega]
    · unfold Forward at hf
      rw [if_pos hv] at hf
      cases hf
  · intro m hkeys
    obtain ⟨inp, hid, out, hf, hli, hlh, _, hbi, _, _, _, hbh, _⟩ := ForwardMap_spec P nn I H O hw m
      (fun r kv hkv => by have := hkeys r kv hkv; omega)
    refine ⟨_, out, hf, ?_, ?_⟩
    · show getAt inp (len inp - 1) = some 1
      rwa [show len inp - 1 = (I : Int) by omega]
    · show getAt hid (len hid - 1) = some 1
      rwa [show len hid - 1 = (H : Int) by omega]

/-- C3 at the network `net0`: the input `[1]` for `Forward`, and for `ForwardMap` a map
with the keys `1` (the bias index) and `0`. -/
theorem bias_invariant_witness :
    WellShaped net0 1 1 1 ∧
      (Forward ratMath net0 [1] = some (net0Forward, Except.ok [1 / 2]) ∧
        getAt net0Forward.InputLayer (len net0Forward.InputLayer - 1) = some 1 ∧
        getAt net0Forward.HiddenLayer (len net0Forward.HiddenLayer - 1) = some 1) ∧
      ∃ nn1 out, ForwardMap ratMath net0 (fun _ => [(1, 7), (0, 3)]) = some (nn1, out) ∧
        getAt nn1.InputLayer (len nn1.InputLayer - 1) = some 1 ∧
        getAt nn1.HiddenLayer (len nn1.HiddenLayer - 1) = some 1 :=
  ⟨by decide, ⟨by decide!, (bias_invariant ratMath net0 1 1 1 (by decide)).1 [1] net0Forward
      [1 / 2] (by decide!)⟩,
    (bias_invariant ratMath net0 1 1 1 (by decide)).2 (fun _ => [(1, 7), (0, 3)])
      (fun _ kv hkv => by
        simp only [List.mem_cons, List.mem_singleton, List.not_mem_nil, or_false] at hkv
        rcases hkv with rfl | rfl <;> decide)⟩

/-- C4: on a well-shaped network and an input `v` of length `I`, `Forward` returns
`nn.OutputLayer` and leaves: in `InputLayer`, `v` followed by `1.0`; in each hidden
unit `i < H`, the sigmoid of the sum over `j` in `[0, I]` of
`x[j] * WeightHidden[i][j]`, whether `Regression` is set or not, and `1.0` in unit
`H`; in each output unit `i`, the sum over `j` in `[0, H]` of
`HiddenLayer[j] * WeightOutput[i][j]` if `Regression` and its sigmoid otherwise;
and the weight and momentum matrices as they were. Sums are taken from the left
starting at `0`, as the loops do. -/
theorem Forward_computes (P : GoMath F) (nn : Net F) (I H O : Nat) (hw : WellShaped nn I H O)
    (v : List F) (hv : v.length = I) :
    ∃ nn1 out, Forward P nn v = some (nn1, Except.ok out) ∧ out = nn1.OutputLayer ∧
      nn1.InputLayer = v ++ [1] ∧
      (∀ i : Int, 0 ≤ i → i < (H : Int) → getAt nn1.HiddenLayer i = some (sigmoid P
        (sumOf (upTo ((I : Int) + 1)) fun j => valAt (v ++ [1]) j * valAt2 nn.WeightHidden i j))) ∧
      getAt nn1.HiddenLayer (H : Int) = some 1 ∧
      (∀ i : Int, 0 ≤ i → i < (O : Int) → getAt nn1.OutputLayer i = some
        (if nn.Regression then
          sumOf (upTo ((H : Int) + 1)) fun j => valAt nn1.HiddenLayer j * valAt2 nn.WeightOutput i j
        else sigmoid P
          (sumOf (upTo ((H : Int) + 1)) fun j =>
            valAt nn1.HiddenLayer j * valAt2 nn.WeightOutput i j))) ∧
      nn1.WeightHidden = nn.WeightHidden ∧ nn1.WeightOutput = nn.WeightOutput ∧
      nn1.LastChangeHidden = nn.LastChangeHidden ∧
      nn1.LastChangeOutput = nn.LastChangeOutput := by
  obtain ⟨hid, out, hf, _, _, hh, hb, ho⟩ := Forward_spec P nn I H O hw v hv
  exact ⟨_, out, hf, rfl, rfl, hh, hb, ho, rfl, rfl, rfl, rfl⟩

/-- C4 at the network `net0` and the input `[1]`. -/
theorem Forward_computes_witness :
    WellShaped net0 1 1 1 ∧ [(1 : ℚ)].length = 1 ∧
      ∃ nn1 out, Forward ratMath net0 [1] = some (nn1, Except.ok out) ∧ out = nn1.OutputLayer ∧
        nn1.InputLayer = [1] ++ [1] ∧
        (∀ i : Int, 0 ≤ i → i < ((1 : Nat) : Int) → getAt nn1.HiddenLayer i = some (sigmoid ratMath
          (sumOf (upTo (((1 : Nat) : Int) + 1)) fun j =>
            valAt ([1] ++ [1]) j * valAt2 net0.WeightHidden i j))) ∧
        getAt nn1.HiddenLayer ((1 : Nat) : Int) = some 1 ∧
        (∀ i : Int, 0 ≤ i → i < ((1 : Nat) : Int) → getAt nn1.OutputLayer i = some
          (if net0.Regression then
            sumOf (upTo (((1 : Nat) : Int) + 1)) fun j =>
              valAt nn1.HiddenLayer j * valAt2 net0.WeightOutput i j
          else sigmoid ratMath
            (sumOf (upTo (((1 : Nat) : Int) + 1)) fun j =>
              valAt nn1.HiddenLayer j * valAt2 net0.WeightOutput i j))) ∧
        nn1.WeightHidden = net0.WeightHidden ∧ nn1.WeightOutput = net0.WeightOutput ∧
        nn1.LastChangeHidden = net0.LastChangeHidden ∧
        nn1.LastChangeOutput = net0.LastChangeOutput :=
  ⟨by decide, by decide, Forward_computes ratMath net0 1 1 1 (by decide) [1] (by decide)⟩

/-- C5: on a well-shaped network and a target `t` of length `O`, `Feedback` returns
and, for every output unit `i` and every hidden index `j` in `[0, H]`, with
`delta = OutputLayer[i] - t[i]` if `Regression` and
`(OutputLayer[i] - t[i]) * dsigmoid(OutputLayer[i])` otherwise, and
`change = Rate1 * delta * HiddenLayer[j] + Rate2 * (old LastChangeOutput[i][j])`,
the new `WeightOutput[i][j]` is the old one minus `change` and the new
`LastChangeOutput[i][j]` is `change`. -/
theorem Feedback_updates_output_weights (nn : Net F) (I H O : Nat) (hw : WellShaped nn I H O)
    (t : List F) (ht : t.length = O) :
    ∃ nn1, Feedback nn t = some nn1 ∧
      ∀ i : Int, 0 ≤ i → i < (O : Int) → ∀ j : Int, 0 ≤ j → j ≤ (H : Int) →
        getAt2 nn1.WeightOutput i j = some (valAt2 nn.WeightOutput i j -
          (nn.Rate1 *
              (if nn.Regression then valAt nn.OutputLayer i - valAt t i
               else (valAt nn.OutputLayer i - valAt t i) * dsigmoid (valAt nn.OutputLayer i)) *
              valAt nn.HiddenLayer j +
            nn.Rate2 * valAt2 nn.LastChangeOutput i j)) ∧
        getAt2 nn1.LastChangeOutput i j = some
          (nn.Rate1 *
              (if nn.Regression then valAt nn.OutputLayer i - valAt t i
               else (valAt nn.OutputLayer i - valAt t i) * dsigmoid (valAt nn.OutputLayer i)) *
              valAt nn.HiddenLayer j +
            nn.Rate2 * valAt2 nn.LastChangeOutput i j) := by
  obtain ⟨eo, eh, W, L, W2, L2, hrun, _, _, _, _, _, _, hveo, _, _, hvW, _⟩ :=
    Feedback_spec nn I H O hw t (by unfold len; omega)
  refine ⟨_, hrun, ?_⟩
  intro i h0 h1 j hj0 hj1
  have := hvW i h0 h1 j hj0 (by omega)
  simp only [outputChange, valAt_of_getAt (hveo i h0 h1)] at this
  exact this

/-- C5 at the network `net0Forward` and the target `[0]`. -/
theorem Feedback_updates_output_weights_witness :
    WellShaped net0Forward 1 1 1 ∧ [(0 : ℚ)].length = 1 ∧
    ∃ nn1, Feedback net0Forward [0] = some nn1 ∧
      ∀ i : Int, 0 ≤ i → i < ((1 : Nat) : Int) → ∀ j : Int, 0 ≤ j → j ≤ ((1 : Nat) : Int) →
        getAt2 nn1.WeightOutput i j = some (valAt2 net0Forward.WeightOutput i j -
          (net0Forward.Rate1 *
              (if net0Forward.Regression then valAt net0Forward.OutputLayer i - valAt [0] i
               else (valAt net0Forward.OutputLayer i - valAt [0] i) *
                 dsigmoid (valAt net0Forward.OutputLayer i)) *
              valAt net0Forward.HiddenLayer j +
            net0Forward.Rate2 * valAt2 net0Forward.LastChangeOutput i j)) ∧
        getAt2 nn1.LastChangeOutput i j = some
          (net0Forward.Rate1 *
              (if net0Forward.Regression then valAt net0Forward.OutputLayer i - valAt [0] i
               else (valAt net0Forward.OutputLayer i - valAt [0] i) *
                 dsigmoid (valAt net0Forward.OutputLayer i)) *
              valAt net0Forward.HiddenLayer j +
            net0Forward.Rate2 * valAt2 net0Forward.LastChangeOutput i j) :=
  ⟨by decide, by decide,
    Feedback_updates_output_weights net0Forward 1 1 1 (by decide) [0] (by decide)⟩

/-- C6: on a well-shaped network and a target `t` of length `O`, `Feedback` returns
and, for every hidden unit `i < H`, `ErrHidden[i]` is the sum over the output
units `j` of `(OutputLayer[j] - t[j]) * W[j][i]`, times `dsigmoid(OutputLayer[j])`
unless `Regression`, where `W` is `WeightOutput` as it was before the call. The
first form is the one the code computes, with no factor in regression mode; the
second multiplies by `1` there, the same number as soon as `x * 1 = x`. -/
theorem Feedback_hidden_error {F : Type} [Zero F] [Add F] [Sub F] [MulOneClass F] [Div F] [Neg F]
    [OfScientific F] (nn : Net F) (I H O : Nat) (hw : WellShaped nn I H O)
    (t : List F) (ht : t.length = O) :
    ∃ nn1, Feedback nn t = some nn1 ∧
      ∀ i : Int, 0 ≤ i → i < (H : Int) →
        getAt nn1.ErrHidden i = some (sumOf (upTo (O : Int)) fun j =>
          if nn.Regression then
            (valAt nn.OutputLayer j - valAt t j) * valAt2 nn.WeightOutput j i
          else (valAt nn.OutputLayer j - valAt t j) * valAt2 nn.WeightOutput j i *
            dsigmoid (valAt nn.OutputLayer j)) ∧
        getAt nn1.ErrHidden i = some (sumOf (upTo (O : Int)) fun j =>
          (valAt nn.OutputLayer j - valAt t j) * valAt2 nn.WeightOutput j i *
            (if nn.Regression then 1 else dsigmoid (valAt nn.OutputLayer j))) := by
  obtain ⟨eo, eh, W, L, W2, L2, hrun, _, _, _, _, _, _, hveo, hveh, _⟩ :=
    Feedback_spec nn I H O hw t (by unfold len; omega)
  refine ⟨_, hrun, ?_⟩
  intro i h0 h1
  have key : ∀ (f g : Int → F), (∀ j ∈ upTo (O : Int), f j = g j) →
      sumOf (upTo (O : Int)) f = sumOf (upTo (O : Int)) g :=
    fun f g hfg => sumOf_congr _ f g hfg
  have e1 : getAt eh i = some (sumOf (upTo (O : Int)) fun j =>
          if nn.Regression then
            (valAt nn.OutputLayer j - valAt t j) * valAt2 nn.WeightOutput j i
          else (valAt nn.OutputLayer j - valAt t j) * valAt2 nn.WeightOutput j i *
            dsigmoid (valAt nn.OutputLayer j)) := by
    rw [hveh i h0 h1]
    congr 1
    apply key
    intro j hj
    obtain ⟨hj0, hj1⟩ := mem_upTo.mp hj
    rw [valAt_of_getAt (hveo j hj0 hj1)]
  refine ⟨e1, ?_⟩
  show getAt eh i = _
  rw [e1]
  congr 1
  apply key
  intro j _
  cases nn.Regression <;> simp

/-- C6 at the network `net0Forward` and the target `[0]`. -/
theorem Feedback_hidden_error_witness :
    WellShaped net0Forward 1 1 1 ∧ [(0 : ℚ)].length = 1 ∧
    ∃ nn1, Feedback net0Forward [0] = some nn1 ∧
      ∀ i : Int, 0 ≤ i → i < ((1 : Nat) : Int) →
        getAt nn1.ErrHidden i = some (sumOf (upTo ((1 : Nat) : Int)) fun j =>
          if net0Forward.Regression then
            (valAt net0Forward.OutputLayer j - valAt [0] j) * valAt2 net0Forward.WeightOutput j i
          else (valAt net0Forward.OutputLayer j - valAt [0] j) *
            valAt2 net0Forward.WeightOutput j i * dsigmoid (valAt net0Forward.OutputLayer j)) ∧
        getAt nn1.ErrHidden i = some (sumOf (upTo ((1 : Nat) : Int)) fun j =>
          (valAt net0Forward.OutputLayer j - valAt [0] j) * valAt2 net0Forward.WeightOutput j i *
            (if net0Forward.Regression then 1 else dsigmoid (valAt net0Forward.OutputLayer j))) :=
  ⟨by decide, by decide, Feedback_hidden_error net0Forward 1 1 1 (by decide) [0] (by decide)⟩

/-- C7: on a well-shaped network and a target `t` of length `O`, `Feedback` returns
and, for every hidden unit `i < H` and every input index `j` in `[0, I]`, the bias
column included, with `delta = ErrHidden[i] * dsigmoid(HiddenLayer[i])` for the
`ErrHidden` this call has just computed and
`change = Rate1 * delta * InputLayer[j] + Rate2 * (old LastChangeHidden[i][j])`,
the new `WeightHidden[i][j]` is the old one minus `change` and the new
`LastChangeHidden[i][j]` is `change`. -/
theorem Feedback_updates_hidden_weights (nn : Net F) (I H O : Nat) (hw : WellShaped nn I H O)
    (t : List F) (ht : t.length = O) :
    ∃ nn1, Feedback nn t = some nn1 ∧
      ∀ i : Int, 0 ≤ i → i < (H : Int) → ∀ j : Int, 0 ≤ j → j ≤ (I : Int) →
        getAt2 nn1.WeightHidden i j = some (valAt2 nn.WeightHidden i j -
          (nn.Rate1 * (valAt nn1.ErrHidden i * dsigmoid (valAt nn.HiddenLayer i)) *
              valAt nn.InputLayer j +
            nn.Rate2 * valAt2 nn.LastChangeHidden i j)) ∧
        getAt2 nn1.LastChangeHidden i j = some
          (nn.Rate1 * (valAt nn1.ErrHidden i * dsigmoid (valAt nn.HiddenLayer i)) *
              valAt nn.InputLayer j +
            nn.Rate2 * valAt2 nn.LastChangeHidden i j) := by
  obtain ⟨eo, eh, W, L, W2, L2, hrun, _, _, _, _, _, _, _, _, _, _, hvW2, _⟩ :=
    Feedback_spec nn I H O hw t (by unfold len; omega)
  refine ⟨_, hrun, ?_⟩
  intro i h0 h1 j hj0 hj1
  exact hvW2 i h0 h1 j hj0 (by omega)

/-- C7 at the network `net0Forward` and the target `[0]`. -/
theorem Feedback_updates_hidden_weights_witness :
    WellShaped net0Forward 1 1 1 ∧ [(0 : ℚ)].length = 1 ∧
    ∃ nn1, Feedback net0Forward [0] = some nn1 ∧
      ∀ i : Int, 0 ≤ i → i < ((1 : Nat) : Int) → ∀ j : Int, 0 ≤ j → j ≤ ((1 : Nat) : Int) →
        getAt2 nn1.WeightHidden i j = some (valAt2 net0Forward.WeightHidden i j -
          (net0Forward.Rate1 *
              (valAt nn1.ErrHidden i * dsigmoid (valAt net0Forward.HiddenLayer i)) *
              valAt net0Forward.InputLayer j +
            net0Forward.Rate2 * valAt2 net0Forward.LastChangeHidden i j)) ∧
        getAt2 nn1.LastChangeHidden i j = some
          (net0Forward.Rate1 *
              (valAt nn1.ErrHidden i * dsigmoid (valAt net0Forward.HiddenLayer i)) *
              valAt net0Forward.InputLayer j +
            net0Forward.Rate2 * valAt2 net0Forward.LastChangeHidden i j) :=
  ⟨by decide, by decide,
    Feedback_updates_hidden_weights net0Forward 1 1 1 (by decide) [0] (by decide)⟩

/-- C8, as stated, fails for a target longer than the output layer: `CalcError`
reads only the first `len(nn.OutputLayer)` entries of the target, so with
`OutputLayer = [0]` and the target `[0, 5]` it returns `0` although the two
sequences differ. -/
theorem CalcError_zero_on_longer_target :
    CalcError net0 [0, 5] = some 0 ∧ net0.OutputLayer ≠ [0, 5] := by
  decide!

/-- C8, amended: on `float64`, for an output layer and a target of finite values,
the target at least as long as the output layer, `CalcError` returns the sum,
accumulated from the left, of the terms `0.5 * err * err` with
`err = OutputLayer[i] - target[i]` over `i < len(OutputLayer)`; this value is a
number `≥ 0` or `+Inf`; and it is `0` when `OutputLayer[i] = target[i]` for every
`i < len(OutputLayer)`. -/
theorem CalcError_float_nonneg (nn : Net F64) (t : List F64)
    (ho : ∀ x ∈ nn.OutputLayer, ∃ q, x = F64.fin q) (ht : ∀ x ∈ t, ∃ q, x = F64.fin q)
    (hl : len nn.OutputLayer ≤ len t) :
    ∃ e, CalcError nn t = some e ∧
      e = sumOf (upTo (len nn.OutputLayer)) (fun i =>
        0.5 * (valAt nn.OutputLayer i - valAt t i) * (valAt nn.OutputLayer i - valAt t i)) ∧
      (e = F64.inf false ∨ ∃ q, e = F64.fin q ∧ 0 ≤ q) ∧
      ((∀ i, 0 ≤ i → i < len nn.OutputLayer → getAt nn.OutputLayer i = getAt t i) → e = 0) := by
  refine ⟨_, CalcError_eq nn t hl, rfl, ?_, ?_⟩
  · unfold sumOf
    refine foldl_nonnegF _ _ (fun k hk => ?_) _ (Or.inr ⟨0, rfl, le_rfl⟩)
    obtain ⟨h0, h1⟩ := mem_upTo.mp hk
    obtain ⟨a, ha⟩ := ho _ (mem_of_getAt (getAt_eq_valAt h0 h1))
    obtain ⟨b, hb⟩ := ht _ (mem_of_getAt (getAt_eq_valAt h0 (show k < len t by omega)))
    rw [ha, hb]
    exact half_sq_nonnegF _ (sub_fin_ne_nan a b)
  · intro heq
    unfold sumOf
    refine foldl_zeroF _ _ (fun k hk => ?_)
    obtain ⟨h0, h1⟩ := mem_upTo.mp hk
    obtain ⟨a, ha⟩ := ho _ (mem_of_getAt (getAt_eq_valAt h0 h1))
    have e : valAt t k = valAt nn.OutputLayer k := by
      unfold valAt
      rw [heq k h0 h1]
    rw [e, ha]
    exact half_sq_selfF a

/-- C8, amended, at the output layer `[0.5, 3]` and the target `[0.5, 3, 7]`. -/
theorem CalcError_float_nonneg_witness :
    (∀ x ∈ (netOut [F64.fin (1 / 2), F64.fin 3]).OutputLayer, ∃ q, x = F64.fin q) ∧
    (∀ x ∈ [F64.fin (1 / 2), F64.fin 3, F64.fin 7], ∃ q, x = F64.fin q) ∧
    len (netOut [F64.fin (1 / 2), F64.fin 3]).OutputLayer ≤
      len [F64.fin (1 / 2), F64.fin 3, F64.fin 7] ∧
    ∃ e, CalcError (netOut [F64.fin (1 / 2), F64.fin 3])
        [F64.fin (1 / 2), F64.fin 3, F64.fin 7] = some e ∧
      e = sumOf (upTo (len (netOut [F64.fin (1 / 2), F64.fin 3]).OutputLayer)) (fun i =>
        0.5 * (valAt (netOut [F64.fin (1 / 2), F64.fin 3]).OutputLayer i -
            valAt [F64.fin (1 / 2), F64.fin 3, F64.fin 7] i) *
          (valAt (netOut [F64.fin (1 / 2), F64.fin 3]).OutputLayer i -
            valAt [F64.fin (1 / 2), F64.fin 3, F64.fin 7] i)) ∧
      (e = F64.inf false ∨ ∃ q, e = F64.fin q ∧ 0 ≤ q) ∧
      ((∀ i, 0 ≤ i → i < len (netOut [F64.fin (1 / 2), F64.fin 3]).OutputLayer →
        getAt (netOut [F64.fin (1 / 2), F64.fin 3]).OutputLayer i =
          getAt [F64.fin (1 / 2), F64.fin 3, F64.fin 7] i) → e = 0) :=
  have ho : ∀ x ∈ (netOut [F64.fin (1 / 2), F64.fin 3]).OutputLayer, ∃ q, x = F64.fin q := by
    intro x hx
    simp only [netOut, List.mem_cons, List.mem_singleton, List.not_mem_nil, or_false] at hx
    rcases hx with rfl | rfl
    · exact ⟨_, rfl⟩
    · exact ⟨_, rfl⟩
  have ht : ∀ x ∈ [F64.fin (1 / 2), F64.fin 3, F64.fin 7], ∃ q, x = F64.fin q := by
    intro x hx
    simp only [List.mem_cons, List.mem_singleton, List.not_mem_nil, or_false] at hx
    rcases hx with rfl | rfl | rfl
    · exact ⟨_, rfl⟩
    · exact ⟨_, rfl⟩
    · exact ⟨_, rfl⟩
  ⟨ho, ht, by decide,
    CalcError_float_nonneg (netOut [F64.fin (1 / 2), F64.fin 3])
      [F64.fin (1 / 2), F64.fin 3, F64.fin 7] ho ht (by decide)⟩

/-- On `float64` a result `0` of `CalcError` does not say that the output layer
equals the target even when the two are equally long: with the output
`2^(-600)` and the target `0` the square of the residual is below every
positive `float64` and rounds to `0`. -/
theorem CalcError_underflow :
    CalcError (netOut [F64.fin (1 / 2 ^ 600)]) [F64.fin 0] = some 0 ∧
    F64.round (1 / 2 ^ 600) = F64.fin (1 / 2 ^ 600) ∧ F64.fin (1 / 2 ^ 600) ≠ F64.fin 0 := by
  decide!

/-- In exact arithmetic (an ordered field), whatever `CalcError` returns is
`≥ 0`; and for a target as long as the output layer it returns, and what it
returns is `0` if and only if `OutputLayer` equals the target. -/
theorem CalcError_nonneg_zero_iff {F : Type} [LinearOrderedField F] (nn : Net F) (t : List F) :
    (∀ e, CalcError nn t = some e → 0 ≤ e) ∧
    (t.length = nn.OutputLayer.length →
      ∃ e, CalcError nn t = some e ∧ 0 ≤ e ∧ (e = 0 ↔ nn.OutputLayer = t)) := by
  have hnonneg : ∀ e, CalcError nn t = some e → 0 ≤ e := by
    intro e he
    unfold CalcError sumLoop at he
    refine forEach_add_nonneg _ _ ?_ 0 e le_rfl he
    intro k v hv
    obtain ⟨o, _, hv1⟩ := Option.bind_eq_some.mp hv
    obtain ⟨x, _, rfl⟩ := Option.map_eq_some'.mp hv1
    exact half_sq_nonneg _
  refine ⟨hnonneg, ?_⟩
  intro hlen
  have hl : len t = len nn.OutputLayer := by unfold len; omega
  have hrun : CalcError nn t = some (sumOf (upTo (len nn.OutputLayer)) fun i =>
      (0.5 : F) * (valAt nn.OutputLayer i - valAt t i) * (valAt nn.OutputLayer i - valAt t i)) := by
    unfold CalcError
    apply sumLoop_eq
    intro k hk
    obtain ⟨h0, h1⟩ := mem_upTo.mp hk
    simp [getAt_eq_valAt h0 h1, getAt_eq_valAt h0 (show k < len t by omega)]
  refine ⟨_, hrun, hnonneg _ hrun, ?_⟩
  unfold sumOf
  rw [foldl_add_eq_zero_iff _ _ (fun k _ => half_sq_nonneg _) 0 le_rfl]
  simp only [true_and, half_sq_eq_zero_iff, sub_eq_zero]
  constructor
  · intro h
    apply ext_getAt
    intro k
    by_cases hk : 0 ≤ k ∧ k < len nn.OutputLayer
    · rw [getAt_eq_valAt hk.1 hk.2, getAt_eq_valAt hk.1 (show k < len t by omega),
        h k (mem_upTo.mpr hk)]
    · rw [(getAt_eq_none_iff _ _).mpr hk, (getAt_eq_none_iff _ _).mpr (by rw [hl]; exact hk)]
  · intro h k _
    rw [h]

/-- C9: for non-empty `inputs` and `targets`, with first elements `v` and `t`: if
`len(v)` is not `len(nn.InputLayer) - 1`, or `len(t)` is not `len(nn.OutputLayer)`,
`Train` returns an error and the network is the one it was given; `TrainMap`
does the same, with whatever maps it is given, when `len(t)` is not
`len(nn.OutputLayer)`. -/
theorem Train_checks_first_sample (P : GoMath F) (draws : Nat → F) (nn : Net F)
    (v : List F) (rest : List (List F)) (t : List F) (trest : List (List F))
    (iteration : Int) :
    ((len v ≠ len nn.InputLayer - 1 ∨ len t ≠ len nn.OutputLayer) →
      ∃ e, Train P draws nn (v :: rest) (t :: trest) iteration = some (nn, Except.error e)) ∧
    (∀ minputs : List (Nat → RangeSeq F), len t ≠ len nn.OutputLayer →
      TrainMap P draws nn minputs (t :: trest) iteration =
        some (nn, Except.error ShapeError.output)) := by
  constructor
  · intro h
    unfold Train
    have h0 : getAt (v :: rest) 0 = some v := by simp [getAt]
    have h1 : getAt (t :: trest) 0 = some t := by simp [getAt]
    rw [h0]
    simp only [Option.some_bind]
    by_cases hv : len v + 1 ≠ len nn.InputLayer
    · exact ⟨ShapeError.input, by rw [if_pos hv]⟩
    · rw [if_neg hv, h1]
      simp only [Option.some_bind]
      have ht : len t ≠ len nn.OutputLayer := by
        rcases h with h | h
        · exact absurd (by omega) hv
        · exact h
      exact ⟨ShapeError.output, by rw [if_pos ht]⟩
  · intro minputs ht
    unfold TrainMap
    have h1 : getAt (t :: trest) 0 = some t := by simp [getAt]
    rw [h1]
    simp only [Option.some_bind]
    rw [if_pos ht]

/-- C9 at the network `net0`: a first input of length two for `Train`, a first target
of length two for `TrainMap`. -/
theorem Train_checks_first_sample_witness :
    (len [(1 : ℚ), 2] ≠ len net0.InputLayer - 1 ∨ len [(0 : ℚ)] ≠ len net0.OutputLayer) ∧
    (∃ e, Train ratMath (fun _ => 0) net0 [[1, 2], [3]] [[0], [1]] 5 =
      some (net0, Except.error e)) ∧
    len [(0 : ℚ), 0] ≠ len net0.OutputLayer ∧
    TrainMap ratMath (fun _ => 0) net0 [fun _ _ => [(0, 1)]] [[0, 0], [1]] 5 =
      some (net0, Except.error ShapeError.output) :=
  ⟨Or.inl (by decide),
    (Train_checks_first_sample ratMath (fun _ => 0) net0 [1, 2] [[3]] [0] [[1]] 5).1
      (Or.inl (by decide)),
    by decide,
    (Train_checks_first_sample ratMath (fun _ => 0) net0 [1] [] [0, 0] [[1]] 5).2
      [fun _ _ => [(0, 1)]] (by decide)⟩

/-- C10 fails on the code: a map with every feature index and no other key leaves
the bias index out, and the sparse loops run over the keys of the map only,
although `ForwardMap` sets the bias input as `Forward` does.
On the well-shaped network `net0` (sizes `(1, 1, 1)`), the sample `[1] ↦ [0]` and
the map with the single entry `0 ↦ 1`, the dense path changes the bias weight
`WeightHidden[0][1]` to `-1/8` and the sparse path leaves it `0`; so do `Train`
and `TrainMap` over one epoch. All sums are `0` here, where `sigmoid` is `1/2`. -/
theorem sparse_path_skips_bias :
    WellShaped net0 1 1 1 ∧ IsFeatureMap [1] (fun _ => [((0 : Int), (1 : ℚ))]) ∧
    (denseRun ratMath [([1], [0])] net0).map (fun n => (n.WeightHidden, n.WeightOutput)) =
      some ([[-1 / 8, -1 / 8], [0, 0]], [[3 / 4, -1 / 2]]) ∧
    (sparseRun ratMath [((fun _ => [(0, 1)], fun _ => [(0, 1)]), [0])] net0).map
        (fun n => (n.WeightHidden, n.WeightOutput)) =
      some ([[-1 / 8, 0], [0, 0]], [[3 / 4, -1 / 2]]) ∧
    (Train ratMath (fun _ => 0) net0 [[1]] [[0]] 1).map (fun r => r.1.WeightHidden) =
      some [[-1 / 8, -1 / 8], [0, 0]] ∧
    (TrainMap ratMath (fun _ => 0) net0 [fun _ _ => [(0, 1)]] [[0]] 1).map
        (fun r => r.1.WeightHidden) =
      some [[-1 / 8, 0], [0, 0]] := by
  refine ⟨by decide, ⟨[(0, 1)], ⟨by decide, fun _ => List.Perm.refl _⟩, by decide, ?_⟩,
    by decide!, by decide!, by decide!, by decide!⟩
  intro kv hkv
  rw [List.mem_singleton.mp hkv]
  rfl

/-- What the sparse path does when the bias index is among the keys, in exact
arithmetic: on a well-shaped network, for samples whose vectors have length
`I` and whose targets have length `O`, and maps that hold every index `0 .. I`
(each feature index with the value of the dense vector, the bias index `I` with
any value), the sparse path (`ForwardMap` then `FeedbackMap` per sample) and the
dense path (`Forward` then `Feedback` per sample) over the samples in the same
order both complete and leave the same network, hence the same `WeightHidden`
and `WeightOutput`, whatever order each `range` enumerates the maps in,
provided addition is associative and commutative. -/
theorem sparse_dense_equivalence {F : Type} [AddCommMonoid F] [One F] [Sub F] [Mul F] [Div F]
    [Neg F] [OfScientific F] (P : GoMath F) (nn : Net F) (I H O : Nat)
    (hw : WellShaped nn I H O)
    (samples : List (List F × (RangeSeq F × RangeSeq F) × List F))
    (hs : ∀ s ∈ samples, s.1.length = I ∧ s.2.2.length = O ∧
      IsDenseMap s.1 s.2.1.1 ∧ IsDenseMap s.1 s.2.1.2) :
    ∃ nn1 nn2, denseRun P (samples.map fun s => (s.1, s.2.2)) nn = some nn1 ∧
      sparseRun P (samples.map fun s => (s.2.1, s.2.2)) nn = some nn2 ∧
      nn1.WeightHidden = nn2.WeightHidden ∧ nn1.WeightOutput = nn2.WeightOutput ∧
      nn1 = nn2 := by
  suffices h : ∃ nn1, denseRun P (samples.map fun s => (s.1, s.2.2)) nn = some nn1 ∧
      sparseRun P (samples.map fun s => (s.2.1, s.2.2)) nn = some nn1 by
    obtain ⟨nn1, h1, h2⟩ := h
    exact ⟨nn1, nn1, h1, h2, rfl, rfl, rfl⟩
  induction samples generalizing nn with
  | nil => exact ⟨nn, rfl, rfl⟩
  | cons s rest ih =>
    obtain ⟨hv, ht, hmf, hmb⟩ := hs s (List.mem_cons_self _ _)
    obtain ⟨n1, out, hf, hfm, hw1⟩ := ForwardMap_dense P nn I H O hw s.1 hv s.2.1.1 hmf
    have hlt : (O : Int) ≤ len s.2.2 := by unfold len; omega
    obtain ⟨n2, hb, hw2⟩ := Feedback_wellShaped n1 I H O hw1 s.2.2 hlt
    have hbm : FeedbackMap n1 s.2.2 s.2.1.2 = some n2 := by
      rw [FeedbackMap_dense n1 I H O hw1 s.2.2 hlt s.2.1.2 ?_, hb]
      obtain ⟨es, ⟨_, henum⟩, hkeys, _⟩ := hmb
      intro r
      have := ((henum r).map Prod.fst).trans hkeys
      rw [len_eq_of_length hv] at this
      exact this
    obtain ⟨nn1, h1, h2⟩ := ih n2 hw2 (fun s1 hs1 => hs s1 (List.mem_cons_of_mem _ hs1))
    refine ⟨nn1, ?_, ?_⟩
    · unfold denseRun at h1 ⊢
      simp only [List.map_cons, forEach, hf, Option.some_bind, hb]
      exact h1
    · unfold sparseRun at h2 ⊢
      simp only [List.map_cons, forEach, hfm, Option.some_bind, hbm]
      exact h2

/-- C11: on a well-shaped network and a map with the entries `es`, all at
non-bias indices of the input layer, `ForwardMap` returns and leaves: at every
key of the map the value of the map; at every non-bias index that is no key the
value `InputLayer` had before; and in each hidden unit `i < H` the sigmoid of the
sum of `InputLayer[j] * WeightHidden[i][j]` over the keys `j` of the map and over
nothing else, in the order in which the `range` of that unit delivers them. -/
theorem ForwardMap_sparse_update (P : GoMath F) (nn : Net F) (I H O : Nat)
    (hw : WellShaped nn I H O) (m : RangeSeq F) (es : List (Int × F)) (hm : Enumerates m es)
    (hkeys : ∀ kv ∈ es, 0 ≤ kv.1 ∧ kv.1 < (I : Int)) :
    ∃ nn1 out, ForwardMap P nn m = some (nn1, out) ∧
      (∀ kv ∈ es, getAt nn1.InputLayer kv.1 = some kv.2) ∧
      (∀ k : Int, 0 ≤ k → k < (I : Int) → (∀ kv ∈ es, kv.1 ≠ k) →
        getAt nn1.InputLayer k = getAt nn.InputLayer k) ∧
      (∀ i : Int, 0 ≤ i → i < (H : Int) →
        ((m (i.toNat + 1)).map Prod.fst).Perm (es.map Prod.fst) ∧
        getAt nn1.HiddenLayer i = some (sigmoid P
          (sumOf ((m (i.toNat + 1)).map Prod.fst)
            fun j => valAt nn1.InputLayer j * valAt2 nn.WeightHidden i j))) := by
  obtain ⟨hnd, henum⟩ := hm
  obtain ⟨inp, hid, out, hf, _, _, _, _, hkeep, hput, hhid, _⟩ := ForwardMap_spec P nn I H O hw m
    (fun r kv hkv => by
      have := hkeys kv ((henum r).mem_iff.mp hkv)
      omega)
  refine ⟨_, out, hf, ?_, ?_, ?_⟩
  · intro kv hkv
    have h0 : kv ∈ m 0 := (henum 0).mem_iff.mpr hkv
    exact hput (((henum 0).map Prod.fst).nodup_iff.mpr hnd) kv h0
      (by have := hkeys kv hkv; omega)
  · intro k _ hk hne
    exact hkeep k (fun kv hkv => hne kv ((henum 0).mem_iff.mp hkv)) (by omega)
  · intro i h0 h1
    exact ⟨(henum _).map Prod.fst, hhid i h0 h1⟩

/-- C11 at the network `net0` and the map with the single entry `0 ↦ 3`. -/
theorem ForwardMap_sparse_update_witness :
    WellShaped net0 1 1 1 ∧ Enumerates (fun _ => [((0 : Int), (3 : ℚ))]) [(0, 3)] ∧
    (∀ kv ∈ [((0 : Int), (3 : ℚ))], 0 ≤ kv.1 ∧ kv.1 < ((1 : Nat) : Int)) ∧
    ∃ nn1 out, ForwardMap ratMath net0 (fun _ => [(0, 3)]) = some (nn1, out) ∧
      (∀ kv ∈ [((0 : Int), (3 : ℚ))], getAt nn1.InputLayer kv.1 = some kv.2) ∧
      (∀ k : Int, 0 ≤ k → k < ((1 : Nat) : Int) → (∀ kv ∈ [((0 : Int), (3 : ℚ))], kv.1 ≠ k) →
        getAt nn1.InputLayer k = getAt net0.InputLayer k) ∧
      (∀ i : Int, 0 ≤ i → i < ((1 : Nat) : Int) →
        (((fun _ => [((0 : Int), (3 : ℚ))]) (i.toNat + 1)).map Prod.fst).Perm
          ([((0 : Int), (3 : ℚ))].map Prod.fst) ∧
        getAt nn1.HiddenLayer i = some (sigmoid ratMath
          (sumOf (((fun _ => [((0 : Int), (3 : ℚ))]) (i.toNat + 1)).map Prod.fst)
            fun j => valAt nn1.InputLayer j * valAt2 net0.WeightHidden i j))) :=
  have hk : ∀ kv ∈ [((0 : Int), (3 : ℚ))], 0 ≤ kv.1 ∧ kv.1 < ((1 : Nat) : Int) := by
    intro kv hkv
    rw [List.mem_singleton.mp hkv]
    decide
  have he : Enumerates (fun _ => [((0 : Int), (3 : ℚ))]) [(0, 3)] :=
    ⟨by decide, fun _ => List.Perm.refl _⟩
  ⟨by decide, he, hk,
    ForwardMap_sparse_update ratMath net0 1 1 1 (by decide) (fun _ => [(0, 3)]) [(0, 3)] he hk⟩

/-- C12, as stated, fails on `float64`: `sigmoid(37)` and `sigmoid(40)` are both
exactly `1`, since `1.0 + math.Pow(math.E, -37)` rounds to `1.0`, and
`sigmoid(-710)` is exactly `0`, since `math.Pow(math.E, 710)` is `+Inf`. -/
theorem sigmoid_saturates :
    sigmoid f64Math (F64.fin 37) = 1 ∧ sigmoid f64Math (F64.fin 40) = 1 ∧
    sigmoid f64Math (F64.fin (-710)) = 0 := by
  decide!

/-- C12, amended: on `float64`, `sigmoid(x)` is `1.0 / (1.0 + math.Pow(math.E, -x))`.
Where `math.Pow(math.E, -x)` is a number `p ≥ 0`, `sigmoid(x)` is a number in the
closed interval `[0, 1]`, and it is exactly `1` when `p ≤ 2^(-53)`; where it is
`+Inf`, `sigmoid(x)` is exactly `0`. With `math.Pow(math.E, -0) = 1`,
`sigmoid(0)` is `0.5`. And a smaller `p` never gives a smaller `sigmoid`. -/
theorem sigmoid_float_range (P : GoMath F64) :
    (∀ x, sigmoid P x = 1 / (1 + P.Pow P.E (-x))) ∧
    (∀ x p, P.Pow P.E (-x) = F64.fin p → 0 ≤ p →
      ∃ s, sigmoid P x = F64.fin s ∧ 0 ≤ s ∧ s ≤ 1 ∧ (p ≤ 1 / 2 ^ 53 → s = 1)) ∧
    (∀ x, P.Pow P.E (-x) = F64.inf false → sigmoid P x = 0) ∧
    (P.Pow P.E (-0) = 1 → sigmoid P 0 = 0.5) ∧
    (∀ x y p q sx sy, P.Pow P.E (-x) = F64.fin p → P.Pow P.E (-y) = F64.fin q →
      0 ≤ q → q ≤ p → sigmoid P x = F64.fin sx → sigmoid P y = F64.fin sy → sx ≤ sy) := by
  have hbound : ∀ x p, P.Pow P.E (-x) = F64.fin p → 0 ≤ p →
      ∃ s, sigmoid P x = F64.fin s ∧ 0 ≤ s ∧ s ≤ 1 ∧ (p ≤ 1 / 2 ^ 53 → s = 1) := by
    intro x p hp h0
    have hs := sigmoid_fin P x p hp h0
    have h1 := one_le_roundQ h0
    obtain ⟨_, d0, d1⟩ := one_div_fin h1
    have e1 : roundQ (1 + 1 / 2 ^ 53) = 1 := by decide!
    have hsat : p ≤ 1 / 2 ^ 53 → roundQ (1 + p) = 1 := by
      intro hle
      have := roundQ_mono (show (0 : ℚ) ≤ 1 + p by linarith)
        (show 1 + p ≤ 1 + 1 / 2 ^ 53 by linarith)
      rw [e1] at this
      exact le_antisymm this h1
    by_cases hov : pow2 1024 ≤ roundQ (1 + p)
    · rw [if_pos hov] at hs
      refine ⟨0, hs, le_rfl, by norm_num, fun hle => ?_⟩
      rw [hsat hle] at hov
      exact absurd hov (not_le.mpr pow2_1024_gt_one)
    · rw [if_neg hov] at hs
      refine ⟨_, hs, d0, d1, fun hle => ?_⟩
      rw [hsat hle]
      norm_num [roundQ_one]
  refine ⟨fun x => rfl, hbound, ?_, ?_, ?_⟩
  · intro x hp
    unfold sigmoid
    rw [hp]
    rfl
  · intro hp
    unfold sigmoid
    rw [hp]
    decide!
  · intro x y p q sx sy hp hq h0 hqp hsx hsy
    have hp0 : 0 ≤ p := h0.trans hqp
    rw [sigmoid_fin P x p hp hp0] at hsx
    rw [sigmoid_fin P y q hq h0] at hsy
    have hy1 := one_le_roundQ h0
    have hx1 := one_le_roundQ hp0
    have hmono := roundQ_mono (show (0 : ℚ) ≤ 1 + q by linarith)
      (show 1 + q ≤ 1 + p by linarith)
    obtain ⟨_, dy0, _⟩ := one_div_fin hy1
    by_cases hovx : pow2 1024 ≤ roundQ (1 + p)
    · rw [if_pos hovx] at hsx
      have : sx = 0 := (F64.fin.inj hsx).symm
      rw [this]
      by_cases hovy : pow2 1024 ≤ roundQ (1 + q)
      · rw [if_pos hovy] at hsy
        exact (F64.fin.inj hsy).le
      · rw [if_neg hovy] at hsy
        rw [← F64.fin.inj hsy]
        exact dy0
    · rw [if_neg hovx] at hsx
      have hovy : ¬ pow2 1024 ≤ roundQ (1 + q) := fun h => hovx (h.trans hmono)
      rw [if_neg hovy] at hsy
      rw [← F64.fin.inj hsx, ← F64.fin.inj hsy]
      apply roundQ_mono (by positivity)
      exact one_div_le_one_div_of_le (by linarith) hmono

/-- C12, amended, at the library `f64Math` and the arguments `0` and `37`. -/
theorem sigmoid_float_range_witness :
    f64Math.Pow f64Math.E (-0) = 1 ∧ sigmoid f64Math 0 = 0.5 ∧
    f64Math.Pow f64Math.E (-(F64.fin 37)) =
      F64.fin (roundQ ((6121026514868073 / 2 ^ 51) ^ (-37 : Int))) ∧
    (0 : ℚ) ≤ roundQ ((6121026514868073 / 2 ^ 51) ^ (-37 : Int)) ∧
    ∃ s, sigmoid f64Math (F64.fin 37) = F64.fin s ∧ 0 ≤ s ∧ s ≤ 1 ∧
      (roundQ ((6121026514868073 / 2 ^ 51) ^ (-37 : Int)) ≤ 1 / 2 ^ 53 → s = 1) :=
  have h0 : f64Math.Pow f64Math.E (-0) = 1 := by decide!
  have h37 : f64Math.Pow f64Math.E (-(F64.fin 37)) =
      F64.fin (roundQ ((6121026514868073 / 2 ^ 51) ^ (-37 : Int))) := by decide!
  have hp : (0 : ℚ) ≤ roundQ ((6121026514868073 / 2 ^ 51) ^ (-37 : Int)) :=
    roundQ_nonneg (by positivity)
  ⟨h0, (sigmoid_float_range f64Math).2.2.2.1 h0, h37, hp,
    (sigmoid_float_range f64Math).2.1 (F64.fin 37) _ h37 hp⟩

/-- In real arithmetic, with `math.Pow` the real power and `math.E` the
number `e`, `sigmoid(x)` lies strictly between `0` and `1` for every `x`,
`sigmoid(0)` is `0.5`, and `x < y` implies `sigmoid(x) < sigmoid(y)`. -/
theorem sigmoid_range (P : GoMath ℝ) (hE : P.E = Real.exp 1)
    (hPow : ∀ b x : ℝ, 0 < b → P.Pow b x = b ^ x) :
    (∀ x : ℝ, 0 < sigmoid P x ∧ sigmoid P x < 1) ∧ sigmoid P 0 = 0.5 ∧
    (∀ x y : ℝ, x < y → sigmoid P x < sigmoid P y) := by
  have hs : ∀ x : ℝ, sigmoid P x = 1 / (1 + Real.exp (-x)) := by
    intro x
    unfold sigmoid
    rw [hE, hPow _ _ (Real.exp_pos 1), Real.exp_one_rpow]
  refine ⟨fun x => ?_, ?_, fun x y hxy => ?_⟩
  · rw [hs]
    have h := Real.exp_pos (-x)
    constructor
    · positivity
    · rw [div_lt_one (by linarith)]
      linarith
  · rw [hs]
    norm_num
  · rw [hs, hs]
    have hx := Real.exp_pos (-x)
    have hy := Real.exp_pos (-y)
    have : Real.exp (-y) < Real.exp (-x) := Real.exp_lt_exp.mpr (by linarith)
    exact one_div_lt_one_div_of_lt (by linarith) (by linarith)

/-- C13, as stated, fails on `float64`: at `y = 0.5 + 2^(-53)`, the `float64`
next above `0.5`, the product `y * (1.0 - y)` rounds to `0.25`, so `dsigmoid(y)`
is `0.25` although `y` is not `0.5`. -/
theorem dsigmoid_quarter_off_half :
    F64.round (1 / 2 + 1 / 2 ^ 53) = F64.fin (1 / 2 + 1 / 2 ^ 53) ∧
    F64.fin (1 / 2 + 1 / 2 ^ 53) ≠ 0.5 ∧
    dsigmoid (F64.fin (1 / 2 + 1 / 2 ^ 53)) = 0.25 := by
  decide!

/-- C13, amended: on `float64`, for every `y` of the format with `0 < y < 1`,
`dsigmoid(y)` is the product `y * (1.0 - y)` as the format rounds it, a number
`d` with `0 < d ≤ 0.25`; and `dsigmoid(0.5)` is `0.25`. -/
theorem dsigmoid_float_range (y : ℚ) (hy : F64.round y = F64.fin y) (h0 : 0 < y) (h1 : y < 1) :
    dsigmoid (F64.fin y) = F64.fin y * (1 - F64.fin y) ∧
    (∃ d, dsigmoid (F64.fin y) = F64.fin d ∧ 0 < d ∧ d ≤ 1 / 4) ∧
    dsigmoid (0.5 : F64) = 0.25 ∧ (0.25 : F64) = F64.fin (1 / 4) := by
  refine ⟨rfl, ⟨_, (dsigmoid_fin h0 h1).1, dsigmoid_pos (roundQ_of_round hy) h0 h1,
    dsigmoid_le_quarter h0 h1⟩, by decide!, by decide!⟩

/-- C13, amended, at `y = 0.25`. -/
theorem dsigmoid_float_range_witness :
    F64.round (1 / 4) = F64.fin (1 / 4) ∧ (0 : ℚ) < 1 / 4 ∧ (1 / 4 : ℚ) < 1 ∧
    dsigmoid (F64.fin (1 / 4)) = F64.fin (1 / 4) * (1 - F64.fin (1 / 4)) ∧
    (∃ d, dsigmoid (F64.fin (1 / 4)) = F64.fin d ∧ 0 < d ∧ d ≤ 1 / 4) ∧
    dsigmoid (0.5 : F64) = 0.25 ∧ (0.25 : F64) = F64.fin (1 / 4) :=
  ⟨by decide!, by norm_num, by norm_num,
    dsigmoid_float_range (1 / 4) (by decide!) (by norm_num) (by norm_num)⟩

/-- In exact arithmetic (an ordered field), for `0 < y < 1` the value
`dsigmoid(y) = y * (1 - y)` satisfies `0 < dsigmoid(y) ≤ 0.25`, and it is `0.25`
exactly when `y = 0.5`. -/
theorem dsigmoid_range {F : Type} [LinearOrderedField F] (y : F) (h0 : 0 < y) (h1 : y < 1) :
    dsigmoid y = y * (1 - y) ∧ 0 < dsigmoid y ∧ dsigmoid y ≤ 0.25 ∧
    (dsigmoid y = 0.25 ↔ y = 0.5) := by
  have e : (0.25 : F) - y * (1 - y) = (y - 1 / 2) ^ 2 := by norm_num; ring
  have hsq := sq_nonneg (y - 1 / 2)
  refine ⟨rfl, ?_, ?_, ?_⟩
  · unfold dsigmoid
    exact mul_pos h0 (by linarith)
  · unfold dsigmoid
    linarith
  · unfold dsigmoid
    constructor
    · intro h
      have h2 : (y - 1 / 2) ^ 2 = 0 := by rw [← e, h, sub_self]
      have h3 : y - 1 / 2 = 0 := pow_eq_zero_iff (two_ne_zero) |>.mp h2
      norm_num
      linarith
    · intro h
      rw [h]
      norm_num

/-- C14, as stated, fails: `New` and `Defaultk` test none of their arguments and
have no error result; for the sizes `(0, 0, 0)` both return a network. -/
theorem New_accepts_zero_sizes :
    New (fun _ _ => (0 : ℚ)) (fun _ _ => (0 : ℚ)) 0 0 0 false (1 / 4) (1 / 10) = some netZero ∧
    Defaultk (fun _ _ => (0 : ℚ)) (fun _ _ => (0 : ℚ)) 0 0 0 false = some netZero := by
  decide!

/-- C14, amended: `New` and `Defaultk` test none of their arguments and have no
error result. When a count is negative after the increment, which is so for
`inputCount < -1`, `hiddenCount < -1`, `outputCount < 0` and for `inputCount` or
`hiddenCount` equal to `math.MaxInt64`, they return nothing: `make` panics. For
sizes from `-1` (`outputCount`: from `0`) up to `1024`, the non-positive sizes
`0` and `-1` among them, they return a network whose layers have the lengths
`inputCount + 1`, `hiddenCount + 1` and `outputCount`. -/
theorem New_validates_nothing (srcH srcO : Nat → Nat → F) (I H O : Int) (reg : Bool)
    (r1 r2 : F) :
    ((I < -1 ∨ H < -1 ∨ O < 0 ∨ I = 2 ^ 63 - 1 ∨ H = 2 ^ 63 - 1) →
      New srcH srcO I H O reg r1 r2 = none ∧ Defaultk srcH srcO I H O reg = none) ∧
    (-1 ≤ I → I ≤ 1024 → -1 ≤ H → H ≤ 1024 → 0 ≤ O → O ≤ 1024 →
      ∃ nn nd, New srcH srcO I H O reg r1 r2 = some nn ∧
        Defaultk srcH srcO I H O reg = some nd ∧
        len nn.InputLayer = I + 1 ∧ len nn.HiddenLayer = H + 1 ∧ len nn.OutputLayer = O ∧
        len nd.InputLayer = I + 1 ∧ len nd.HiddenLayer = H + 1 ∧ len nd.OutputLayer = O) := by
  have hnone : (I < -1 ∨ H < -1 ∨ O < 0 ∨ I = 2 ^ 63 - 1 ∨ H = 2 ^ 63 - 1) →
      ∀ r1 r2 : F, New srcH srcO I H O reg r1 r2 = none := by
    intro h r1 r2
    unfold New make
    by_cases hI : 0 ≤ incInt I
    · by_cases hH : 0 ≤ incInt H
      · have hO : ¬ 0 ≤ O := by
          rcases h with h | h | h | h | h
          · exact absurd hI (not_le.mpr (incInt_neg (Or.inl h)))
          · exact absurd hH (not_le.mpr (incInt_neg (Or.inl h)))
          · omega
          · exact absurd hI (not_le.mpr (incInt_neg (Or.inr h)))
          · exact absurd hH (not_le.mpr (incInt_neg (Or.inr h)))
        simp only [hI, hH, hO, if_true, if_false, Option.some_bind, Option.none_bind]
      · simp only [hI, hH, if_true, if_false, Option.some_bind, Option.none_bind]
    · simp only [hI, if_false, Option.none_bind]
  have hsome : -1 ≤ I → I ≤ 1024 → -1 ≤ H → H ≤ 1024 → 0 ≤ O →
      ∀ r1 r2 : F, ∃ nn, New srcH srcO I H O reg r1 r2 = some nn ∧
        len nn.InputLayer = I + 1 ∧ len nn.HiddenLayer = H + 1 ∧ len nn.OutputLayer = O := by
    intro hI0 hI1 hH0 hH1 hO r1 r2
    have eI := incInt_of_ge hI0 (show I < 2 ^ 63 - 1 by omega)
    have eH := incInt_of_ge hH0 (show H < 2 ^ 63 - 1 by omega)
    have hI : 0 ≤ incInt I := by omega
    have hH : 0 ≤ incInt H := by omega
    unfold New make
    simp only [hI, hH, hO, if_true, Option.some_bind]
    refine ⟨_, rfl, ?_, ?_, ?_⟩
    · simp only [len, List.length_replicate]
      omega
    · simp only [len, List.length_replicate]
      omega
    · simp only [len, List.length_replicate]
      omega
  refine ⟨fun h => ⟨hnone h r1 r2, hnone h _ _⟩, fun hI0 hI1 hH0 hH1 hO _ => ?_⟩
  obtain ⟨nn, h1, a1, a2, a3⟩ := hsome hI0 hI1 hH0 hH1 hO r1 r2
  obtain ⟨nd, h2, b1, b2, b3⟩ := hsome hI0 hI1 hH0 hH1 hO 0.25 0.1
  exact ⟨nn, nd, h1, h2, a1, a2, a3, b1, b2, b3⟩

/-- C14, amended, at the sizes `(-2, 0, 0)`, for which `make` panics, and at the
sizes `(0, -1, 0)`, for which a network is returned. -/
theorem New_validates_nothing_witness :
    ((-2 : Int) < -1 ∨ (0 : Int) < -1 ∨ (0 : Int) < 0 ∨ (-2 : Int) = 2 ^ 63 - 1 ∨
      (0 : Int) = 2 ^ 63 - 1) ∧
    New (fun _ _ => (0 : ℚ)) (fun _ _ => (0 : ℚ)) (-2) 0 0 false 1 0 = none ∧
    Defaultk (fun _ _ => (0 : ℚ)) (fun _ _ => (0 : ℚ)) (-2) 0 0 false = none ∧
    ∃ nn nd, New (fun _ _ => (0 : ℚ)) (fun _ _ => (0 : ℚ)) 0 (-1) 0 false 1 0 = some nn ∧
      Defaultk (fun _ _ => (0 : ℚ)) (fun _ _ => (0 : ℚ)) 0 (-1) 0 false = some nd ∧
      len nn.InputLayer = 0 + 1 ∧ len nn.HiddenLayer = -1 + 1 ∧ len nn.OutputLayer = 0 ∧
      len nd.InputLayer = 0 + 1 ∧ len nd.HiddenLayer = -1 + 1 ∧ len nd.OutputLayer = 0 :=
  ⟨by decide,
    ((New_validates_nothing (fun _ _ => (0 : ℚ)) (fun _ _ => (0 : ℚ)) (-2) 0 0 false 1 0).1
      (by decide)).1,
    ((New_validates_nothing (fun _ _ => (0 : ℚ)) (fun _ _ => (0 : ℚ)) (-2) 0 0 false 1 0).1
      (by decide)).2,
    (New_validates_nothing (fun _ _ => (0 : ℚ)) (fun _ _ => (0 : ℚ)) 0 (-1) 0 false 1 0).2
      (by decide) (by decide) (by decide) (by decide) (by decide) (by decide)⟩

/-- C15 fails on the code: `Train` drops what `Forward` returns. With the second
input of length two on a network whose input layer takes one feature, `Forward`
returns the shape error for that sample, and `Train` goes on and returns
success. -/
theorem Train_swallows_Forward_error :
    Forward ratMath net0 [1, 2] = some (net0, Except.error ShapeError.input) ∧
    (Train ratMath (fun _ => 0) net0 [[1], [1, 2]] [[0], [0]] 1).map Prod.snd =
      some (Except.ok ()) := by
  decide!

/-- C16: for a network `nn` that `New` returns for the sizes `(I, H, O)`, after any
sequence of `Forward`, `ForwardMap`, `Feedback`, `FeedbackMap` and `CalcError`
calls that returns, `InputLayer` has `I + 1` entries, `HiddenLayer` `H + 1` and
`OutputLayer` `O`, and the four matrices have the rows and columns they had
when `New` returned: `H + 1` rows of `I + 1` entries, or `O` rows of `H + 1`.
And with `I` and `H` not negative, a sequence of calls whose arguments are in
range does return. -/
theorem shapes_fixed_at_creation (P : GoMath F) (srcH srcO : Nat → Nat → F) (I H O : Int)
    (reg : Bool) (r1 r2 : F) (nn : Net F) (hnew : New srcH srcO I H O reg r1 r2 = some nn)
    (calls : List (Call F)) :
    (∀ nn1, runCalls P calls nn = some nn1 →
      len nn1.InputLayer = I + 1 ∧ len nn1.HiddenLayer = H + 1 ∧ len nn1.OutputLayer = O ∧
      dims nn1.WeightHidden = dims nn.WeightHidden ∧
      dims nn1.WeightOutput = dims nn.WeightOutput ∧
      dims nn1.LastChangeHidden = dims nn.LastChangeHidden ∧
      dims nn1.LastChangeOutput = dims nn.LastChangeOutput ∧
      dims nn1.WeightHidden = List.replicate (H + 1).toNat (I + 1).toNat ∧
      dims nn1.WeightOutput = List.replicate O.toNat (H + 1).toNat ∧
      dims nn1.LastChangeHidden = List.replicate (H + 1).toNat (I + 1).toNat ∧
      dims nn1.LastChangeOutput = List.replicate O.toNat (H + 1).toNat) ∧
    (0 ≤ I → 0 ≤ H → (∀ c ∈ calls, CallInRange I O c) →
      ∃ nn1, runCalls P calls nn = some nn1) := by
  obtain ⟨hI, hH, hO, a1, a2, a3, _, _, a6, a7, a8, a9⟩ :=
    New_spec srcH srcO I H O reg r1 r2 nn hnew
  constructor
  · intro nn1 hrun
    obtain ⟨⟨b1, b2, b3, _, _, b6, b7, b8, b9⟩, _⟩ := runCalls_keeps hrun
    unfold len at b1 b2 b3 ⊢
    exact ⟨by omega, by omega, by omega, b6, b7, b8, b9, b6.trans a6, b7.trans a7,
      b8.trans a8, b9.trans a9⟩
  · intro hI0 hH0 hcalls
    have hw := New_wellShaped srcH srcO I H O reg r1 r2 nn hnew hI0 hH0
    have key : ∀ (cs : List (Call F)) (n : Net F), WellShaped n I.toNat H.toNat O.toNat →
        (∀ c ∈ cs, CallInRange I O c) → ∃ n1, runCalls P cs n = some n1 := by
      intro cs
      induction cs with
      | nil => exact fun n _ _ => ⟨n, rfl⟩
      | cons c cs ih =>
        intro n hn hcs
        have hc := hcs c (List.mem_cons_self _ _)
        rw [← Int.toNat_of_nonneg hI0, ← Int.toNat_of_nonneg hO] at hc
        obtain ⟨n1, h1⟩ := runCall_total P n I.toNat H.toNat O.toNat hn c hc
        obtain ⟨n2, h2⟩ := ih n1 (WellShaped_of_keeps hn (runCall_keeps h1))
          (fun c1 hc1 => hcs c1 (List.mem_cons_of_mem _ hc1))
        refine ⟨n2, ?_⟩
        unfold runCalls at h2 ⊢
        simp only [forEach, h1, Option.some_bind]
        exact h2
    exact key calls nn hw hcalls

/-- C16 at the network `New` returns for the sizes `(1, 1, 1)` and the calls
`Forward([5])`, `Feedback([0])`, `ForwardMap` with the entry `0 ↦ 2`,
`FeedbackMap([1])` with the same map, and `CalcError([0])`. -/
theorem shapes_fixed_at_creation_witness :
    New (fun _ _ => (0 : ℚ)) (fun _ _ => (0 : ℚ)) 1 1 1 true 1 0 =
        some { net0 with WeightOutput := [[0, 0]] } ∧ (0 : Int) ≤ 1 ∧
    (∀ c ∈ [Call.forward [(5 : ℚ)], Call.feedback [0], Call.forwardMap (fun _ => [(0, 2)]),
        Call.feedbackMap [1] (fun _ => [(0, 2)]), Call.calcError [0]], CallInRange 1 1 c) ∧
    ∃ nn1, runCalls ratMath [Call.forward [(5 : ℚ)], Call.feedback [0],
        Call.forwardMap (fun _ => [(0, 2)]), Call.feedbackMap [1] (fun _ => [(0, 2)]),
        Call.calcError [0]] { net0 with WeightOutput := [[0, 0]] } = some nn1 ∧
      len nn1.InputLayer = 1 + 1 ∧ len nn1.HiddenLayer = 1 + 1 ∧ len nn1.OutputLayer = 1 ∧
      dims nn1.WeightHidden = [2, 2] ∧ dims nn1.WeightOutput = [2] ∧
      dims nn1.LastChangeHidden = [2, 2] ∧ dims nn1.LastChangeOutput = [2] :=
  have hnew : New (fun _ _ => (0 : ℚ)) (fun _ _ => (0 : ℚ)) 1 1 1 true 1 0 =
      some { net0 with WeightOutput := [[0, 0]] } := by decide!
  have hkv : ∀ kv ∈ [((0 : Int), (2 : ℚ))], 0 ≤ kv.1 ∧ kv.1 ≤ (1 : Int) := by
    intro kv hkv
    rw [List.mem_singleton.mp hkv]
    decide
  have hin : ∀ c ∈ [Call.forward [(5 : ℚ)], Call.feedback [0],
      Call.forwardMap (fun _ => [(0, 2)]), Call.feedbackMap [1] (fun _ => [(0, 2)]),
      Call.calcError [0]], CallInRange 1 1 c := by
    intro c hc
    simp only [List.mem_cons, List.mem_singleton, List.not_mem_nil, or_false] at hc
    rcases hc with rfl | rfl | rfl | rfl | rfl
    · trivial
    · show (1 : Int) ≤ len [(0 : ℚ)]
      decide
    · exact fun _ => hkv
    · exact ⟨by decide, fun _ =>
        ⟨(by decide : ([((0 : Int), (2 : ℚ))].map Prod.fst).Nodup), hkv⟩⟩
    · show (1 : Int) ≤ len [(0 : ℚ)]
      decide
  have h := shapes_fixed_at_creation ratMath (fun _ _ => (0 : ℚ)) (fun _ _ => (0 : ℚ)) 1 1 1
    true 1 0 { net0 with WeightOutput := [[0, 0]] } hnew
    [Call.forward [(5 : ℚ)], Call.feedback [0], Call.forwardMap (fun _ => [(0, 2)]),
      Call.feedbackMap [1] (fun _ => [(0, 2)]), Call.calcError [0]]
  ⟨hnew, by decide, hin,
    (h.2 (by decide) (by decide) hin).elim fun nn1 h1 =>
      ⟨nn1, h1, (h.1 nn1 h1).1, (h.1 nn1 h1).2.1, (h.1 nn1 h1).2.2.1,
        (h.1 nn1 h1).2.2.2.2.2.2.2.1, (h.1 nn1 h1).2.2.2.2.2.2.2.2.1,
        (h.1 nn1 h1).2.2.2.2.2.2.2.2.2.1, (h.1 nn1 h1).2.2.2.2.2.2.2.2.2.2⟩⟩

/-- C20: on a well-shaped network, the row `H` of `WeightHidden`, the row `H` of
`LastChangeHidden` and the entry `H` of `ErrHidden` are what they were after any
`Forward`, `ForwardMap`, `Feedback` or `FeedbackMap` call that returns, after any
sequence of such calls, and after `Train` and `TrainMap`. And none of the four
methods reads the two rows: replacing them by any rows `rW` and `rL` before a
call changes nothing in what the call returns and leaves but these two rows. -/
theorem hidden_bias_rows_untouched (P : GoMath F) (nn : Net F) (I H O : Nat)
    (hw : WellShaped nn I H O) :
    (∀ v n1 r, Forward P nn v = some (n1, r) → SameHiddenRow (H : Int) nn n1) ∧
    (∀ m n1 out, ForwardMap P nn m = some (n1, out) → SameHiddenRow (H : Int) nn n1) ∧
    (∀ t n1, Feedback nn t = some n1 → SameHiddenRow (H : Int) nn n1) ∧
    (∀ t m n1, FeedbackMap nn t m = some n1 → SameHiddenRow (H : Int) nn n1) ∧
    (∀ calls n1, runCalls P calls nn = some n1 → SameHiddenRow (H : Int) nn n1) ∧
    (∀ draws inputs targets iteration n1 r,
      Train P draws nn inputs targets iteration = some (n1, r) →
        SameHiddenRow (H : Int) nn n1) ∧
    (∀ draws inputs targets iteration n1 r,
      TrainMap P draws nn inputs targets iteration = some (n1, r) →
        SameHiddenRow (H : Int) nn n1) ∧
    (∀ rW rL v, Forward P (setBiasRows H nn rW rL) v =
      (Forward P nn v).map fun r => (setBiasRows H r.1 rW rL, r.2)) ∧
    (∀ rW rL m, ForwardMap P (setBiasRows H nn rW rL) m =
      (ForwardMap P nn m).map fun r => (setBiasRows H r.1 rW rL, r.2)) ∧
    (∀ rW rL t, Feedback (setBiasRows H nn rW rL) t =
      (Feedback nn t).map fun x => setBiasRows H x rW rL) ∧
    (∀ rW rL t m, FeedbackMap (setBiasRows H nn rW rL) t m =
      (FeedbackMap nn t m).map fun x => setBiasRows H x rW rL) := by
  have lH := len_eq_of_length hw.2.1
  have hk : ¬ (0 ≤ (H : Int) ∧ (H : Int) < len nn.HiddenLayer - 1) := by omega
  have hH : len nn.HiddenLayer - 1 ≤ (H : Int) := by omega
  exact ⟨fun v n1 r h => (Forward_keeps h).2 _ hk,
    fun m n1 out h => (ForwardMap_keeps h).2 _ hk,
    fun t n1 h => (Feedback_keeps h).2 _ hk,
    fun t m n1 h => (FeedbackMap_keeps h).2 _ hk,
    fun calls n1 h => (runCalls_keeps h).2 _ hk,
    fun draws inputs targets iteration n1 r h => (Train_keeps h).2 _ hk,
    fun draws inputs targets iteration n1 r h => (TrainMap_keeps h).2 _ hk,
    fun rW rL v => Forward_setBiasRows P H nn rW rL v hH,
    fun rW rL m => ForwardMap_setBiasRows P H nn rW rL m hH,
    fun rW rL t => Feedback_setBiasRows H nn rW rL t hH,
    fun rW rL t m => FeedbackMap_setBiasRows H nn rW rL t m hH⟩

/-- C20 at the network `net0Forward`, the target `[0]` and the rows `[7, 7]` and
`[8, 8]`: `Feedback` returns, leaves the hidden bias rows as they were, and
does the same work when the two rows are replaced first. -/
theorem hidden_bias_rows_untouched_witness :
    WellShaped net0Forward 1 1 1 ∧
    ∃ n1, Feedback net0Forward [0] = some n1 ∧ SameHiddenRow ((1 : Nat) : Int) net0Forward n1 ∧
      Feedback (setBiasRows 1 net0Forward [7, 7] [8, 8]) [0] =
        some (setBiasRows 1 n1 [7, 7] [8, 8]) :=
  ⟨by decide,
    (Feedback_wellShaped net0Forward 1 1 1 (by decide) [0] (by decide)).elim fun n1 h =>
      ⟨n1, h.1,
        (hidden_bias_rows_untouched ratMath net0Forward 1 1 1 (by decide)).2.2.1 [0] n1 h.1,
        by
          rw [(hidden_bias_rows_untouched ratMath net0Forward 1 1 1
            (by decide)).2.2.2.2.2.2.2.2.2.1 [7, 7] [8, 8] [0], h.1]
          rfl⟩⟩

/-- C19: in exact arithmetic (a ring), on a well-shaped network whose
`OutputLayer` is the target `t` and whose two momentum buffers hold `0`
everywhere, `Feedback(t)` returns and leaves `WeightOutput`, `WeightHidden` and
both momentum buffers as they were, the buffers therefore all `0`; in regression
mode and in sigmoid mode, for any `Rate1` and `Rate2`. -/
theorem zero_error_fixed_point {F : Type} [Ring F] [Div F] [OfScientific F] (nn : Net F)
    (I H O : Nat) (hw : WellShaped nn I H O) (t : List F) (ht : nn.OutputLayer = t)
    (hLO : ∀ row ∈ nn.LastChangeOutput, ∀ x ∈ row, x = 0)
    (hLH : ∀ row ∈ nn.LastChangeHidden, ∀ x ∈ row, x = 0) :
    ∃ nn1, Feedback nn t = some nn1 ∧
      nn1.WeightOutput = nn.WeightOutput ∧ nn1.WeightHidden = nn.WeightHidden ∧
      nn1.LastChangeOutput = nn.LastChangeOutput ∧
      nn1.LastChangeHidden = nn.LastChangeHidden ∧
      (∀ row ∈ nn1.LastChangeOutput, ∀ x ∈ row, x = 0) ∧
      (∀ row ∈ nn1.LastChangeHidden, ∀ x ∈ row, x = 0) := by
  have lO := len_eq_of_length hw.2.2.1
  obtain ⟨eo, eh, W, L, W2, L2, hrun, _, _, dW, dL, dW2, dL2, hveo, hveh, _, hvW, hvW2, hrowH⟩ :=
    Feedback_spec nn I H O hw t (by rw [← ht]; omega)
  obtain ⟨_, _, _, _, _, hWH, hWO, hLCH, hLCO⟩ := hw
  have eo0 : ∀ i : Int, 0 ≤ i → i < (O : Int) → valAt eo i = 0 := by
    intro i h0 h1
    rw [valAt_of_getAt (hveo i h0 h1), ht, sub_self]
  have eh0 : ∀ i : Int, 0 ≤ i → i < (H : Int) → valAt eh i = 0 := by
    intro i h0 h1
    rw [valAt_of_getAt (hveh i h0 h1)]
    apply sumOf_zero
    intro j hj
    obtain ⟨hj0, hj1⟩ := mem_upTo.mp hj
    rw [eo0 j hj0 hj1]
    split <;> simp
  have oc : ∀ i : Int, 0 ≤ i → i < (O : Int) → ∀ j : Int,
      outputChange { nn with ErrOutput := eo } i j (valAt2 nn.LastChangeOutput i j) = 0 := by
    intro i h0 h1 j
    unfold outputChange
    show nn.Rate1 * (if nn.Regression then valAt eo i
      else valAt eo i * dsigmoid (valAt nn.OutputLayer i)) * valAt nn.HiddenLayer j +
      nn.Rate2 * valAt2 nn.LastChangeOutput i j = 0
    rw [eo0 i h0 h1, valAt2_eq_zero hLO]
    split <;> simp
  have hc : ∀ i : Int, 0 ≤ i → i < (H : Int) → ∀ j : Int,
      hiddenChange { nn with ErrHidden := eh } i j (valAt2 nn.LastChangeHidden i j) = 0 := by
    intro i h0 h1 j
    unfold hiddenChange
    show nn.Rate1 * (valAt eh i * dsigmoid (valAt nn.HiddenLayer i)) * valAt nn.InputLayer j +
      nn.Rate2 * valAt2 nn.LastChangeHidden i j = 0
    rw [eh0 i h0 h1, valAt2_eq_zero hLH]
    simp
  have eW : W = nn.WeightOutput := by
    apply ext_getAt2_of_dims dW hWO
    intro i j hi0 hi1 hj0 hj1
    rw [(hvW i hi0 hi1 j hj0 (by push_cast at hj1; omega)).1, oc i hi0 hi1 j, sub_zero]
    exact (getAt2_eq_valAt2 ((getAt2_isSome_of_dims hWO i j).mpr ⟨⟨hi0, hi1⟩, hj0, hj1⟩)).symm
  have eL : L = nn.LastChangeOutput := by
    apply ext_getAt2_of_dims dL hLCO
    intro i j hi0 hi1 hj0 hj1
    rw [(hvW i hi0 hi1 j hj0 (by push_cast at hj1; omega)).2, oc i hi0 hi1 j,
      getAt2_eq_valAt2 ((getAt2_isSome_of_dims hLCO i j).mpr ⟨⟨hi0, hi1⟩, hj0, hj1⟩),
      valAt2_eq_zero hLO]
  have eW2 : W2 = nn.WeightHidden := by
    apply ext_getAt2_of_dims dW2 hWH
    intro i j hi0 hi1 hj0 hj1
    by_cases hi : i < (H : Int)
    · rw [(hvW2 i hi0 hi j hj0 (by push_cast at hj1; omega)).1, hc i hi0 hi j, sub_zero]
      exact (getAt2_eq_valAt2 ((getAt2_isSome_of_dims hWH i j).mpr ⟨⟨hi0, hi1⟩, hj0, hj1⟩)).symm
    · have : i = (H : Int) := by push_cast at hi1; omega
      rw [this]
      exact (hrowH j).1
  have eL2 : L2 = nn.LastChangeHidden := by
    apply ext_getAt2_of_dims dL2 hLCH
    intro i j hi0 hi1 hj0 hj1
    by_cases hi : i < (H : Int)
    · rw [(hvW2 i hi0 hi j hj0 (by push_cast at hj1; omega)).2, hc i hi0 hi j,
        getAt2_eq_valAt2 ((getAt2_isSome_of_dims hLCH i j).mpr ⟨⟨hi0, hi1⟩, hj0, hj1⟩),
        valAt2_eq_zero hLH]
    · have : i = (H : Int) := by push_cast at hi1; omega
      rw [this]
      exact (hrowH j).2
  refine ⟨_, hrun, eW, eW2, eL, eL2, ?_, ?_⟩
  · show ∀ row ∈ L, ∀ x ∈ row, x = 0
    rw [eL]
    exact hLO
  · show ∀ row ∈ L2, ∀ x ∈ row, x = 0
    rw [eL2]
    exact hLH

/-- C19 at the network `net0Forward`, whose output is `[1/2]` and whose momentum
buffers are zero, and the target `[1/2]`. -/
theorem zero_error_fixed_point_witness :
    WellShaped net0Forward 1 1 1 ∧ net0Forward.OutputLayer = [1 / 2] ∧
    (∀ row ∈ net0Forward.LastChangeOutput, ∀ x ∈ row, x = 0) ∧
    (∀ row ∈ net0Forward.LastChangeHidden, ∀ x ∈ row, x = 0) ∧
    ∃ nn1, Feedback net0Forward [1 / 2] = some nn1 ∧
      nn1.WeightOutput = net0Forward.WeightOutput ∧ nn1.WeightHidden = net0Forward.WeightHidden ∧
      nn1.LastChangeOutput = net0Forward.LastChangeOutput ∧
      nn1.LastChangeHidden = net0Forward.LastChangeHidden ∧
      (∀ row ∈ nn1.LastChangeOutput, ∀ x ∈ row, x = 0) ∧
      (∀ row ∈ nn1.LastChangeHidden, ∀ x ∈ row, x = 0) :=
  ⟨by decide, by decide!, by decide!, by decide!,
    zero_error_fixed_point net0Forward 1 1 1 (by decide) [1 / 2] (by decide!) (by decide!)
      (by decide!)⟩

/-- C17: in exact arithmetic (an ordered field, `int(x)` the whole part of
`x ≥ 0`, `float64(n)` the number `n`), for every `N ≥ 0` and every sequence of
draws in `[0, 1)`, `genRandomIdx(N)` returns a list of length `N` that is a
rearrangement of `0, ..., N-1`, so holds each of them exactly once, and the swap
index `j` it computes at every position `i` satisfies `i ≤ j < N`. -/
theorem genRandomIdx_permutation {F : Type} [LinearOrderedField F] [FloorRing F]
    (P : GoMath F) (hto : ∀ x : F, 0 ≤ x → P.toInt x = ⌊x⌋)
    (hof : ∀ n : Int, P.ofInt n = (n : F)) (draws : Nat → F)
    (hd : ∀ c, 0 ≤ draws c ∧ draws c < 1) (c : Nat) (N : Int) (hN : 0 ≤ N) :
    ∃ A c1, genRandomIdx P draws c N = some (A, c1) ∧ len A = N ∧ A.Perm (upTo N) ∧
      A.Nodup ∧ (∀ k, k ∈ A ↔ 0 ≤ k ∧ k < N) ∧
      ∀ i : Int, 0 ≤ i → i < N →
        i ≤ i + P.toInt (draws (c + i.toNat) * P.ofInt (N - i)) ∧
        i + P.toInt (draws (c + i.toNat) * P.ofInt (N - i)) < N := by
  obtain ⟨A, hA, hl, hp⟩ := genRandomIdx_spec P hto hof draws hd c N hN
  refine ⟨A, _, hA, hl, hp, hp.nodup_iff.mpr (upTo_nodup N),
    fun k => hp.mem_iff.trans mem_upTo, fun i _ h1 => ?_⟩
  obtain ⟨a, b⟩ := swapIndex_bound P hto hof (draws (c + i.toNat)) (hd _) N i h1
  exact ⟨by omega, b⟩

/-- C17 at `N = 5` with every draw equal to `1/2`. -/
theorem genRandomIdx_permutation_witness :
    (∀ x : ℚ, 0 ≤ x → ratMath.toInt x = ⌊x⌋) ∧ (∀ n : Int, ratMath.ofInt n = (n : ℚ)) ∧
    (∀ c : Nat, (0 : ℚ) ≤ (fun _ => 1 / 2) c ∧ (fun _ => (1 / 2 : ℚ)) c < 1) ∧ (0 : Int) ≤ 5 ∧
    ∃ A c1, genRandomIdx ratMath (fun _ => 1 / 2) 0 5 = some (A, c1) ∧ len A = 5 ∧
      A.Perm (upTo 5) ∧ A.Nodup ∧ (∀ k, k ∈ A ↔ 0 ≤ k ∧ k < 5) ∧
      ∀ i : Int, 0 ≤ i → i < 5 →
        i ≤ i + ratMath.toInt ((fun _ => (1 / 2 : ℚ)) (0 + i.toNat) * ratMath.ofInt (5 - i)) ∧
        i + ratMath.toInt ((fun _ => (1 / 2 : ℚ)) (0 + i.toNat) * ratMath.ofInt (5 - i)) < 5 :=
  have hto : ∀ x : ℚ, 0 ≤ x → ratMath.toInt x = ⌊x⌋ := fun _ hx => if_pos hx
  have hof : ∀ n : Int, ratMath.ofInt n = (n : ℚ) := fun _ => rfl
  have hd : ∀ c : Nat, (0 : ℚ) ≤ (fun _ => 1 / 2) c ∧ (fun _ => (1 / 2 : ℚ)) c < 1 :=
    fun _ => ⟨by norm_num, by norm_num⟩
  ⟨hto, hof, hd, by decide,
    genRandomIdx_permutation ratMath hto hof (fun _ => 1 / 2) hd 0 5 (by decide)⟩

/-- C18: in exact arithmetic with draws in `[0, 1)`, on a well-shaped network of
sizes `(I, H, O)`, a non-empty list of inputs each of length `I` and a list of
targets at least as long, each of length `O`, `Train` returns success for every
epoch count, negative and zero included: no index is out of range, and the
test that guards the report returns at every epoch, its divisor `iteration/10`
being non-zero whenever `iteration ≥ 10`. The network `Train` leaves is
well-shaped. -/
theorem Train_total {F : Type} [LinearOrderedField F] [FloorRing F]
    (P : GoMath F) (hto : ∀ x : F, 0 ≤ x → P.toInt x = ⌊x⌋)
    (hof : ∀ n : Int, P.ofInt n = (n : F)) (draws : Nat → F)
    (hd : ∀ c, 0 ≤ draws c ∧ draws c < 1) (nn : Net F) (I H O : Nat)
    (hw : WellShaped nn I H O) (inputs targets : List (List F)) (hne : inputs ≠ [])
    (hin : ∀ v ∈ inputs, v.length = I) (htl : inputs.length ≤ targets.length)
    (htg : ∀ t ∈ targets, t.length = O) (iteration : Int) :
    (∃ nn1, Train P draws nn inputs targets iteration = some (nn1, Except.ok ()) ∧
      WellShaped nn1 I H O) ∧
    (∀ i : Int, ∃ b, reportDue iteration i = some b) ∧
    (10 ≤ iteration → Int.tdiv iteration 10 ≠ 0) := by
  refine ⟨Train_spec P hto hof draws hd nn I H O hw inputs targets hne hin htl htg iteration,
    fun i => reportDue_total iteration i, fun h => ?_⟩
  rw [Int.tdiv_eq_ediv (by omega) (by omega)]
  omega

/-- C18 at the network `net0`, two samples, every draw equal to `1/2`, and `12`
epochs. -/
theorem Train_total_witness :
    (∀ x : ℚ, 0 ≤ x → ratMath.toInt x = ⌊x⌋) ∧ (∀ n : Int, ratMath.ofInt n = (n : ℚ)) ∧
    (∀ c : Nat, (0 : ℚ) ≤ (fun _ => 1 / 2) c ∧ (fun _ => (1 / 2 : ℚ)) c < 1) ∧
    WellShaped net0 1 1 1 ∧ ([[1], [0]] : List (List ℚ)) ≠ [] ∧
    (∀ v ∈ ([[1], [0]] : List (List ℚ)), v.length = 1) ∧
    ([[1], [0]] : List (List ℚ)).length ≤ ([[0], [1], [1]] : List (List ℚ)).length ∧
    (∀ t ∈ ([[0], [1], [1]] : List (List ℚ)), t.length = 1) ∧
    (∃ nn1, Train ratMath (fun _ => 1 / 2) net0 [[1], [0]] [[0], [1], [1]] 12 =
        some (nn1, Except.ok ()) ∧ WellShaped nn1 1 1 1) ∧
    (∀ i : Int, ∃ b, reportDue 12 i = some b) ∧
    ((10 : Int) ≤ 12 → Int.tdiv 12 10 ≠ 0) :=
  have hto : ∀ x : ℚ, 0 ≤ x → ratMath.toInt x = ⌊x⌋ := fun _ hx => if_pos hx
  have hof : ∀ n : Int, ratMath.ofInt n = (n : ℚ) := fun _ => rfl
  have hd : ∀ c : Nat, (0 : ℚ) ≤ (fun _ => 1 / 2) c ∧ (fun _ => (1 / 2 : ℚ)) c < 1 :=
    fun _ => ⟨by norm_num, by norm_num⟩
  ⟨hto, hof, hd, by decide, by decide, by decide, by decide, by decide,
    Train_total ratMath hto hof (fun _ => 1 / 2) hd net0 1 1 1 (by decide) [[1], [0]]
      [[0], [1], [1]] (by decide) (by decide) (by decide) (by decide) 12⟩

end Claims
end Neuro
